import Mathlib

/-!
The LightDM user list (liblightdm-gobject/user-list.c).

A shallow embedding of the user-list cache: the passwd scan and its
reconciliation against the previous list (load_passwd_file), the
accounts-service callbacks, and the query entry points.

Conventions of the embedding.

* A C string is the list of its bytes. A nullable string is an Option.
* A LightDMUser object lives in a heap and is referred to by its address, a
  natural number; two list cells hold the same instance exactly when they hold
  the same address. Addresses are never reused: a released object keeps its
  cell.
* A GList of users is the list of the addresses it holds, head first.
* Every signal emitted on the user list is logged together with the list a
  listener would read at that moment.
-/

namespace LightDM

/-! ## Strings -/

/-- The bytes of a NUL-terminated string, terminator left out. -/
abbrev CString := List Nat

/-- An ASCII literal as a C string. -/
def cstr (s : String) : CString := s.toList.map Char.toNat

/-- The libc comparison: byte-wise, only the sign of the result is used. -/
def strcmp : CString → CString → Int
  | [], [] => 0
  | [], _ :: _ => -1
  | _ :: _, [] => 1
  | a :: as, b :: bs => if a < b then -1 else if b < a then 1 else strcmp as bs

/-- The NULL-tolerant comparison of glib: NULL sorts before every string. -/
def g_strcmp0 : Option CString → Option CString → Int
  | none, none => 0
  | none, some _ => -1
  | some _, none => 1
  | some a, some b => strcmp a b

/-- Pieces of a string between occurrences of a one-byte delimiter. -/
def split_pieces (delimiter : Nat) : CString → List CString
  | [] => [[]]
  | c :: cs =>
    if c = delimiter then [] :: split_pieces delimiter cs
    else
      match split_pieces delimiter cs with
      | [] => [[c]]
      | t :: ts => (c :: t) :: ts

/-- The glib splitter with a one-byte delimiter and no token limit: the empty
string gives the empty vector. -/
def g_strsplit (string : CString) (delimiter : Nat) : List CString :=
  if string = [] then [] else split_pieces delimiter string

/-- Drop the trailing directory separators of a path element. -/
def strip_trailing_slashes (s : CString) : CString :=
  (s.reverse.dropWhile (fun c => c == 47)).reverse

/-- The glib path builder for a directory and one separator-free element: an
empty directory is skipped, a directory made of separators only is kept as it
is and followed by the element, any other directory loses its trailing
separators and is joined to the element by one separator. -/
def g_build_filename (dir element : CString) : CString :=
  if dir = [] then element
  else if strip_trailing_slashes dir = [] then dir ++ element
  else strip_trailing_slashes dir ++ [47] ++ element

/-! ## Lists -/

/-- The glib sorted insertion: the new cell goes before the first cell that
does not compare strictly below it. -/
def g_list_insert_sorted (list : List Nat) (data : Nat) (func : Nat → Nat → Int) : List Nat :=
  match list with
  | [] => [data]
  | x :: rest =>
    if func data x > 0 then x :: g_list_insert_sorted rest data func
    else data :: x :: rest

/-- The glib removal: the first cell holding the data is unlinked. -/
def g_list_remove (list : List Nat) (data : Nat) : List Nat :=
  list.erase data

/-! ## User records -/

/-- Modelled from the spec: the LightDMUser class (user.c is not part of the
sources at hand). The spec gives a record a name, an optional real name, a home
directory, an optional image path and a logged-in flag, all set as plain
properties. -/
structure LightDMUser where
  name : CString
  real_name : Option CString
  home_directory : Option CString
  image : Option CString
  logged_in : Bool
  deriving DecidableEq, Repr

/-- Modelled from the spec: a record created without properties has the empty
name and no other attribute. -/
instance : Inhabited LightDMUser := ⟨⟨[], none, none, none, false⟩⟩

/-- Modelled from the spec: the display name of a record is its real name, or
its name when the real name is empty. -/
def lightdm_user_get_display_name (u : LightDMUser) : CString :=
  match u.real_name with
  | some (c :: cs) => c :: cs
  | _ => u.name

/-- The object heap: the cell at address p holds the record of object p. -/
abbrev Heap := List LightDMUser

/-- Read the record at an address. -/
def deref (heap : Heap) (p : Nat) : LightDMUser := (heap[p]?).getD default

/-- Create an object: it takes the next free address. -/
def g_object_new (heap : Heap) (u : LightDMUser) : Heap × Nat := (heap ++ [u], heap.length)

/-- First record of the list with the given name. -/
def get_user_by_name (heap : Heap) (users : List Nat) (username : CString) : Option Nat :=
  users.find? (fun user => strcmp (deref heap user).name username == 0)

/-- Order of two records by display name. -/
def compare_user (heap : Heap) (a b : Nat) : Int :=
  strcmp (lightdm_user_get_display_name (deref heap a)) (lightdm_user_get_display_name (deref heap b))

/-- Overwrite the four mutable attributes of a record when one of them differs;
tells whether it did. -/
def update_passwd_user (heap : Heap) (user : Nat) (real_name home_directory image : Option CString)
    (logged_in : Bool) : Heap × Bool :=
  let u := deref heap user
  if g_strcmp0 u.real_name real_name = 0 ∧ g_strcmp0 u.home_directory home_directory = 0 ∧
      g_strcmp0 u.image image = 0 ∧ u.logged_in = logged_in then
    (heap, false)
  else
    (heap.set user { u with real_name := real_name, home_directory := home_directory,
                            image := image, logged_in := logged_in }, true)

/-! ## Signals of the user list -/

/-- The three signals of the user list, each carrying a user object. -/
inductive Signal where
  | user_added (user : Nat)
  | user_changed (user : Nat)
  | user_removed (user : Nat)
  deriving DecidableEq, Repr

/-- One emission: the signal, and the list held by the user list while the
handlers run. -/
structure Emission where
  signal : Signal
  users : List Nat
  deriving DecidableEq, Repr

/-- A tracked accounts-service object: the object path of its proxy and its
user record. -/
structure UserAccountObject where
  proxy : CString
  user : Nat
  deriving DecidableEq, Repr

/-- The private data of a user list together with the object heap and the
connections of user_changed_cb to the changed signal of user objects. -/
structure LightDMUserList where
  heap : Heap
  changed_handlers : List Nat
  accounts_service_proxy : Bool
  user_account_objects : List UserAccountObject
  passwd_monitor : Bool
  have_users : Bool
  users : List Nat
  deriving DecidableEq, Repr

/-- The instance right after construction: the private data is zero-filled. -/
def lightdm_user_list_new : LightDMUserList :=
  { heap := [], changed_handlers := [], accounts_service_proxy := false,
    user_account_objects := [], passwd_monitor := false, have_users := false, users := [] }

/-- The handler of the changed signal of a user: it re-emits user-changed on
the list. -/
def user_changed_cb (users : List Nat) (user : Nat) : Emission :=
  ⟨Signal.user_changed user, users⟩

/-- Emit the changed signal on a user object: every connected handler runs. -/
def emit_changed (changed_handlers : List Nat) (users : List Nat) (user : Nat) : List Emission :=
  List.replicate (changed_handlers.count user) (user_changed_cb users user)

/-! ## The passwd source -/

/-- One entry of the account database, as returned by getpwent. -/
structure passwd where
  pw_name : CString
  pw_uid : Nat
  pw_gecos : CString
  pw_dir : CString
  pw_shell : Option CString
  deriving DecidableEq, Repr

/-- The keys of group UserList in the configuration file; a key that is not set
(or a file that could not be loaded) is none. -/
structure GKeyFile where
  minimum_uid : Option Int
  hidden_users : Option CString
  hidden_shells : Option CString
  deriving DecidableEq, Repr

/-- What the outside world answers during one run of load_passwd_file. -/
structure PasswdEnv where
  config : GKeyFile
  entries : List passwd
  errno : Nat
  g_file_test : CString → Bool

/-- The minimum UID in force. -/
def minimum_uid (config : GKeyFile) : Int :=
  match config.minimum_uid with
  | some v => v
  | none => 500

/-- The hidden user names in force. -/
def hidden_users (config : GKeyFile) : List CString :=
  g_strsplit (config.hidden_users.getD (cstr "nobody nobody4 noaccess")) 32

/-- The hidden shells in force. -/
def hidden_shells (config : GKeyFile) : List CString :=
  g_strsplit (config.hidden_shells.getD (cstr "/bin/false /usr/sbin/nologin")) 32

/-- The UID test: the unsigned 32-bit UID against the signed minimum converted
to unsigned. -/
def is_system_user (entry : passwd) (min_uid : Int) : Bool :=
  decide (((entry.pw_uid : Int) % 2 ^ 32) < min_uid % 2 ^ 32)

/-- The shell test: a shell is present and equals one of the hidden shells. -/
def has_hidden_shell (entry : passwd) (shells : List CString) : Bool :=
  match entry.pw_shell with
  | some shell => shells.any (fun h => strcmp shell h == 0)
  | none => false

/-- The name test: the name equals one of the hidden users. -/
def is_hidden_user (entry : passwd) (users : List CString) : Bool :=
  users.any (fun h => strcmp entry.pw_name h == 0)

/-- An entry passes the three tests. -/
def accepted (config : GKeyFile) (entry : passwd) : Bool :=
  !is_system_user entry (minimum_uid config) && !has_hidden_shell entry (hidden_shells config) &&
    !is_hidden_user entry (hidden_users config)

/-- The real name of an entry: the first comma-separated token of the gecos
field, NULL when that token is missing or empty. -/
def real_name_of (pw_gecos : CString) : Option CString :=
  match g_strsplit pw_gecos 44 with
  | (c :: cs) :: _ => some (c :: cs)
  | _ => none

/-- The image of an entry: .face in the home directory, else .face.icon, else
NULL. -/
def image_of (g_file_test : CString → Bool) (pw_dir : CString) : Option CString :=
  let face := g_build_filename pw_dir (cstr ".face")
  if g_file_test face then some face
  else
    let icon := g_build_filename pw_dir (cstr ".face.icon")
    if g_file_test icon then some icon else none

/-- The record built for an accepted entry. -/
def candidate (g_file_test : CString → Bool) (entry : passwd) : LightDMUser :=
  { name := entry.pw_name, real_name := real_name_of entry.pw_gecos,
    home_directory := some entry.pw_dir, image := image_of g_file_test entry.pw_dir,
    logged_in := false }

/-- The local lists of load_passwd_file while it scans. -/
structure Scan where
  heap : Heap
  users : List Nat
  new_users : List Nat
  changed_users : List Nat
  deriving DecidableEq, Repr

/-- The tail of the loop body, from the creation of the record on: the record
is matched by name against the previous list, an existing record is updated in
place and takes its place, and the result is inserted in the new list. -/
def merge_user (old_users : List Nat) (have_users : Bool) (st : Scan) (c : LightDMUser) : Scan :=
  let (heap, user) := g_object_new st.heap c
  match old_users.find? (fun info => strcmp (deref heap info).name (deref heap user).name == 0) with
  | some info =>
    let u := deref heap user
    let (heap2, changed) := update_passwd_user heap info u.real_name u.home_directory u.image u.logged_in
    { heap := heap2,
      users := g_list_insert_sorted st.users info (compare_user heap2),
      new_users := st.new_users,
      changed_users :=
        if changed then g_list_insert_sorted st.changed_users info (compare_user heap2)
        else st.changed_users }
  | none =>
    { heap := heap,
      users := g_list_insert_sorted st.users user (compare_user heap),
      new_users :=
        if have_users then g_list_insert_sorted st.new_users user (compare_user heap)
        else st.new_users,
      changed_users := st.changed_users }

/-- One turn of the scanning loop for one entry returned by getpwent. -/
def scan_entry (env : PasswdEnv) (old_users : List Nat) (have_users : Bool) (st : Scan)
    (entry : passwd) : Scan :=
  if is_system_user entry (minimum_uid env.config) then st
  else if has_hidden_shell entry (hidden_shells env.config) then st
  else if is_hidden_user entry (hidden_users env.config) then st
  else merge_user old_users have_users st (candidate env.g_file_test entry)

/-- The scanning loop, until getpwent returns NULL. -/
def scan (env : PasswdEnv) (s : LightDMUserList) : Scan :=
  env.entries.foldl (scan_entry env s.users s.have_users)
    { heap := s.heap, users := [], new_users := [], changed_users := [] }

/-- First notification loop: connect user_changed_cb to each new user and emit
user-added. -/
def notify_added (users : List Nat) : List Nat → List Nat → List Nat × List Emission
  | handlers, [] => (handlers, [])
  | handlers, info :: rest =>
    let r := notify_added users (handlers ++ [info]) rest
    (r.1, ⟨Signal.user_added info, users⟩ :: r.2)

/-- Second notification loop: emit changed on each changed user. -/
def notify_changed (handlers : List Nat) (users : List Nat) (changed_users : List Nat) :
    List Emission :=
  (changed_users.map (emit_changed handlers users)).flatten

/-- Third notification loop, the signals only: user-removed for each cell of
the previous list whose object is in no cell of the current list. The release
of line 279 is not part of it: this is the log of the loop when no removed
object is in two cells of the previous list, see remove_and_release. -/
def notify_removed (users : List Nat) (old_users : List Nat) : List Emission :=
  (old_users.filter (fun info => !users.contains info)).map
    (fun info => ⟨Signal.user_removed info, users⟩)

/-- A full run of load_passwd_file: scan, install the new list, notify. -/
def load_passwd_file (s : LightDMUserList) (env : PasswdEnv) : LightDMUserList × List Emission :=
  let st := scan env s
  let old_users := s.users
  let added := notify_added st.users s.changed_handlers st.new_users
  ({ s with heap := st.heap, changed_handlers := added.1, users := st.users },
   added.2 ++ notify_changed added.1 st.users st.changed_users ++ notify_removed st.users old_users)

/-- A failed read of the database is logged. -/
def load_passwd_file_warns (env : PasswdEnv) : Bool := env.errno != 0

/-- The events of a file monitor. -/
inductive GFileMonitorEvent where
  | CHANGED
  | CHANGES_DONE_HINT
  | DELETED
  | CREATED
  | ATTRIBUTE_CHANGED
  | PRE_UNMOUNT
  | UNMOUNTED
  deriving DecidableEq, Repr

/-- The handler of the passwd file monitor. -/
def passwd_changed_cb (s : LightDMUserList) (event_type : GFileMonitorEvent) (env : PasswdEnv) :
    LightDMUserList × List Emission :=
  if event_type = GFileMonitorEvent.CHANGES_DONE_HINT then load_passwd_file s env else (s, [])

/-! ## The accounts service -/

/-- The D-Bus values the callbacks tell apart, by type. -/
inductive GVariant where
  | unit
  | string (s : CString)
  | object_path (path : CString)
  | object_paths (paths : List CString)
  | other
  deriving DecidableEq, Repr

/-- What the service answers for one account object: whether a proxy for its
path can be made, and the reply of GetAll (none when the call fails). -/
structure AccountReply where
  proxy : Bool
  properties : Option (List (CString × GVariant))
  deriving DecidableEq, Repr

/-- One turn of the property loop of update_user: the four known properties
are stored when they are strings, anything else is skipped. -/
def set_account_property (u : LightDMUser) (name : CString) (value : GVariant) : LightDMUser :=
  match value with
  | GVariant.string v =>
    if strcmp name (cstr "UserName") = 0 then { u with name := v }
    else if strcmp name (cstr "RealName") = 0 then { u with real_name := some v }
    else if strcmp name (cstr "HomeDirectory") = 0 then { u with home_directory := some v }
    else if strcmp name (cstr "IconFile") = 0 then { u with image := some v }
    else u
  | _ => u

/-- Fetch all properties of an account into its user record; false when the
call fails, and the record is then left as it was. -/
def update_user (heap : Heap) (object : UserAccountObject)
    (reply : Option (List (CString × GVariant))) : Heap × Bool :=
  match reply with
  | none => (heap, false)
  | some properties =>
    (properties.foldl
      (fun h nv => h.set object.user (set_account_property (deref h object.user) nv.1 nv.2)) heap,
     true)

/-- Open the proxy of an account and create its empty user record; NULL when the
proxy cannot be made. -/
def user_account_object_new (heap : Heap) (path : CString) (proxy : Bool) :
    Option (Heap × UserAccountObject) :=
  if proxy then
    let (heap1, user) := g_object_new heap default
    some (heap1, { proxy := path, user := user })
  else none

/-- The common body of the enumeration loop and of the UserAdded branch: make
the object, fetch its properties, and on success track it, insert its record in
sorted position and connect user_changed_cb. The result tells the new record
when there is one. -/
def add_account (s : LightDMUserList) (path : CString) (reply : AccountReply) :
    LightDMUserList × Option Nat :=
  match user_account_object_new s.heap path reply.proxy with
  | some (heap1, object) =>
    let (heap2, ok) := update_user heap1 object reply.properties
    if ok then
      ({ s with heap := heap2,
                user_account_objects := s.user_account_objects ++ [object],
                users := g_list_insert_sorted s.users object.user (compare_user heap2),
                changed_handlers := s.changed_handlers ++ [object.user] },
       some object.user)
    else ({ s with heap := heap2 }, none)
  | none => (s, none)

/-- The handler of the signals of the accounts service. -/
def user_accounts_signal_cb (s : LightDMUserList) (signal_name : CString) (parameters : GVariant)
    (reply : AccountReply) : LightDMUserList × List Emission :=
  if strcmp signal_name (cstr "UserAdded") = 0 then
    match parameters with
    | GVariant.object_path path =>
      match add_account s path reply with
      | (s1, some user) => (s1, [⟨Signal.user_added user, s1.users⟩])
      | (s1, none) => (s1, [])
    | _ => (s, [])
  else if strcmp signal_name (cstr "UserDeleted") = 0 then
    match parameters with
    | GVariant.object_path path =>
      match s.user_account_objects.find? (fun object => strcmp object.proxy path == 0) with
      | some object =>
        let users := g_list_remove s.users object.user
        ({ s with users := users,
                  user_account_objects := s.user_account_objects.erase object },
         [⟨Signal.user_removed object.user, users⟩])
      | none => (s, [])
    | _ => (s, [])
  else (s, [])

/-- The handler of the signals of one account proxy. -/
def user_signal_cb (s : LightDMUserList) (signal_name : CString) (parameters : GVariant)
    (object : UserAccountObject) (reply : Option (List (CString × GVariant))) :
    LightDMUserList × List Emission :=
  if strcmp signal_name (cstr "Changed") = 0 then
    match parameters with
    | GVariant.unit =>
      let heap := (update_user s.heap object reply).1
      ({ s with heap := heap }, emit_changed s.changed_handlers s.users object.user)
    | _ => (s, [])
  else (s, [])

/-- What the outside world answers during one run of update_users. -/
structure Env where
  accounts_service : Bool
  list_cached_users : Option GVariant
  account : CString → AccountReply
  passwd : PasswdEnv
  g_file_monitor : Bool

/-- Select the backend and populate the list, once. -/
def update_users (s : LightDMUserList) (env : Env) : LightDMUserList × List Emission :=
  if s.have_users then (s, [])
  else
    let s1 := { s with have_users := true }
    if env.accounts_service then
      let s2 := { s1 with accounts_service_proxy := true }
      match env.list_cached_users with
      | none => (s2, [])
      | some (GVariant.object_paths paths) =>
        (paths.foldl (fun acc path => (add_account acc path (env.account path)).1) s2, [])
      | some _ => (s2, [])
    else
      let r := load_passwd_file s1 env.passwd
      ({ r.1 with passwd_monitor := env.g_file_monitor }, r.2)

/-- Number of users able to log in. -/
def lightdm_user_list_get_length (s : LightDMUserList) (env : Env) :
    (LightDMUserList × List Emission) × Nat :=
  let r := update_users s env
  (r, r.1.users.length)

/-- The list of users to present. -/
def lightdm_user_list_get_users (s : LightDMUserList) (env : Env) :
    (LightDMUserList × List Emission) × List Nat :=
  let r := update_users s env
  (r, r.1.users)

/-- The record of a given user, or NULL. -/
def lightdm_user_list_get_user_by_name (s : LightDMUserList) (env : Env) (username : CString) :
    (LightDMUserList × List Emission) × Option Nat :=
  let r := update_users s env
  (r, get_user_by_name r.1.heap r.1.users username)

/-! ## Reachable states -/

/-- What can happen to a user list: it is queried (any of the three entry
points runs update_users first), or one of its callbacks is run by the file
monitor, by the accounts service, or by the proxy of a tracked account. -/
inductive Action where
  | query (env : Env)
  | passwd_changed (event_type : GFileMonitorEvent) (env : PasswdEnv)
  | accounts_signal (signal_name : CString) (parameters : GVariant) (reply : AccountReply)
  | user_signal (signal_name : CString) (parameters : GVariant) (object : UserAccountObject)
      (reply : Option (List (CString × GVariant)))

/-- A callback can run only once it is connected: passwd_changed_cb to an armed
monitor, user_accounts_signal_cb to the proxy of the service, user_signal_cb to
the proxy of a tracked account. -/
def enabled (s : LightDMUserList) : Action → Prop
  | Action.query _ => True
  | Action.passwd_changed _ _ => s.passwd_monitor = true
  | Action.accounts_signal _ _ _ => s.accounts_service_proxy = true
  | Action.user_signal _ _ object _ => object ∈ s.user_account_objects

/-- The effect of an action. -/
def run (s : LightDMUserList) : Action → LightDMUserList × List Emission
  | Action.query env => update_users s env
  | Action.passwd_changed event_type env => passwd_changed_cb s event_type env
  | Action.accounts_signal signal_name parameters reply =>
    user_accounts_signal_cb s signal_name parameters reply
  | Action.user_signal signal_name parameters object reply =>
    user_signal_cb s signal_name parameters object reply

/-- The states reached from a new instance by enabled actions that all meet the
condition ok. -/
inductive ReachableWhen (ok : LightDMUserList → Action → Prop) : LightDMUserList → Prop where
  | created : ReachableWhen ok lightdm_user_list_new
  | step (s : LightDMUserList) (a : Action) :
      ReachableWhen ok s → enabled s a → ok s a → ReachableWhen ok (run s a).1

/-- The states a user list can be in. -/
def Reachable (s : LightDMUserList) : Prop := ReachableWhen (fun _ _ => True) s

/-- The record a successful fetch leaves for a new account: the empty record
with the properties of the reply stored in turn; none when the proxy cannot be
made or the fetch fails. -/
def fetched_record (reply : AccountReply) : Option LightDMUser :=
  if reply.proxy then
    reply.properties.map
      (fun properties => properties.foldl (fun u nv => set_account_property u nv.1 nv.2) default)
  else none

/-! ## Properties of states -/

/-- The records of the list, in list order. -/
def records (s : LightDMUserList) : List LightDMUser := s.users.map (deref s.heap)

/-- The names of the list, in list order. -/
def names (s : LightDMUserList) : List CString := (records s).map (fun u => u.name)

/-- The list is in ascending compare_user order. -/
def SortedUsers (heap : Heap) (users : List Nat) : Prop :=
  users.Pairwise (fun a b => compare_user heap a b ≤ 0)

/-- The entries of a scan that pass the three tests, as records. -/
def candidates (env : PasswdEnv) : List LightDMUser :=
  (env.entries.filter (accepted env.config)).map (candidate env.g_file_test)

/-- The signals of a log, in emission order. -/
def signals (log : List Emission) : List Signal := log.map (fun e => e.signal)

/-- The users a log reports as added. -/
def added (log : List Emission) : List Nat :=
  (signals log).filterMap (fun g => match g with | Signal.user_added u => some u | _ => none)

/-- The users a log reports as changed. -/
def changed (log : List Emission) : List Nat :=
  (signals log).filterMap (fun g => match g with | Signal.user_changed u => some u | _ => none)

/-- The users a log reports as removed. -/
def removed (log : List Emission) : List Nat :=
  (signals log).filterMap (fun g => match g with | Signal.user_removed u => some u | _ => none)

/-- No dangling address, and user_changed_cb is connected exactly once to each
listed user; the logged-in flag is never raised. -/
structure WellFormed (s : LightDMUserList) : Prop where
  users_valid : ∀ p ∈ s.users, p < s.heap.length
  handlers_valid : ∀ p ∈ s.changed_handlers, p < s.heap.length
  handlers_nodup : s.changed_handlers.Nodup
  users_connected : ∀ p ∈ s.users, p ∈ s.changed_handlers
  not_logged_in : ∀ p ∈ s.users, (deref s.heap p).logged_in = false

/-! ## Conditions on actions -/

/-- Condition on actions under which the order of the list is kept: the
accepted entries of a passwd scan have pairwise distinct names, and a Changed
notification leaves the display name of its account as it was. -/
def keeps_order (s : LightDMUserList) : Action → Prop
  | Action.query env =>
    env.accounts_service = false → ((candidates env.passwd).map (fun c => c.name)).Nodup
  | Action.passwd_changed _ env => ((candidates env).map (fun c => c.name)).Nodup
  | Action.accounts_signal _ _ _ => True
  | Action.user_signal signal_name parameters object reply =>
    lightdm_user_get_display_name
        (deref (user_signal_cb s signal_name parameters object reply).1.heap object.user) =
      lightdm_user_get_display_name (deref s.heap object.user)

/-- Condition on actions under which names stay unique: the accepted entries of
a passwd scan have pairwise distinct names, the accounts enumerated at first
use bring pairwise distinct names, an added account brings a name that is not
in the list, and a Changed notification leaves the name of its account as it
was. -/
def keeps_names_distinct (s : LightDMUserList) : Action → Prop
  | Action.query env =>
    (env.accounts_service = false → ((candidates env.passwd).map (fun c => c.name)).Nodup) ∧
    ∀ paths, env.list_cached_users = some (GVariant.object_paths paths) →
      ((paths.filterMap (fun path => fetched_record (env.account path))).map
        (fun u => u.name)).Nodup
  | Action.passwd_changed _ env => ((candidates env).map (fun c => c.name)).Nodup
  | Action.accounts_signal signal_name _ reply =>
    strcmp signal_name (cstr "UserAdded") = 0 →
      ∀ u, fetched_record reply = some u → u.name ∉ s.users.map (fun p => (deref s.heap p).name)
  | Action.user_signal signal_name parameters object reply =>
    (deref (user_signal_cb s signal_name parameters object reply).1.heap object.user).name =
      (deref s.heap object.user).name

/-! ## The outcome of one scanned entry -/

/-- What one turn of the scanning loop does with an accepted record c, seen
from the heap h0 and the list old the scan started with: either c is matched
with the first record of its name, which then holds the attributes of c, or a
new object holding c is created. -/
inductive MergeStep (old : List Nat) (h0 : Heap) (hv : Bool) (st : Scan) (c : LightDMUser)
    (st1 : Scan) : Prop where
  | matched (info : Nat)
      (hfind : get_user_by_name h0 old c.name = some info)
      (hlen : st1.heap.length = st.heap.length + 1)
      (hrec : deref st1.heap info = c)
      (hother : ∀ q, q ≠ info → q < st.heap.length → deref st1.heap q = deref st.heap q)
      (husers : st1.users = g_list_insert_sorted st.users info (compare_user st1.heap))
      (hnew : st1.new_users = st.new_users)
      (hchanged : st1.changed_users =
        if deref st.heap info = c then st.changed_users
        else g_list_insert_sorted st.changed_users info (compare_user st1.heap)) :
      MergeStep old h0 hv st c st1
  | fresh
      (hfind : get_user_by_name h0 old c.name = none)
      (hheap : st1.heap = st.heap ++ [c])
      (husers : st1.users = g_list_insert_sorted st.users st.heap.length (compare_user st1.heap))
      (hnew : st1.new_users =
        if hv then g_list_insert_sorted st.new_users st.heap.length (compare_user st1.heap)
        else st.new_users)
      (hchanged : st1.changed_users = st.changed_users) :
      MergeStep old h0 hv st c st1

/-- What holds of the local lists of a scan started from heap h0 and list old
after the accepted records cs have been merged, whatever the records are. -/
structure ScanGen (old : List Nat) (h0 : Heap) (st : Scan) (cs : List LightDMUser) : Prop where
  len : h0.length ≤ st.heap.length
  users_valid : ∀ p ∈ st.users, p < st.heap.length
  names : ∀ p, p < h0.length → (deref st.heap p).name = (deref h0 p).name
  users_names : (st.users.map (fun p => (deref st.heap p).name)).Perm (cs.map (fun c => c.name))
  untouched : ∀ p, p < h0.length → (deref h0 p).name ∉ cs.map (fun c => c.name) →
    deref st.heap p = deref h0 p
  users_first : ∀ p ∈ st.users, p < h0.length →
    get_user_by_name h0 old (deref h0 p).name = some p
  users_fresh : ∀ p ∈ st.users, h0.length ≤ p →
    get_user_by_name h0 old (deref st.heap p).name = none
  users_new : ∀ p ∈ st.users, h0.length ≤ p → p ∈ st.new_users
  new_valid : ∀ p ∈ st.new_users, h0.length ≤ p ∧ p < st.heap.length
  new_nodup : st.new_users.Nodup
  changed_first : ∀ p ∈ st.changed_users, get_user_by_name h0 old (deref h0 p).name = some p
  not_logged_in : ∀ p ∈ st.users, (deref st.heap p).logged_in = false

/-- Insert the cells one after the other into an empty list. -/
def insert_all (f : Nat → Nat → Int) (rs : List Nat) : List Nat :=
  rs.foldl (fun acc r => g_list_insert_sorted acc r f) []

/-- What holds of the local lists of a scan after the accepted records cs have
been merged, when no two of them share a name: rs lists, in scan order, the
object each record ended in. -/
structure ScanNodup (old : List Nat) (h0 : Heap) (st : Scan) (cs : List LightDMUser)
    (rs : List Nat) : Prop where
  records : rs.map (deref st.heap) = cs
  rs_valid : ∀ r ∈ rs, r < st.heap.length
  users : st.users = insert_all (compare_user st.heap) rs
  new_users : st.new_users =
    insert_all (compare_user st.heap) (rs.filter (fun r => decide (h0.length ≤ r)))
  changed_users : st.changed_users =
    insert_all (compare_user st.heap)
      (rs.filter (fun r => decide (r < h0.length) && decide (deref st.heap r ≠ deref h0 r)))
  link : ∀ r ∈ rs, get_user_by_name h0 old (deref st.heap r).name =
    if r < h0.length then some r else none

/-! ## Sample inputs -/

/-- The state in which update_users enters load_passwd_file for the first
load: a fresh instance whose have_users flag has just been raised. -/
def first_load_state : LightDMUserList := { lightdm_user_list_new with have_users := true }

/-- A configuration file that sets no key. -/
def no_config : GKeyFile := { minimum_uid := none, hidden_users := none, hidden_shells := none }

/-- An ordinary account: the home directory is /home/NAME, the shell /bin/sh. -/
def account (name : String) (uid : Nat) (gecos : String) : passwd :=
  { pw_name := cstr name, pw_uid := uid, pw_gecos := cstr gecos,
    pw_dir := cstr "/home/" ++ cstr name, pw_shell := some (cstr "/bin/sh") }

/-- A successful read of the given entries, with no image file anywhere. -/
def plain_env (entries : List passwd) : PasswdEnv :=
  { config := no_config, entries := entries, errno := 0, g_file_test := fun _ => false }

/-- A first query when the accounts service cannot be reached. -/
def passwd_only (entries : List passwd) : Env :=
  { accounts_service := false, list_cached_users := none,
    account := fun _ => { proxy := false, properties := none },
    passwd := plain_env entries, g_file_monitor := true }

/-- The accounts alice and bob. -/
def alice_bob : PasswdEnv := plain_env [account "alice" 1000 "Alice", account "bob" 1001 "Bob"]

/-- The accounts alice, now with the shell /bin/false, and bob, together with
root (UID 0) and nobody. -/
def alice_disabled : PasswdEnv :=
  plain_env [{ account "alice" 1000 "Alice" with pw_shell := some (cstr "/bin/false") },
    account "bob" 1001 "Bob", account "root" 0 "root", account "nobody" 65534 "nobody"]

/-- The accounts A and B. -/
def accounts_A_B : PasswdEnv := plain_env [account "A" 1000 "", account "B" 1001 ""]

/-- The accounts B and C. -/
def accounts_B_C : PasswdEnv := plain_env [account "B" 1001 "", account "C" 1002 ""]

/-- The account alice alone, with home directory /home/alice. -/
def alice_home : PasswdEnv := plain_env [account "alice" 1000 "Alice"]

/-- The account alice alone, now with home directory /home/alice2. -/
def alice_moved : PasswdEnv :=
  plain_env [{ account "alice" 1000 "Alice" with pw_dir := cstr "/home/alice2" }]

/-- The reply of the accounts service for an account with the given user name
and real name. -/
def account_reply (name real_name : String) : AccountReply :=
  { proxy := true,
    properties := some [(cstr "UserName", GVariant.string (cstr name)),
                        (cstr "RealName", GVariant.string (cstr real_name))] }

/-- A first query when the accounts service lists the accounts amy and bob. -/
def two_accounts : Env :=
  { accounts_service := true,
    list_cached_users := some (GVariant.object_paths [cstr "/amy", cstr "/bob"]),
    account := fun path =>
      if path = cstr "/amy" then account_reply "amy" "Amy" else account_reply "bob" "Bob",
    passwd := plain_env [], g_file_monitor := false }

/-- The accounts amy and bob are enumerated, then amy signals Changed and her
real name is fetched as Zoe. -/
def amy_renamed : LightDMUserList :=
  (run (run lightdm_user_list_new (Action.query two_accounts)).1
    (Action.user_signal (cstr "Changed") GVariant.unit { proxy := cstr "/amy", user := 0 }
      (some [(cstr "RealName", GVariant.string (cstr "Zoe"))]))).1

/-- The account a (real name M) is loaded from passwd, then the file changes
and the scan reports a (real name Z), b (real name P) and a again (real name
A). -/
def twice_reported : LightDMUserList :=
  (run (run lightdm_user_list_new (Action.query (passwd_only [account "a" 1000 "M"]))).1
    (Action.passwd_changed GFileMonitorEvent.CHANGES_DONE_HINT
      (plain_env [account "a" 1000 "Z", account "b" 1001 "P", account "a" 1000 "A"]))).1

/-- The first query reads a passwd database that holds the name a twice. -/
def twice_listed : LightDMUserList :=
  (run lightdm_user_list_new
    (Action.query (passwd_only [account "a" 1000 "", account "a" 1000 ""]))).1

/-- The accounts amy and bob are enumerated, then the service signals UserAdded
for the path of amy once more. -/
def amy_added_again : LightDMUserList :=
  (run (run lightdm_user_list_new (Action.query two_accounts)).1
    (Action.accounts_signal (cstr "UserAdded") (GVariant.object_path (cstr "/amy"))
      (account_reply "amy" "Amy"))).1

/-- The accounts amy and bob are enumerated, then the service signals UserAdded
for a new account carl. -/
def carl_added : LightDMUserList :=
  (run (run lightdm_user_list_new (Action.query two_accounts)).1
    (Action.accounts_signal (cstr "UserAdded") (GVariant.object_path (cstr "/carl"))
      (account_reply "carl" "Carl"))).1

/-- A read of the database that returns alice and then fails with EIO (errno
5) before bob is reached. -/
def read_failure : PasswdEnv :=
  { config := no_config, entries := [account "alice" 1000 "Alice"], errno := 5,
    g_file_test := fun _ => false }

/-- The bookkeeping of the accounts-service path: the record of every tracked
account is in the list and has user_changed_cb connected, no two tracked
accounts share a record, the list of an accounts-backed instance holds no
record twice, and the two backends exclude each other. -/
structure Tracked (s : LightDMUserList) : Prop where
  listed : ∀ o ∈ s.user_account_objects, o.user ∈ s.users
  connected : ∀ o ∈ s.user_account_objects, o.user ∈ s.changed_handlers
  distinct : (s.user_account_objects.map (fun o => o.user)).Nodup
  users_nodup : s.accounts_service_proxy = true → s.users.Nodup
  no_monitor : s.accounts_service_proxy = true → s.passwd_monitor = false
  no_objects : s.accounts_service_proxy = false → s.user_account_objects = []

/-- The state after the accounts amy and bob have been enumerated. -/
def amy_bob_listed : LightDMUserList :=
  (run lightdm_user_list_new (Action.query two_accounts)).1

/-- The tracked object of amy in that state. -/
def amy_object : UserAccountObject := { proxy := cstr "/amy", user := 0 }

/-- The state in which update_users starts the enumeration: a fresh instance
with have_users raised and the proxy of the accounts service obtained. -/
def enumeration_state : LightDMUserList :=
  { first_load_state with accounts_service_proxy := true }

/-- A first query when the accounts service lists amy, an account whose
properties cannot be fetched, and bob. -/
def three_references : Env :=
  { accounts_service := true,
    list_cached_users :=
      some (GVariant.object_paths [cstr "/amy", cstr "/gone", cstr "/bob"]),
    account := fun path =>
      if path = cstr "/amy" then account_reply "amy" "Amy"
      else if path = cstr "/gone" then { proxy := true, properties := none }
      else account_reply "bob" "Bob",
    passwd := plain_env [], g_file_monitor := false }

/-- The states reached from a given state by enabled actions. -/
inductive ReachableFrom (s0 : LightDMUserList) : LightDMUserList → Prop where
  | start : ReachableFrom s0 s0
  | step (s : LightDMUserList) (a : Action) :
      ReachableFrom s0 s → enabled s a → ReachableFrom s0 (run s a).1

/-- A first query when the accounts service is reached but ListCachedUsers
fails. -/
def list_fails : Env :=
  { accounts_service := true, list_cached_users := none,
    account := fun _ => account_reply "amy" "Amy",
    passwd := alice_bob, g_file_monitor := true }

/-- The accounts service is unreachable at the first query and alice and bob
are loaded from passwd; the file then changes and is reloaded, and a query is
made for which the service would answer. -/
def fallback_later : LightDMUserList :=
  (run (run (update_users lightdm_user_list_new (passwd_only alice_bob.entries)).1
      (Action.passwd_changed GFileMonitorEvent.CHANGES_DONE_HINT alice_disabled)).1
    (Action.query two_accounts)).1

/-- The states reached from a given state by enabled actions that all meet the
condition ok. -/
inductive ReachableFromWhen (ok : Action → Prop) (s0 : LightDMUserList) :
    LightDMUserList → Prop where
  | start : ReachableFromWhen ok s0 s0
  | step (s : LightDMUserList) (a : Action) :
      ReachableFromWhen ok s0 s → enabled s a → ok a → ReachableFromWhen ok s0 (run s a).1

/-- An action other than a UserAdded notification of the accounts service. -/
def no_user_added : Action → Prop
  | Action.accounts_signal signal_name _ _ => strcmp signal_name (cstr "UserAdded") ≠ 0
  | _ => True

/-- The state after a first query for which the proxy of the accounts service is
obtained and ListCachedUsers fails. -/
def list_failed : LightDMUserList := (update_users lightdm_user_list_new list_fails).1

/-- After the failed enumeration the passwd source is offered by a later query,
and the service signals UserDeleted for an unknown path. -/
def list_failed_later : LightDMUserList :=
  (run (run list_failed (Action.query (passwd_only [account "alice" 1000 "Alice"]))).1
    (Action.accounts_signal (cstr "UserDeleted") (GVariant.object_path (cstr "/amy"))
      (account_reply "amy" "Amy"))).1

/-- What holds after a failed enumeration as long as no UserAdded arrives. -/
structure EmptyService (s : LightDMUserList) : Prop where
  have_users : s.have_users = true
  users : s.users = []
  objects : s.user_account_objects = []
  monitor : s.passwd_monitor = false

/-- The accounts amy (real name M) and bob (real name N) as loaded from passwd. -/
def amy_bob_loaded : LightDMUserList :=
  (load_passwd_file first_load_state
    (plain_env [account "amy" 1000 "M", account "bob" 1001 "N"])).1

/-- A read of the database that reports amy under the real name Z, bob under P
and amy once more under A. -/
def amy_reported_twice : PasswdEnv :=
  plain_env [account "amy" 1000 "Z", account "bob" 1001 "P", account "amy" 1000 "A"]

/-- A read of the database in which amy and bob have the real names Zoe and
Paul, and carl and abe are new. -/
def renamed_and_new : PasswdEnv :=
  plain_env [account "amy" 1000 "Zoe", account "bob" 1001 "Paul", account "carl" 1002 "Carl",
    account "abe" 1003 "Abe"]

theorem strcmp_self (a : CString) : strcmp a a = 0 := by
  induction a with
  | nil => rfl
  | cons x xs ih => simp [strcmp, ih]

theorem strcmp_eq_zero {a b : CString} (h : strcmp a b = 0) : a = b := by
  induction a generalizing b with
  | nil => cases b with
    | nil => rfl
    | cons y ys => simp [strcmp] at h
  | cons x xs ih => cases b with
    | nil => simp [strcmp] at h
    | cons y ys =>
      simp only [strcmp] at h
      split_ifs at h with h1 h2
      · omega
      · have hxy : x = y := by omega
        rw [hxy, ih h]

theorem strcmp_eq_zero_iff (a b : CString) : strcmp a b = 0 ↔ a = b :=
  ⟨strcmp_eq_zero, fun h => h ▸ strcmp_self a⟩

theorem strcmp_beq_iff (a b : CString) : (strcmp a b == 0) = true ↔ a = b := by
  rw [beq_iff_eq, strcmp_eq_zero_iff]

theorem strcmp_total (a b : CString) : strcmp a b ≤ 0 ∨ strcmp b a ≤ 0 := by
  induction a generalizing b with
  | nil => cases b <;> simp [strcmp]
  | cons x xs ih => cases b with
    | nil => simp [strcmp]
    | cons y ys =>
      simp only [strcmp]
      split_ifs <;> first | omega | exact ih ys

theorem strcmp_trans {a b c : CString} (h1 : strcmp a b ≤ 0) (h2 : strcmp b c ≤ 0) :
    strcmp a c ≤ 0 := by
  induction a generalizing b c with
  | nil => cases c <;> simp [strcmp]
  | cons x xs ih => cases b with
    | nil => simp [strcmp] at h1
    | cons y ys => cases c with
      | nil => simp [strcmp] at h2
      | cons z zs =>
        simp only [strcmp] at h1 h2 ⊢
        split_ifs at h1 h2 ⊢ <;> first | omega | exact ih h1 h2

theorem g_strcmp0_eq_zero_iff (a b : Option CString) : g_strcmp0 a b = 0 ↔ a = b := by
  cases a <;> cases b <;> simp [g_strcmp0, strcmp_eq_zero_iff]

theorem compare_user_total (heap : Heap) (a b : Nat) :
    compare_user heap a b ≤ 0 ∨ compare_user heap b a ≤ 0 := strcmp_total _ _

theorem compare_user_trans {heap : Heap} {a b c : Nat} (h1 : compare_user heap a b ≤ 0)
    (h2 : compare_user heap b c ≤ 0) : compare_user heap a c ≤ 0 := strcmp_trans h1 h2

/-! ## Sorted insertion -/

theorem insert_sorted_perm (l : List Nat) (x : Nat) (f : Nat → Nat → Int) :
    (g_list_insert_sorted l x f).Perm (x :: l) := by
  induction l with
  | nil => exact List.Perm.refl _
  | cons y ys ih =>
    simp only [g_list_insert_sorted]
    split_ifs
    · exact (List.Perm.cons y ih).trans (List.Perm.swap x y ys)
    · exact List.Perm.refl _

theorem mem_insert_sorted {l : List Nat} {x y : Nat} {f : Nat → Nat → Int} :
    y ∈ g_list_insert_sorted l x f ↔ y = x ∨ y ∈ l := by
  rw [(insert_sorted_perm l x f).mem_iff, List.mem_cons]

theorem insert_sorted_congr {l : List Nat} {x : Nat} {f g : Nat → Nat → Int}
    (h : ∀ y ∈ l, f x y = g x y) : g_list_insert_sorted l x f = g_list_insert_sorted l x g := by
  induction l with
  | nil => rfl
  | cons y ys ih =>
    simp only [g_list_insert_sorted]
    rw [h y (List.mem_cons_self _ _), ih (fun z hz => h z (List.mem_cons_of_mem _ hz))]

theorem insert_sorted_pairwise {l : List Nat} {x : Nat} {f : Nat → Nat → Int}
    (htot : ∀ a b, f a b ≤ 0 ∨ f b a ≤ 0)
    (htr : ∀ a b c, f a b ≤ 0 → f b c ≤ 0 → f a c ≤ 0)
    (h : l.Pairwise (fun a b => f a b ≤ 0)) :
    (g_list_insert_sorted l x f).Pairwise (fun a b => f a b ≤ 0) := by
  induction l with
  | nil => simp [g_list_insert_sorted]
  | cons y ys ih =>
    rw [List.pairwise_cons] at h
    simp only [g_list_insert_sorted]
    split_ifs with hc
    · rw [List.pairwise_cons]
      refine ⟨fun z hz => ?_, ih h.2⟩
      rcases mem_insert_sorted.mp hz with rfl | hz
      · rcases htot z y with h1 | h1
        · omega
        · exact h1
      · exact h.1 z hz
    · have hxy : f x y ≤ 0 := by omega
      rw [List.pairwise_cons]
      refine ⟨fun z hz => ?_, List.pairwise_cons.mpr h⟩
      rcases List.mem_cons.mp hz with rfl | hz
      · exact hxy
      · exact htr _ _ _ hxy (h.1 z hz)

/-! ## Heap lemmas -/

theorem deref_append_left {h : Heap} {p : Nat} (l : Heap) (hp : p < h.length) :
    deref (h ++ l) p = deref h p := by
  simp [deref, List.getElem?_append_left hp]

theorem deref_append_length (h : Heap) (u : LightDMUser) : deref (h ++ [u]) h.length = u := by
  simp [deref]

theorem deref_set_eq {h : Heap} {p : Nat} (u : LightDMUser) (hp : p < h.length) :
    deref (h.set p u) p = u := by
  simp [deref, List.getElem?_set, hp]

theorem deref_set_ne {h : Heap} {p q : Nat} (u : LightDMUser) (hpq : p ≠ q) :
    deref (h.set p u) q = deref h q := by
  simp [deref, List.getElem?_set_ne hpq]

theorem find?_congr_mem {α : Type} {l : List α} {p q : α → Bool} (h : ∀ x ∈ l, p x = q x) :
    l.find? p = l.find? q := by
  induction l with
  | nil => rfl
  | cons x xs ih =>
    rw [List.find?_cons, List.find?_cons, h x (List.mem_cons_self _ _),
      ih (fun y hy => h y (List.mem_cons_of_mem _ hy))]

theorem get_user_by_name_some {heap : Heap} {users : List Nat} {n : CString} {p : Nat}
    (h : get_user_by_name heap users n = some p) : p ∈ users ∧ (deref heap p).name = n := by
  unfold get_user_by_name at h
  have h2 := List.find?_some h
  exact ⟨List.mem_of_find?_eq_some h, (strcmp_beq_iff _ _).mp h2⟩

theorem get_user_by_name_none {heap : Heap} {users : List Nat} {n : CString}
    (h : get_user_by_name heap users n = none) : ∀ p ∈ users, (deref heap p).name ≠ n := by
  intro p hp hn
  unfold get_user_by_name at h
  have := List.find?_eq_none.mp h p hp
  exact this ((strcmp_beq_iff _ _).mpr hn)

theorem get_user_by_name_congr {h1 h2 : Heap} {users : List Nat} (n : CString)
    (h : ∀ p ∈ users, (deref h1 p).name = (deref h2 p).name) :
    get_user_by_name h1 users n = get_user_by_name h2 users n := by
  unfold get_user_by_name
  exact find?_congr_mem (fun p hp => by rw [h p hp])

/-! ## update_passwd_user -/

theorem update_passwd_user_length (heap : Heap) (p : Nat) (r h i : Option CString) (l : Bool) :
    (update_passwd_user heap p r h i l).1.length = heap.length := by
  simp only [update_passwd_user]
  split_ifs <;> simp

theorem update_passwd_user_other (heap : Heap) {p q : Nat} (r h i : Option CString) (l : Bool)
    (hpq : p ≠ q) : deref (update_passwd_user heap p r h i l).1 q = deref heap q := by
  simp only [update_passwd_user]
  split_ifs
  · rfl
  · exact deref_set_ne _ hpq

theorem update_passwd_user_self (heap : Heap) {p : Nat} (r h i : Option CString) (l : Bool)
    (hp : p < heap.length) :
    deref (update_passwd_user heap p r h i l).1 p =
      { name := (deref heap p).name, real_name := r, home_directory := h, image := i,
        logged_in := l } := by
  simp only [update_passwd_user]
  split_ifs with hc
  · obtain ⟨h1, h2, h3, h4⟩ := hc
    rw [g_strcmp0_eq_zero_iff] at h1 h2 h3
    show deref heap p = _
    rw [← h1, ← h2, ← h3, ← h4]
  · exact deref_set_eq _ hp

theorem update_passwd_user_changed (heap : Heap) (p : Nat) (r h i : Option CString) (l : Bool) :
    (update_passwd_user heap p r h i l).2 =
      decide (deref heap p ≠ { name := (deref heap p).name, real_name := r, home_directory := h,
                               image := i, logged_in := l }) := by
  simp only [update_passwd_user]
  split_ifs with hc
  · obtain ⟨h1, h2, h3, h4⟩ := hc
    rw [g_strcmp0_eq_zero_iff] at h1 h2 h3
    have : deref heap p = { name := (deref heap p).name, real_name := r, home_directory := h,
                               image := i, logged_in := l } := by
      rw [← h1, ← h2, ← h3, ← h4]
    simp [← this]
  · have : deref heap p ≠ { name := (deref heap p).name, real_name := r, home_directory := h,
                               image := i, logged_in := l } := by
      intro he
      apply hc
      rw [g_strcmp0_eq_zero_iff, g_strcmp0_eq_zero_iff, g_strcmp0_eq_zero_iff]
      rw [he]
      exact ⟨rfl, rfl, rfl, rfl⟩
    simp [this]

/-! ## One turn of the scanning loop -/

theorem merge_user_step {old : List Nat} {h0 : Heap} (hv : Bool) {st : Scan} (c : LightDMUser)
    (hold : ∀ p ∈ old, p < h0.length) (hlen : h0.length ≤ st.heap.length)
    (hnames : ∀ p, p < h0.length → (deref st.heap p).name = (deref h0 p).name) :
    MergeStep old h0 hv st c (merge_user old hv st c) := by
  have hfindeq : old.find? (fun info => strcmp (deref (st.heap ++ [c]) info).name
        (deref (st.heap ++ [c]) st.heap.length).name == 0) = get_user_by_name h0 old c.name := by
    unfold get_user_by_name
    apply find?_congr_mem
    intro p hp
    have hp0 := hold p hp
    rw [deref_append_length, deref_append_left _ (by omega), hnames p hp0]
  cases hf : get_user_by_name h0 old c.name with
  | none =>
    have hm : merge_user old hv st c =
        { heap := st.heap ++ [c],
          users := g_list_insert_sorted st.users st.heap.length (compare_user (st.heap ++ [c])),
          new_users := if hv then g_list_insert_sorted st.new_users st.heap.length
              (compare_user (st.heap ++ [c])) else st.new_users,
          changed_users := st.changed_users } := by
      simp only [merge_user, g_object_new]
      rw [hfindeq, hf]
    rw [hm]
    exact MergeStep.fresh hf rfl rfl rfl rfl
  | some info =>
    obtain ⟨hmem, hname⟩ := get_user_by_name_some hf
    have hi0 := hold info hmem
    have hi1 : info < (st.heap ++ [c]).length := by simp; omega
    have hd1 : deref (st.heap ++ [c]) info = deref st.heap info := deref_append_left _ (by omega)
    have hm : merge_user old hv st c =
        { heap := (update_passwd_user (st.heap ++ [c]) info c.real_name c.home_directory c.image
            c.logged_in).1,
          users := g_list_insert_sorted st.users info (compare_user
            (update_passwd_user (st.heap ++ [c]) info c.real_name c.home_directory c.image
              c.logged_in).1),
          new_users := st.new_users,
          changed_users :=
            if (update_passwd_user (st.heap ++ [c]) info c.real_name c.home_directory c.image
              c.logged_in).2 then
              g_list_insert_sorted st.changed_users info (compare_user
                (update_passwd_user (st.heap ++ [c]) info c.real_name c.home_directory c.image
                  c.logged_in).1)
            else st.changed_users } := by
      simp only [merge_user, g_object_new]
      rw [hfindeq, hf]
      simp only [deref_append_length]
    have hcname : (deref st.heap info).name = c.name := by rw [hnames info hi0, hname]
    have hceq : LightDMUser.mk (deref (st.heap ++ [c]) info).name c.real_name
        c.home_directory c.image c.logged_in = c := by
      rw [hd1, hcname]
    rw [hm]
    refine MergeStep.matched info hf ?_ ?_ ?_ rfl rfl ?_
    · simp [update_passwd_user_length]
    · show deref (update_passwd_user _ _ _ _ _ _).1 info = c
      rw [update_passwd_user_self _ _ _ _ _ hi1, hceq]
    · intro q hq hql
      show deref (update_passwd_user _ _ _ _ _ _).1 q = _
      rw [update_passwd_user_other _ _ _ _ _ (Ne.symm hq), deref_append_left _ hql]
    · show (if (update_passwd_user _ _ _ _ _ _).2 = true then _ else _) = _
      rw [update_passwd_user_changed, hceq, hd1]
      by_cases he : deref st.heap info = c <;> simp [he]

/-! ## The scan as a fold over the accepted records -/

theorem scan_entry_eq (env : PasswdEnv) (old : List Nat) (hv : Bool) (st : Scan) (e : passwd) :
    scan_entry env old hv st e =
      if accepted env.config e then merge_user old hv st (candidate env.g_file_test e) else st := by
  unfold scan_entry accepted
  cases is_system_user e (minimum_uid env.config) <;>
    cases has_hidden_shell e (hidden_shells env.config) <;>
    cases is_hidden_user e (hidden_users env.config) <;> simp

theorem foldl_scan_entry (env : PasswdEnv) (old : List Nat) (hv : Bool) (es : List passwd)
    (st : Scan) :
    es.foldl (scan_entry env old hv) st =
      ((es.filter (accepted env.config)).map (candidate env.g_file_test)).foldl
        (merge_user old hv) st := by
  induction es generalizing st with
  | nil => rfl
  | cons e es ih =>
    rw [List.foldl_cons, ih, scan_entry_eq, List.filter_cons]
    split_ifs <;> simp

theorem scan_eq (env : PasswdEnv) (s : LightDMUserList) :
    scan env s = (candidates env).foldl (merge_user s.users s.have_users)
      { heap := s.heap, users := [], new_users := [], changed_users := [] } :=
  foldl_scan_entry env s.users s.have_users env.entries _

theorem candidates_logged_in (env : PasswdEnv) : ∀ c ∈ candidates env, c.logged_in = false := by
  intro c hc
  unfold candidates at hc
  obtain ⟨e, _, rfl⟩ := List.mem_map.mp hc
  rfl

theorem candidates_home (env : PasswdEnv) : ∀ c ∈ candidates env, c.home_directory ≠ none := by
  intro c hc
  unfold candidates at hc
  obtain ⟨e, _, rfl⟩ := List.mem_map.mp hc
  simp [candidate]

/-! ## Invariants of the scan, for any stream -/

theorem scanGen_init (old : List Nat) (h0 : Heap) :
    ScanGen old h0 { heap := h0, users := [], new_users := [], changed_users := [] } [] where
  len := Nat.le_refl _
  users_valid := by simp
  names := fun _ _ => rfl
  users_names := by simp
  untouched := fun _ _ _ => rfl
  users_first := by simp
  users_fresh := by simp
  users_new := by simp
  new_valid := by simp
  new_nodup := List.nodup_nil
  changed_first := by simp
  not_logged_in := by simp

theorem MergeStep.name_stable {old : List Nat} {h0 : Heap} {st st1 : Scan} {c : LightDMUser}
    {cs : List LightDMUser} (hold : ∀ p ∈ old, p < h0.length) (inv : ScanGen old h0 st cs)
    (hs : MergeStep old h0 true st c st1) :
    ∀ q, q < st.heap.length → (deref st1.heap q).name = (deref st.heap q).name := by
  intro q hq
  cases hs with
  | matched info hfind hlen hrec hother husers hnew hchanged =>
    obtain ⟨hmem, hname⟩ := get_user_by_name_some hfind
    by_cases hqi : q = info
    · subst hqi
      rw [hrec, inv.names q (hold q hmem), hname]
    · rw [hother q hqi hq]
  | fresh hfind hheap husers hnew hchanged =>
    rw [hheap, deref_append_left _ hq]

theorem scanGen_step {old : List Nat} {h0 : Heap} {st st1 : Scan} {c : LightDMUser}
    {cs : List LightDMUser} (hold : ∀ p ∈ old, p < h0.length) (inv : ScanGen old h0 st cs)
    (hc : c.logged_in = false) (hs : MergeStep old h0 true st c st1) :
    ScanGen old h0 st1 (cs ++ [c]) := by
  have hK := MergeStep.name_stable hold inv hs
  have hlen := inv.len
  cases hs with
  | matched info hfind hlen1 hrec hother husers hnew hchanged =>
    obtain ⟨hmem, hname⟩ := get_user_by_name_some hfind
    have hi0 := hold info hmem
    refine ⟨by omega, ?_, ?_, ?_, ?_, ?_, ?_, ?_, ?_, ?_, ?_, ?_⟩
    · intro p hp
      rw [husers, mem_insert_sorted] at hp
      rcases hp with rfl | hp
      · omega
      · have := inv.users_valid p hp; omega
    · intro p hp
      rw [hK p (by omega), inv.names p hp]
    · rw [husers]
      refine ((insert_sorted_perm _ _ _).map _).trans ?_
      rw [List.map_cons, hrec, List.map_append, List.map_singleton]
      refine (List.Perm.cons _ ?_).trans (List.perm_append_singleton _ _).symm
      rw [List.map_congr_left (fun p hp => hK p (inv.users_valid p hp))]
      exact inv.users_names
    · intro p hp hn
      rw [List.map_append, List.mem_append, not_or] at hn
      have hpi : p ≠ info := by
        rintro rfl
        apply hn.2
        simp [hname]
      rw [hother p hpi (by omega)]
      exact inv.untouched p hp hn.1
    · intro p hp hp0
      rw [husers, mem_insert_sorted] at hp
      rcases hp with rfl | hp
      · rw [hname]; exact hfind
      · exact inv.users_first p hp hp0
    · intro p hp hp0
      rw [husers, mem_insert_sorted] at hp
      rcases hp with rfl | hp
      · omega
      · rw [hK p (inv.users_valid p hp)]
        exact inv.users_fresh p hp hp0
    · intro p hp hp0
      rw [husers, mem_insert_sorted] at hp
      rw [hnew]
      rcases hp with rfl | hp
      · omega
      · exact inv.users_new p hp hp0
    · intro p hp
      rw [hnew] at hp
      have := inv.new_valid p hp
      omega
    · rw [hnew]; exact inv.new_nodup
    · intro p hp
      rw [hchanged] at hp
      split_ifs at hp
      · exact inv.changed_first p hp
      · rcases mem_insert_sorted.mp hp with rfl | hp
        · rw [hname]; exact hfind
        · exact inv.changed_first p hp
    · intro p hp
      rw [husers, mem_insert_sorted] at hp
      by_cases hpi : p = info
      · rw [hpi, hrec, hc]
      · rcases hp with rfl | hp
        · exact absurd rfl hpi
        · rw [hother p hpi (inv.users_valid p hp)]
          exact inv.not_logged_in p hp
  | fresh hfind hheap husers hnew hchanged =>
    have hl1 : st1.heap.length = st.heap.length + 1 := by rw [hheap]; simp
    have hd : ∀ q, q < st.heap.length → deref st1.heap q = deref st.heap q := by
      intro q hq
      rw [hheap, deref_append_left _ hq]
    have hdn : deref st1.heap st.heap.length = c := by rw [hheap, deref_append_length]
    simp only [if_true] at hnew
    refine ⟨by omega, ?_, ?_, ?_, ?_, ?_, ?_, ?_, ?_, ?_, ?_, ?_⟩
    · intro p hp
      rw [husers, mem_insert_sorted] at hp
      rcases hp with rfl | hp
      · omega
      · have := inv.users_valid p hp; omega
    · intro p hp
      rw [hK p (by omega), inv.names p hp]
    · rw [husers]
      refine ((insert_sorted_perm _ _ _).map _).trans ?_
      rw [List.map_cons, hdn, List.map_append, List.map_singleton]
      refine (List.Perm.cons _ ?_).trans (List.perm_append_singleton _ _).symm
      rw [List.map_congr_left (fun p hp => hK p (inv.users_valid p hp))]
      exact inv.users_names
    · intro p hp hn
      rw [List.map_append, List.mem_append, not_or] at hn
      rw [hd p (by omega)]
      exact inv.untouched p hp hn.1
    · intro p hp hp0
      rw [husers, mem_insert_sorted] at hp
      rcases hp with rfl | hp
      · omega
      · exact inv.users_first p hp hp0
    · intro p hp hp0
      rw [husers, mem_insert_sorted] at hp
      rcases hp with rfl | hp
      · rw [hdn]; exact hfind
      · rw [hd p (inv.users_valid p hp)]
        exact inv.users_fresh p hp hp0
    · intro p hp hp0
      rw [husers, mem_insert_sorted] at hp
      rw [hnew, mem_insert_sorted]
      rcases hp with rfl | hp
      · exact Or.inl rfl
      · exact Or.inr (inv.users_new p hp hp0)
    · intro p hp
      rw [hnew, mem_insert_sorted] at hp
      rcases hp with rfl | hp
      · omega
      · have := inv.new_valid p hp
        omega
    · rw [hnew]
      refine (insert_sorted_perm _ _ _).nodup_iff.mpr (List.nodup_cons.mpr ⟨?_, inv.new_nodup⟩)
      intro hmem
      have := inv.new_valid _ hmem
      omega
    · intro p hp
      rw [hchanged] at hp
      exact inv.changed_first p hp
    · intro p hp
      rw [husers, mem_insert_sorted] at hp
      rcases hp with rfl | hp
      · rw [hdn, hc]
      · rw [hd p (inv.users_valid p hp)]
        exact inv.not_logged_in p hp

theorem ScanGen.users_old {old : List Nat} {h0 : Heap} {st : Scan} {cs : List LightDMUser}
    (inv : ScanGen old h0 st cs) : ∀ p ∈ st.users, p < h0.length → p ∈ old :=
  fun p hp hp0 => (get_user_by_name_some (inv.users_first p hp hp0)).1

theorem scanGen_foldl {old : List Nat} {h0 : Heap} (hold : ∀ p ∈ old, p < h0.length)
    (cs2 : List LightDMUser) :
    ∀ (st : Scan) (cs : List LightDMUser), ScanGen old h0 st cs →
      (∀ c ∈ cs2, c.logged_in = false) →
      ScanGen old h0 (cs2.foldl (merge_user old true) st) (cs ++ cs2) := by
  induction cs2 with
  | nil => intro st cs inv _; simpa using inv
  | cons c cs2 ih =>
    intro st cs inv hc
    have hstep := scanGen_step hold inv (hc c (List.mem_cons_self _ _))
      (merge_user_step true c hold inv.len inv.names)
    have := ih _ _ hstep (fun d hd => hc d (List.mem_cons_of_mem _ hd))
    simpa using this

theorem scan_gen (s : LightDMUserList) (env : PasswdEnv) (hu : s.have_users = true)
    (hv : ∀ p ∈ s.users, p < s.heap.length) :
    ScanGen s.users s.heap (scan env s) (candidates env) := by
  rw [scan_eq, hu]
  have := scanGen_foldl hv (candidates env) _ [] (scanGen_init s.users s.heap)
    (candidates_logged_in env)
  simpa using this

/-! ## Repeated sorted insertion -/

theorem insert_all_snoc (f : Nat → Nat → Int) (rs : List Nat) (r : Nat) :
    insert_all f (rs ++ [r]) = g_list_insert_sorted (insert_all f rs) r f := by
  simp [insert_all, List.foldl_append]

theorem foldl_insert_congr {f g : Nat → Nat → Int} (rs : List Nat) :
    ∀ acc : List Nat, (∀ a ∈ rs, ∀ b ∈ acc ++ rs, f a b = g a b) →
      rs.foldl (fun acc r => g_list_insert_sorted acc r f) acc =
        rs.foldl (fun acc r => g_list_insert_sorted acc r g) acc := by
  induction rs with
  | nil => intro acc _; rfl
  | cons r rs ih =>
    intro acc h
    rw [List.foldl_cons, List.foldl_cons]
    have h1 : g_list_insert_sorted acc r f = g_list_insert_sorted acc r g :=
      insert_sorted_congr (fun y hy => h r (List.mem_cons_self _ _) y (List.mem_append_left _ hy))
    rw [h1]
    apply ih
    intro a ha b hb
    refine h a (List.mem_cons_of_mem _ ha) b ?_
    rcases List.mem_append.mp hb with hb | hb
    · rcases mem_insert_sorted.mp hb with rfl | hb
      · exact List.mem_append_right _ (List.mem_cons_self _ _)
      · exact List.mem_append_left _ hb
    · exact List.mem_append_right _ (List.mem_cons_of_mem _ hb)

theorem insert_all_congr {f g : Nat → Nat → Int} {rs : List Nat}
    (h : ∀ a ∈ rs, ∀ b ∈ rs, f a b = g a b) : insert_all f rs = insert_all g rs :=
  foldl_insert_congr rs [] (by simpa using h)

theorem foldl_insert_perm (f : Nat → Nat → Int) (rs : List Nat) :
    ∀ acc : List Nat, (rs.foldl (fun acc r => g_list_insert_sorted acc r f) acc).Perm (acc ++ rs) := by
  induction rs with
  | nil => intro acc; simp
  | cons r rs ih =>
    intro acc
    rw [List.foldl_cons]
    refine (ih _).trans ?_
    refine ((insert_sorted_perm acc r f).append_right rs).trans ?_
    simpa using (@List.perm_middle _ r acc rs).symm

theorem insert_all_perm (f : Nat → Nat → Int) (rs : List Nat) : (insert_all f rs).Perm rs := by
  simpa [insert_all] using foldl_insert_perm f rs []

theorem mem_insert_all {f : Nat → Nat → Int} {rs : List Nat} {x : Nat} :
    x ∈ insert_all f rs ↔ x ∈ rs := (insert_all_perm f rs).mem_iff

theorem foldl_insert_pairwise {f : Nat → Nat → Int} (htot : ∀ a b, f a b ≤ 0 ∨ f b a ≤ 0)
    (htr : ∀ a b c, f a b ≤ 0 → f b c ≤ 0 → f a c ≤ 0) (rs : List Nat) :
    ∀ acc : List Nat, acc.Pairwise (fun a b => f a b ≤ 0) →
      (rs.foldl (fun acc r => g_list_insert_sorted acc r f) acc).Pairwise (fun a b => f a b ≤ 0) := by
  induction rs with
  | nil => intro acc h; exact h
  | cons r rs ih =>
    intro acc h
    rw [List.foldl_cons]
    exact ih _ (insert_sorted_pairwise htot htr h)

theorem insert_all_sorted (heap : Heap) (rs : List Nat) :
    SortedUsers heap (insert_all (compare_user heap) rs) :=
  foldl_insert_pairwise (compare_user_total heap) (fun _ _ _ => compare_user_trans) rs []
    List.Pairwise.nil

theorem compare_user_congr {h1 h2 : Heap} {a b : Nat} (ha : deref h1 a = deref h2 a)
    (hb : deref h1 b = deref h2 b) : compare_user h1 a b = compare_user h2 a b := by
  unfold compare_user
  rw [ha, hb]

theorem insert_all_heap_congr {h1 h2 : Heap} {rs : List Nat}
    (h : ∀ r ∈ rs, deref h1 r = deref h2 r) :
    insert_all (compare_user h1) rs = insert_all (compare_user h2) rs :=
  insert_all_congr (fun a ha b hb => compare_user_congr (h a ha) (h b hb))

/-! ## Invariants of the scan, for pairwise distinct names -/

theorem scanNodup_init (old : List Nat) (h0 : Heap) :
    ScanNodup old h0 { heap := h0, users := [], new_users := [], changed_users := [] } [] [] where
  records := rfl
  rs_valid := by simp
  users := rfl
  new_users := rfl
  changed_users := rfl
  link := by simp

theorem scanNodup_step {old : List Nat} {h0 : Heap} {st st1 : Scan} {c : LightDMUser}
    {cs : List LightDMUser} {rs : List Nat} (hold : ∀ p ∈ old, p < h0.length)
    (gen : ScanGen old h0 st cs) (inv : ScanNodup old h0 st cs rs)
    (hfresh : c.name ∉ cs.map (fun c => c.name)) (hs : MergeStep old h0 true st c st1) :
    ∃ r, ScanNodup old h0 st1 (cs ++ [c]) (rs ++ [r]) := by
  have hlen := gen.len
  have hrsname : ∀ r ∈ rs, (deref st.heap r).name ∈ cs.map (fun c => c.name) := by
    intro r hr
    have : deref st.heap r ∈ cs := by
      rw [← inv.records]; exact List.mem_map_of_mem _ hr
    exact List.mem_map_of_mem _ this
  cases hs with
  | matched info hfind hlen1 hrec hother husers hnew hchanged =>
    obtain ⟨hmem, hname⟩ := get_user_by_name_some hfind
    have hi0 := hold info hmem
    have hnotin : info ∉ rs := by
      intro hin
      apply hfresh
      have := hrsname info hin
      rwa [gen.names info hi0, hname] at this
    have hne : ∀ r ∈ rs, r ≠ info := fun r hr he => hnotin (he ▸ hr)
    have hsame : ∀ r ∈ rs, deref st1.heap r = deref st.heap r :=
      fun r hr => hother r (hne r hr) (inv.rs_valid r hr)
    have hunt : deref st.heap info = deref h0 info :=
      gen.untouched info hi0 (by rw [hname]; exact hfresh)
    refine ⟨info, ?_, ?_, ?_, ?_, ?_, ?_⟩
    · rw [List.map_append, List.map_congr_left hsame, inv.records, List.map_singleton, hrec]
    · intro r hr
      rcases List.mem_append.mp hr with hr | hr
      · have := inv.rs_valid r hr; omega
      · rw [List.mem_singleton] at hr; omega
    · rw [husers, insert_all_snoc, inv.users, insert_all_heap_congr hsame]
    · rw [hnew, inv.new_users, List.filter_append]
      have : [info].filter (fun r => decide (h0.length ≤ r)) = [] := by
        simp; omega
      rw [this, List.append_nil]
      exact (insert_all_heap_congr (fun r hr => hsame r (List.mem_filter.mp hr).1)).symm
    · rw [hchanged, List.filter_append]
      have hfilt : rs.filter (fun r => decide (r < h0.length) &&
            decide (deref st1.heap r ≠ deref h0 r)) =
          rs.filter (fun r => decide (r < h0.length) &&
            decide (deref st.heap r ≠ deref h0 r)) :=
        List.filter_congr (fun r hr => by rw [hsame r hr])
      rw [hfilt]
      have hcongr : insert_all (compare_user st1.heap)
            (rs.filter (fun r => decide (r < h0.length) &&
              decide (deref st.heap r ≠ deref h0 r))) =
          insert_all (compare_user st.heap)
            (rs.filter (fun r => decide (r < h0.length) &&
              decide (deref st.heap r ≠ deref h0 r))) :=
        insert_all_heap_congr (fun r hr => hsame r (List.mem_filter.mp hr).1)
      by_cases he : deref st.heap info = c
      · have : [info].filter (fun r => decide (r < h0.length) &&
            decide (deref st1.heap r ≠ deref h0 r)) = [] := by
          simp [hrec, ← hunt, he]
        rw [this, List.append_nil, if_pos he, inv.changed_users, hcongr]
      · have : [info].filter (fun r => decide (r < h0.length) &&
            decide (deref st1.heap r ≠ deref h0 r)) = [info] := by
          have hne2 : ¬ c = deref h0 info := fun h => he (by rw [hunt, h])
          simp [hrec, hi0, hne2]
        rw [this, if_neg he, insert_all_snoc, inv.changed_users, hcongr]
    · intro r hr
      rcases List.mem_append.mp hr with hr | hr
      · rw [hsame r hr]; exact inv.link r hr
      · rw [List.mem_singleton] at hr
        subst hr
        rw [hrec, hfind, if_pos hi0]
  | fresh hfind hheap husers hnew hchanged =>
    have hl1 : st1.heap.length = st.heap.length + 1 := by rw [hheap]; simp
    have hsame : ∀ r ∈ rs, deref st1.heap r = deref st.heap r := by
      intro r hr
      rw [hheap, deref_append_left _ (inv.rs_valid r hr)]
    have hdn : deref st1.heap st.heap.length = c := by rw [hheap, deref_append_length]
    simp only [if_true] at hnew
    refine ⟨st.heap.length, ?_, ?_, ?_, ?_, ?_, ?_⟩
    · rw [List.map_append, List.map_congr_left hsame, inv.records, List.map_singleton, hdn]
    · intro r hr
      rcases List.mem_append.mp hr with hr | hr
      · have := inv.rs_valid r hr; omega
      · rw [List.mem_singleton] at hr; omega
    · rw [husers, insert_all_snoc, inv.users, insert_all_heap_congr hsame]
    · rw [hnew, inv.new_users, List.filter_append]
      have : [st.heap.length].filter (fun r => decide (h0.length ≤ r)) = [st.heap.length] := by
        simp; omega
      rw [this, insert_all_snoc]
      rw [insert_all_heap_congr (fun r hr => hsame r (List.mem_filter.mp hr).1)]
    · rw [hchanged, List.filter_append]
      have hfilt : rs.filter (fun r => decide (r < h0.length) &&
            decide (deref st1.heap r ≠ deref h0 r)) =
          rs.filter (fun r => decide (r < h0.length) &&
            decide (deref st.heap r ≠ deref h0 r)) :=
        List.filter_congr (fun r hr => by rw [hsame r hr])
      rw [hfilt]
      have : [st.heap.length].filter (fun r => decide (r < h0.length) &&
            decide (deref st1.heap r ≠ deref h0 r)) = [] := by
        have : ¬ st.heap.length < h0.length := by omega
        simp [this]
      rw [this, List.append_nil, inv.changed_users]
      exact (insert_all_heap_congr (fun r hr => hsame r (List.mem_filter.mp hr).1)).symm
    · intro r hr
      rcases List.mem_append.mp hr with hr | hr
      · rw [hsame r hr]; exact inv.link r hr
      · rw [List.mem_singleton] at hr
        subst hr
        rw [hdn, hfind, if_neg (by omega)]

theorem scanNodup_foldl {old : List Nat} {h0 : Heap} (hold : ∀ p ∈ old, p < h0.length)
    (cs2 : List LightDMUser) :
    ∀ (st : Scan) (cs : List LightDMUser) (rs : List Nat), ScanGen old h0 st cs →
      ScanNodup old h0 st cs rs → (∀ c ∈ cs2, c.logged_in = false) →
      ((cs ++ cs2).map (fun c => c.name)).Nodup →
      ∃ rs2, ScanNodup old h0 (cs2.foldl (merge_user old true) st) (cs ++ cs2) rs2 := by
  induction cs2 with
  | nil => intro st cs rs _ inv _ _; exact ⟨rs, by simpa using inv⟩
  | cons c cs2 ih =>
    intro st cs rs gen inv hc hnd
    have hstep := merge_user_step true c hold gen.len gen.names
    have hfresh : c.name ∉ cs.map (fun c => c.name) := by
      intro hin
      rw [List.map_append, List.map_cons] at hnd
      have := (List.nodup_append.mp hnd).2.2
      exact this hin (List.mem_cons_self _ _)
    obtain ⟨r, inv1⟩ := scanNodup_step hold gen inv hfresh hstep
    have gen1 := scanGen_step hold gen (hc c (List.mem_cons_self _ _)) hstep
    have := ih _ _ _ gen1 inv1 (fun d hd => hc d (List.mem_cons_of_mem _ hd))
      (by simpa using hnd)
    simpa using this

theorem scan_nodup (s : LightDMUserList) (env : PasswdEnv) (hu : s.have_users = true)
    (hv : ∀ p ∈ s.users, p < s.heap.length)
    (hnd : ((candidates env).map (fun c => c.name)).Nodup) :
    ∃ rs, ScanNodup s.users s.heap (scan env s) (candidates env) rs := by
  rw [scan_eq, hu]
  have := scanNodup_foldl hv (candidates env) _ [] [] (scanGen_init s.users s.heap)
    (scanNodup_init s.users s.heap) (candidates_logged_in env) (by simpa using hnd)
  simpa using this

/-! ## The notification loops -/

theorem notify_added_eq (users : List Nat) (new_users : List Nat) :
    ∀ handlers : List Nat, notify_added users handlers new_users =
      (handlers ++ new_users, new_users.map (fun info => ⟨Signal.user_added info, users⟩)) := by
  induction new_users with
  | nil => intro handlers; simp [notify_added]
  | cons info rest ih => intro handlers; simp [notify_added, ih]

theorem added_append (a b : List Emission) : added (a ++ b) = added a ++ added b := by
  simp [added, signals]

theorem changed_append (a b : List Emission) : changed (a ++ b) = changed a ++ changed b := by
  simp [changed, signals]

theorem removed_append (a b : List Emission) : removed (a ++ b) = removed a ++ removed b := by
  simp [removed, signals]

theorem added_map_added (users : List Nat) (l : List Nat) :
    added (l.map (fun info => (⟨Signal.user_added info, users⟩ : Emission))) = l := by
  induction l with
  | nil => rfl
  | cons x xs ih => simp only [added, signals, List.map_cons, List.filterMap_cons] at ih ⊢; rw [ih]

theorem changed_map_added (users : List Nat) (l : List Nat) :
    changed (l.map (fun info => (⟨Signal.user_added info, users⟩ : Emission))) = [] := by
  induction l with
  | nil => rfl
  | cons x xs ih => simp only [changed, signals, List.map_cons, List.filterMap_cons] at ih ⊢; rw [ih]

theorem removed_map_added (users : List Nat) (l : List Nat) :
    removed (l.map (fun info => (⟨Signal.user_added info, users⟩ : Emission))) = [] := by
  induction l with
  | nil => rfl
  | cons x xs ih => simp only [removed, signals, List.map_cons, List.filterMap_cons] at ih ⊢; rw [ih]

theorem added_map_removed (users : List Nat) (l : List Nat) :
    added (l.map (fun info => (⟨Signal.user_removed info, users⟩ : Emission))) = [] := by
  induction l with
  | nil => rfl
  | cons x xs ih => simp only [added, signals, List.map_cons, List.filterMap_cons] at ih ⊢; rw [ih]

theorem changed_map_removed (users : List Nat) (l : List Nat) :
    changed (l.map (fun info => (⟨Signal.user_removed info, users⟩ : Emission))) = [] := by
  induction l with
  | nil => rfl
  | cons x xs ih => simp only [changed, signals, List.map_cons, List.filterMap_cons] at ih ⊢; rw [ih]

theorem removed_map_removed (users : List Nat) (l : List Nat) :
    removed (l.map (fun info => (⟨Signal.user_removed info, users⟩ : Emission))) = l := by
  induction l with
  | nil => rfl
  | cons x xs ih => simp only [removed, signals, List.map_cons, List.filterMap_cons] at ih ⊢; rw [ih]

theorem added_emit_changed (handlers users : List Nat) (p : Nat) :
    added (emit_changed handlers users p) = [] := by
  unfold emit_changed
  induction handlers.count p with
  | zero => rfl
  | succ n ih =>
    rw [List.replicate_succ]
    simp only [added, signals, List.map_cons, List.filterMap_cons, user_changed_cb] at ih ⊢
    exact ih

theorem removed_emit_changed (handlers users : List Nat) (p : Nat) :
    removed (emit_changed handlers users p) = [] := by
  unfold emit_changed
  induction handlers.count p with
  | zero => rfl
  | succ n ih =>
    rw [List.replicate_succ]
    simp only [removed, signals, List.map_cons, List.filterMap_cons, user_changed_cb] at ih ⊢
    exact ih

theorem changed_emit_changed (handlers users : List Nat) (p : Nat) :
    changed (emit_changed handlers users p) = List.replicate (handlers.count p) p := by
  unfold emit_changed
  induction handlers.count p with
  | zero => rfl
  | succ n ih =>
    rw [List.replicate_succ, List.replicate_succ]
    simp only [changed, signals, List.map_cons, List.filterMap_cons, user_changed_cb] at ih ⊢
    rw [ih]

theorem added_notify_changed (handlers users l : List Nat) :
    added (notify_changed handlers users l) = [] := by
  unfold notify_changed
  induction l with
  | nil => rfl
  | cons x xs ih => rw [List.map_cons, List.flatten_cons, added_append, added_emit_changed, ih]; rfl

theorem removed_notify_changed (handlers users l : List Nat) :
    removed (notify_changed handlers users l) = [] := by
  unfold notify_changed
  induction l with
  | nil => rfl
  | cons x xs ih =>
    rw [List.map_cons, List.flatten_cons, removed_append, removed_emit_changed, ih]; rfl

theorem changed_notify_changed (handlers users l : List Nat) :
    changed (notify_changed handlers users l) =
      (l.map (fun p => List.replicate (handlers.count p) p)).flatten := by
  unfold notify_changed
  induction l with
  | nil => rfl
  | cons x xs ih =>
    rw [List.map_cons, List.flatten_cons, changed_append, changed_emit_changed, ih]
    rfl

/-! ## What a run of load_passwd_file leaves -/

theorem load_heap (s : LightDMUserList) (env : PasswdEnv) :
    (load_passwd_file s env).1.heap = (scan env s).heap := rfl

theorem load_users (s : LightDMUserList) (env : PasswdEnv) :
    (load_passwd_file s env).1.users = (scan env s).users := rfl

theorem load_have_users (s : LightDMUserList) (env : PasswdEnv) :
    (load_passwd_file s env).1.have_users = s.have_users := rfl

theorem load_handlers (s : LightDMUserList) (env : PasswdEnv) :
    (load_passwd_file s env).1.changed_handlers = s.changed_handlers ++ (scan env s).new_users := by
  simp [load_passwd_file, notify_added_eq]

theorem load_added (s : LightDMUserList) (env : PasswdEnv) :
    added (load_passwd_file s env).2 = (scan env s).new_users := by
  simp only [load_passwd_file, notify_added_eq, added_append, added_map_added,
    added_notify_changed, notify_removed, added_map_removed, List.append_nil]

theorem load_changed (s : LightDMUserList) (env : PasswdEnv) :
    changed (load_passwd_file s env).2 =
      ((scan env s).changed_users.map (fun p => List.replicate
        ((s.changed_handlers ++ (scan env s).new_users).count p) p)).flatten := by
  simp only [load_passwd_file, notify_added_eq, changed_append, changed_map_added,
    changed_notify_changed, notify_removed, changed_map_removed, List.append_nil, List.nil_append]

theorem load_removed (s : LightDMUserList) (env : PasswdEnv) :
    removed (load_passwd_file s env).2 =
      s.users.filter (fun info => !(scan env s).users.contains info) := by
  simp only [load_passwd_file, notify_added_eq, removed_append, removed_map_added,
    removed_notify_changed, notify_removed, removed_map_removed, List.append_nil, List.nil_append]

theorem load_wellFormed {s : LightDMUserList} (env : PasswdEnv) (hs : WellFormed s)
    (hu : s.have_users = true) : WellFormed (load_passwd_file s env).1 := by
  have gen := scan_gen s env hu hs.users_valid
  refine ⟨?_, ?_, ?_, ?_, ?_⟩
  · exact gen.users_valid
  · intro p hp
    rw [load_handlers, List.mem_append] at hp
    rw [load_heap]
    rcases hp with hp | hp
    · have := hs.handlers_valid p hp
      have := gen.len
      omega
    · exact (gen.new_valid p hp).2
  · rw [load_handlers]
    refine List.nodup_append.mpr ⟨hs.handlers_nodup, gen.new_nodup, ?_⟩
    intro p hp1 hp2
    have := hs.handlers_valid p hp1
    have := (gen.new_valid p hp2).1
    omega
  · intro p hp
    rw [load_handlers, List.mem_append]
    rw [load_users] at hp
    by_cases hp0 : p < s.heap.length
    · exact Or.inl (hs.users_connected p (gen.users_old p hp hp0))
    · exact Or.inr (gen.users_new p hp (by omega))
  · exact gen.not_logged_in

/-! ## The installed list -/

theorem wellFormed_first : WellFormed first_load_state where
  users_valid := by simp [first_load_state, lightdm_user_list_new]
  handlers_valid := by simp [first_load_state, lightdm_user_list_new]
  handlers_nodup := by simp [first_load_state, lightdm_user_list_new]
  users_connected := by simp [first_load_state, lightdm_user_list_new]
  not_logged_in := by simp [first_load_state, lightdm_user_list_new]

theorem load_records_perm {s : LightDMUserList} {env : PasswdEnv} {rs : List Nat}
    (inv : ScanNodup s.users s.heap (scan env s) (candidates env) rs) :
    (records (load_passwd_file s env).1).Perm (candidates env) := by
  unfold records
  rw [load_users, load_heap, inv.users]
  have := (insert_all_perm (compare_user (scan env s).heap) rs).map (deref (scan env s).heap)
  rwa [inv.records] at this

theorem load_users_nodup {s : LightDMUserList} {env : PasswdEnv} {rs : List Nat}
    (inv : ScanNodup s.users s.heap (scan env s) (candidates env) rs)
    (hnd : ((candidates env).map (fun c => c.name)).Nodup) :
    (load_passwd_file s env).1.users.Nodup := by
  have h1 : (rs.map (deref (scan env s).heap)).Nodup := by
    rw [inv.records]; exact List.Nodup.of_map _ hnd
  have h2 : rs.Nodup := List.Nodup.of_map _ h1
  rw [load_users, inv.users]
  exact (insert_all_perm _ rs).nodup_iff.mpr h2

theorem load_sorted {s : LightDMUserList} {env : PasswdEnv} {rs : List Nat}
    (inv : ScanNodup s.users s.heap (scan env s) (candidates env) rs) :
    SortedUsers (load_passwd_file s env).1.heap (load_passwd_file s env).1.users := by
  rw [load_users, load_heap, inv.users]
  exact insert_all_sorted _ _

theorem accepted_iff (config : GKeyFile) (e : passwd) :
    accepted config e = true ↔
      is_system_user e (minimum_uid config) = false ∧
      has_hidden_shell e (hidden_shells config) = false ∧
      is_hidden_user e (hidden_users config) = false := by
  unfold accepted
  cases is_system_user e (minimum_uid config) <;>
    cases has_hidden_shell e (hidden_shells config) <;>
    cases is_hidden_user e (hidden_users config) <;> simp

theorem is_system_user_false {e : passwd} {m : Int} (h : is_system_user e m = false)
    (huid : e.pw_uid < 2 ^ 32) (hm : m < 2 ^ 31) : ¬ ((e.pw_uid : Int) < m) := by
  unfold is_system_user at h
  rw [decide_eq_false_iff_not] at h
  norm_num at h huid hm
  omega

theorem has_hidden_shell_false {e : passwd} {shells : List CString}
    (h : has_hidden_shell e shells = false) :
    ∀ sh, e.pw_shell = some sh → sh ∉ shells := by
  intro sh hsh hmem
  unfold has_hidden_shell at h
  rw [hsh] at h
  simp only [List.any_eq_false] at h
  exact h sh hmem ((strcmp_beq_iff _ _).mpr rfl)

theorem is_hidden_user_false {e : passwd} {users : List CString}
    (h : is_hidden_user e users = false) : e.pw_name ∉ users := by
  intro hmem
  unfold is_hidden_user at h
  simp only [List.any_eq_false] at h
  exact h _ hmem ((strcmp_beq_iff _ _).mpr rfl)

theorem mem_candidates {env : PasswdEnv} {c : LightDMUser} (hc : c ∈ candidates env) :
    ∃ e ∈ env.entries, accepted env.config e = true ∧ candidate env.g_file_test e = c := by
  unfold candidates at hc
  obtain ⟨e, he, rfl⟩ := List.mem_map.mp hc
  rw [List.mem_filter] at he
  exact ⟨e, he.1, he.2, rfl⟩

theorem load_users_from_accepted {s : LightDMUserList} (env : PasswdEnv) (hs : WellFormed s)
    (hu : s.have_users = true) :
    ∀ p ∈ (load_passwd_file s env).1.users,
      ∃ e ∈ env.entries, accepted env.config e = true ∧
        e.pw_name = (deref (load_passwd_file s env).1.heap p).name := by
  intro p hp
  have gen := scan_gen s env hu hs.users_valid
  rw [load_users] at hp
  rw [load_heap]
  have hmem : (deref (scan env s).heap p).name ∈ (candidates env).map (fun c => c.name) := by
    rw [← gen.users_names.mem_iff]
    exact List.mem_map_of_mem (fun p => (deref (scan env s).heap p).name) hp
  obtain ⟨c, hc, hcn⟩ := List.mem_map.mp hmem
  obtain ⟨e, he, hacc, rfl⟩ := mem_candidates hc
  exact ⟨e, he, hacc, hcn⟩

/-! ## Claims about one reconciliation pass -/

/-- C2 (the code departs from the claim): on the very first load, made by
update_users on the first query with have_users already raised, a user-added
signal is emitted for the accepted entry alice. -/
theorem first_load_emits_user_added :
    signals (update_users lightdm_user_list_new
      (passwd_only [account "alice" 1000 "Alice"])).2 = [Signal.user_added 0] := by
  decide

/-- C8: for every previous list and every stream whose accepted entries have
pairwise distinct names, the list installed by load_passwd_file is in ascending
compare_user order, read in the heap the pass leaves (so with the real names
updated in place during the pass). -/
theorem load_passwd_file_sorted (s : LightDMUserList) (env : PasswdEnv) (hs : WellFormed s)
    (hu : s.have_users = true) (hnd : ((candidates env).map (fun c => c.name)).Nodup) :
    SortedUsers (load_passwd_file s env).1.heap (load_passwd_file s env).1.users := by
  obtain ⟨rs, inv⟩ := scan_nodup s env hu hs.users_valid hnd
  exact load_sorted inv

/-- Witness of C8: zed and amy are loaded, then reloaded with the real name of
zed changed to Aaron; the reload moves zed in front of amy. -/
theorem load_passwd_file_sorted_witness :
    ((candidates (plain_env [account "zed" 1000 "Aaron", account "amy" 1001 "Amy"])).map
      (fun c => c.name)).Nodup ∧
    (load_passwd_file first_load_state
      (plain_env [account "zed" 1000 "Zed", account "amy" 1001 "Amy"])).1.users = [1, 0] ∧
    (load_passwd_file (load_passwd_file first_load_state
      (plain_env [account "zed" 1000 "Zed", account "amy" 1001 "Amy"])).1
      (plain_env [account "zed" 1000 "Aaron", account "amy" 1001 "Amy"])).1.users = [0, 1] ∧
    SortedUsers
      (load_passwd_file (load_passwd_file first_load_state
        (plain_env [account "zed" 1000 "Zed", account "amy" 1001 "Amy"])).1
        (plain_env [account "zed" 1000 "Aaron", account "amy" 1001 "Amy"])).1.heap
      (load_passwd_file (load_passwd_file first_load_state
        (plain_env [account "zed" 1000 "Zed", account "amy" 1001 "Amy"])).1
        (plain_env [account "zed" 1000 "Aaron", account "amy" 1001 "Amy"])).1.users :=
  ⟨by decide, by decide, by decide,
    load_passwd_file_sorted _ _ (load_wellFormed _ wellFormed_first rfl) rfl (by decide)⟩

/-- C9: after load_passwd_file with accepted entries of pairwise distinct
names, the records of the list are, up to order, exactly the records built from
the accepted entries (name, real name, home directory, image), one list cell
and one object for each. -/
theorem load_passwd_file_records (s : LightDMUserList) (env : PasswdEnv) (hs : WellFormed s)
    (hu : s.have_users = true) (hnd : ((candidates env).map (fun c => c.name)).Nodup) :
    (records (load_passwd_file s env).1).Perm (candidates env) ∧
      (load_passwd_file s env).1.users.Nodup := by
  obtain ⟨rs, inv⟩ := scan_nodup s env hu hs.users_valid hnd
  exact ⟨load_records_perm inv, load_users_nodup inv hnd⟩

/-- Witness of C9: alice is loaded, then reloaded with a new real name together
with a new account bob; one record is updated in place, one is created. -/
theorem load_passwd_file_records_witness :
    ((candidates (plain_env [account "alice" 1000 "Alice B", account "bob" 1001 "Bob"])).map
      (fun c => c.name)).Nodup ∧
    (records (load_passwd_file
      (load_passwd_file first_load_state (plain_env [account "alice" 1000 "Alice"])).1
      (plain_env [account "alice" 1000 "Alice B", account "bob" 1001 "Bob"])).1).Perm
      (candidates (plain_env [account "alice" 1000 "Alice B", account "bob" 1001 "Bob"])) ∧
    (load_passwd_file
      (load_passwd_file first_load_state (plain_env [account "alice" 1000 "Alice"])).1
      (plain_env [account "alice" 1000 "Alice B", account "bob" 1001 "Bob"])).1.users.Nodup :=
  ⟨by decide,
    load_passwd_file_records _ _ (load_wellFormed _ wellFormed_first rfl) rfl (by decide)⟩

/-- C10: for every configuration and every stream of passwd entries, on the
first load and on every reload, no record of the installed list has a hidden
user name, and every record carries the name of an entry of the stream whose
UID is not below the configured minimum and whose shell is no hidden shell. The
UID is an unsigned 32-bit value and the minimum a signed 32-bit value. -/
theorem load_passwd_file_filters (s : LightDMUserList) (env : PasswdEnv) (hs : WellFormed s)
    (hu : s.have_users = true) (hmin : minimum_uid env.config < 2 ^ 31)
    (huid : ∀ e ∈ env.entries, e.pw_uid < 2 ^ 32) :
    ∀ p ∈ (load_passwd_file s env).1.users,
      (deref (load_passwd_file s env).1.heap p).name ∉ hidden_users env.config ∧
      ∃ e ∈ env.entries, e.pw_name = (deref (load_passwd_file s env).1.heap p).name ∧
        ¬ ((e.pw_uid : Int) < minimum_uid env.config) ∧
        ∀ shell, e.pw_shell = some shell → shell ∉ hidden_shells env.config := by
  intro p hp
  obtain ⟨e, he, hacc, hname⟩ := load_users_from_accepted env hs hu p hp
  obtain ⟨h1, h2, h3⟩ := (accepted_iff _ _).mp hacc
  refine ⟨?_, e, he, hname, is_system_user_false h1 (huid e he) hmin, has_hidden_shell_false h2⟩
  rw [← hname]
  exact is_hidden_user_false h3

/-! ## Two passes in a row -/

theorem get_user_by_name_unique {heap : Heap} {users : List Nat} {n : CString} {r : Nat}
    (hr : r ∈ users) (hn : (deref heap r).name = n)
    (huniq : ∀ p ∈ users, (deref heap p).name = n → p = r) :
    get_user_by_name heap users n = some r := by
  cases h : get_user_by_name heap users n with
  | none => exact absurd hn (get_user_by_name_none h r hr)
  | some p =>
    obtain ⟨hp, hpn⟩ := get_user_by_name_some h
    rw [huniq p hp hpn]

theorem load_log_eq (s : LightDMUserList) (env : PasswdEnv) :
    (load_passwd_file s env).2 =
      (scan env s).new_users.map (fun info => ⟨Signal.user_added info, (scan env s).users⟩) ++
        notify_changed (s.changed_handlers ++ (scan env s).new_users) (scan env s).users
          (scan env s).changed_users ++
        notify_removed (scan env s).users s.users := by
  simp [load_passwd_file, notify_added_eq]

theorem load_names_nodup {s : LightDMUserList} {env : PasswdEnv} (hs : WellFormed s)
    (hu : s.have_users = true) (hnd : ((candidates env).map (fun c => c.name)).Nodup) :
    ((load_passwd_file s env).1.users.map
      (fun p => (deref (load_passwd_file s env).1.heap p).name)).Nodup := by
  have gen := scan_gen s env hu hs.users_valid
  rw [load_users, load_heap]
  exact gen.users_names.nodup_iff.mpr hnd

/-- After a pass with pairwise distinct names, each object of rs is found under
its own name. -/
theorem load_find_self {s : LightDMUserList} {env : PasswdEnv} {rs : List Nat}
    (hs : WellFormed s) (hu : s.have_users = true)
    (hnd : ((candidates env).map (fun c => c.name)).Nodup)
    (inv : ScanNodup s.users s.heap (scan env s) (candidates env) rs) :
    ∀ r ∈ rs, get_user_by_name (load_passwd_file s env).1.heap (load_passwd_file s env).1.users
      (deref (load_passwd_file s env).1.heap r).name = some r := by
  intro r hr
  have hnames := load_names_nodup hs hu hnd
  have hmem : r ∈ (load_passwd_file s env).1.users := by
    rw [load_users, inv.users, mem_insert_all]; exact hr
  refine get_user_by_name_unique hmem rfl ?_
  intro p hp hpn
  exact List.inj_on_of_nodup_map hnames hp hmem hpn

/-- The objects a second pass resolves the same records to are those of the
first pass, in the same order. -/
theorem reload_resolves_same {s : LightDMUserList} {env1 env2 : PasswdEnv} {rs1 rs2 : List Nat}
    (hs : WellFormed s) (hu : s.have_users = true)
    (hnd : ((candidates env1).map (fun c => c.name)).Nodup)
    (hcs : candidates env2 = candidates env1)
    (inv1 : ScanNodup s.users s.heap (scan env1 s) (candidates env1) rs1)
    (inv2 : ScanNodup (load_passwd_file s env1).1.users (load_passwd_file s env1).1.heap
      (scan env2 (load_passwd_file s env1).1) (candidates env2) rs2) :
    rs2 = rs1 := by
  have hfind := load_find_self hs hu hnd inv1
  have hmap1 : (candidates env1).map (fun c => get_user_by_name (load_passwd_file s env1).1.heap
      (load_passwd_file s env1).1.users c.name) = rs1.map some := by
    have hrec := inv1.records
    rw [← load_heap] at hrec
    rw [← hrec, List.map_map]
    exact List.map_inj_left.mpr (fun r hr => hfind r hr)
  have hmap2 : (candidates env1).map (fun c => get_user_by_name (load_passwd_file s env1).1.heap
      (load_passwd_file s env1).1.users c.name) = rs2.map some := by
    have hrec := inv2.records
    rw [hcs] at hrec
    rw [← hrec, List.map_map]
    apply List.map_inj_left.mpr
    intro r hr
    show get_user_by_name _ _ (deref (scan env2 (load_passwd_file s env1).1).heap r).name = some r
    have hlink := inv2.link r hr
    have hc : deref (scan env2 (load_passwd_file s env1).1).heap r ∈ candidates env1 := by
      rw [← hrec]; exact List.mem_map_of_mem _ hr
    have hrec1 := inv1.records
    rw [← load_heap] at hrec1
    rw [← hrec1] at hc
    obtain ⟨r1, hr1, hr1c⟩ := List.mem_map.mp hc
    have h1 := hfind r1 hr1
    rw [hr1c] at h1
    rw [h1] at hlink
    split_ifs at hlink with hlt
    rw [h1, hlink]
  have := hmap2.symm.trans hmap1
  exact List.map_injective_iff.mpr (Option.some_injective _) this

theorem reload_same {s : LightDMUserList} {env : PasswdEnv} (hs : WellFormed s)
    (hu : s.have_users = true) (hnd : ((candidates env).map (fun c => c.name)).Nodup) :
    (load_passwd_file (load_passwd_file s env).1 env).1.users = (load_passwd_file s env).1.users ∧
      (load_passwd_file (load_passwd_file s env).1 env).2 = [] := by
  obtain ⟨rs1, inv1⟩ := scan_nodup s env hu hs.users_valid hnd
  have hs1 := load_wellFormed env hs hu
  have hu1 : (load_passwd_file s env).1.have_users = true := hu
  obtain ⟨rs2, inv2⟩ := scan_nodup _ env hu1 hs1.users_valid hnd
  have hrs : rs2 = rs1 := reload_resolves_same hs hu hnd rfl inv1 inv2
  subst hrs
  have hderef : ∀ r ∈ rs2, deref (scan env (load_passwd_file s env).1).heap r =
      deref (load_passwd_file s env).1.heap r := by
    apply List.map_inj_left.mp
    rw [inv2.records, load_heap, inv1.records]
  have hvalid : ∀ r ∈ rs2, r < (load_passwd_file s env).1.heap.length := by
    intro r hr
    rw [load_heap]
    exact inv1.rs_valid r hr
  have husers : (load_passwd_file (load_passwd_file s env).1 env).1.users =
      (load_passwd_file s env).1.users := by
    have h1 : (load_passwd_file s env).1.users =
        insert_all (compare_user (load_passwd_file s env).1.heap) rs2 := by
      rw [load_users, load_heap, inv1.users]
    rw [load_users, inv2.users, insert_all_heap_congr hderef, ← h1]
  have hnew : (scan env (load_passwd_file s env).1).new_users = [] := by
    rw [inv2.new_users]
    have : rs2.filter (fun r => decide ((load_passwd_file s env).1.heap.length ≤ r)) = [] := by
      rw [List.filter_eq_nil_iff]
      intro r hr
      have := hvalid r hr
      simp
      omega
    rw [this]
    rfl
  have hch : (scan env (load_passwd_file s env).1).changed_users = [] := by
    rw [inv2.changed_users]
    have : rs2.filter (fun r => decide (r < (load_passwd_file s env).1.heap.length) &&
        decide (deref (scan env (load_passwd_file s env).1).heap r ≠
          deref (load_passwd_file s env).1.heap r)) = [] := by
      rw [List.filter_eq_nil_iff]
      intro r hr
      simp [hderef r hr]
    rw [this]
    rfl
  refine ⟨husers, ?_⟩
  rw [load_log_eq, hnew, hch]
  rw [load_users] at husers
  rw [husers]
  simp [notify_changed, notify_removed]

theorem scan_congr {env1 env2 : PasswdEnv} (s : LightDMUserList)
    (h : candidates env2 = candidates env1) : scan env2 s = scan env1 s := by
  rw [scan_eq, scan_eq, h]

theorem load_congr {env1 env2 : PasswdEnv} (s : LightDMUserList)
    (h : candidates env2 = candidates env1) :
    load_passwd_file s env2 = load_passwd_file s env1 := by
  simp only [load_passwd_file, scan_congr s h]

/-- C3, as stated, fails: the accepted entries a (real name X) and a (real name
Y), two distinct candidates under one name, are loaded and then loaded again
unchanged; the second pass emits user-changed for the first record and
user-removed for the second. -/
theorem reload_same_candidates_emits :
    signals (load_passwd_file
      (load_passwd_file first_load_state
        (plain_env [account "a" 1000 "X", account "a" 1000 "Y"])).1
      (plain_env [account "a" 1000 "X", account "a" 1000 "Y"])).2 =
      [Signal.user_changed 0, Signal.user_removed 1] := by
  decide

/-- C3, amended: for every list produced by load_passwd_file from accepted
entries of pairwise distinct names, running load_passwd_file again with the
same accepted entries (same names, real names, home directories and images)
emits no signal at all. -/
theorem reload_emits_nothing (s : LightDMUserList) (env1 env2 : PasswdEnv) (hs : WellFormed s)
    (hu : s.have_users = true) (hnd : ((candidates env1).map (fun c => c.name)).Nodup)
    (hsame : candidates env2 = candidates env1) :
    (load_passwd_file (load_passwd_file s env1).1 env2).2 = [] := by
  rw [load_congr _ hsame]
  exact (reload_same hs hu hnd).2

/-- Witness of C3, amended: alice and bob, loaded twice; the second stream also
holds root, which is filtered out. -/
theorem reload_emits_nothing_witness :
    ((candidates (plain_env [account "alice" 1000 "Alice", account "bob" 1001 ""])).map
      (fun c => c.name)).Nodup ∧
    candidates (plain_env [account "root" 0 "root", account "alice" 1000 "Alice",
        account "bob" 1001 ""]) =
      candidates (plain_env [account "alice" 1000 "Alice", account "bob" 1001 ""]) ∧
    (load_passwd_file
      (load_passwd_file first_load_state
        (plain_env [account "alice" 1000 "Alice", account "bob" 1001 ""])).1
      (plain_env [account "root" 0 "root", account "alice" 1000 "Alice",
        account "bob" 1001 ""])).2 = [] :=
  ⟨by decide, by decide,
    reload_emits_nothing _ _ _ wellFormed_first rfl (by decide) (by decide)⟩

/-- C4, as stated, fails: the stream a, a (one entry twice) is loaded and then
reloaded unchanged; the list held two instances and now holds one instance
twice. -/
theorem reload_same_data_replaces_instance :
    (load_passwd_file first_load_state
      (plain_env [account "a" 1000 "", account "a" 1000 ""])).1.users = [1, 0] ∧
    (load_passwd_file
      (load_passwd_file first_load_state
        (plain_env [account "a" 1000 "", account "a" 1000 ""])).1
      (plain_env [account "a" 1000 "", account "a" 1000 ""])).1.users = [1, 1] := by
  decide

/-- C4, amended: for every list produced by load_passwd_file from accepted
entries of pairwise distinct names and every reload with the same accepted
entries, the list after the reload holds the same instances as before, cell for
cell and in the same order. -/
theorem reload_keeps_instances (s : LightDMUserList) (env1 env2 : PasswdEnv) (hs : WellFormed s)
    (hu : s.have_users = true) (hnd : ((candidates env1).map (fun c => c.name)).Nodup)
    (hsame : candidates env2 = candidates env1) :
    (load_passwd_file (load_passwd_file s env1).1 env2).1.users =
      (load_passwd_file s env1).1.users := by
  rw [load_congr _ hsame]
  exact (reload_same hs hu hnd).1

/-- Witness of C4, amended: zed and amy, loaded twice. -/
theorem reload_keeps_instances_witness :
    ((candidates (plain_env [account "zed" 1000 "Zed", account "amy" 1001 "Amy"])).map
      (fun c => c.name)).Nodup ∧
    (load_passwd_file
      (load_passwd_file first_load_state
        (plain_env [account "zed" 1000 "Zed", account "amy" 1001 "Amy"])).1
      (plain_env [account "zed" 1000 "Zed", account "amy" 1001 "Amy"])).1.users =
    (load_passwd_file first_load_state
      (plain_env [account "zed" 1000 "Zed", account "amy" 1001 "Amy"])).1.users :=
  ⟨by decide, reload_keeps_instances _ _ _ wellFormed_first rfl (by decide) rfl⟩

/-- Witness of C10: alice and bob are listed; on the reload alice has the shell
/bin/false, and root (UID 0) and nobody are in the stream; only bob stays. -/
theorem load_passwd_file_filters_witness :
    minimum_uid alice_disabled.config < 2 ^ 31 ∧
    (∀ e ∈ alice_disabled.entries, e.pw_uid < 2 ^ 32) ∧
    (load_passwd_file first_load_state alice_bob).1.users = [0, 1] ∧
    (load_passwd_file (load_passwd_file first_load_state alice_bob).1 alice_disabled).1.users =
      [1] ∧
    ∀ p ∈ (load_passwd_file (load_passwd_file first_load_state alice_bob).1
        alice_disabled).1.users,
      (deref (load_passwd_file (load_passwd_file first_load_state alice_bob).1
        alice_disabled).1.heap p).name ∉ hidden_users alice_disabled.config ∧
      ∃ e ∈ alice_disabled.entries,
        e.pw_name = (deref (load_passwd_file (load_passwd_file first_load_state alice_bob).1
          alice_disabled).1.heap p).name ∧
        ¬ ((e.pw_uid : Int) < minimum_uid alice_disabled.config) ∧
        ∀ shell, e.pw_shell = some shell → shell ∉ hidden_shells alice_disabled.config :=
  ⟨by decide, by decide, by decide, by decide,
    load_passwd_file_filters _ _ (load_wellFormed _ wellFormed_first rfl) rfl (by decide)
      (by decide)⟩

/-! ## A reload after a load -/

theorem LightDMUser.eq_of_fields {a b : LightDMUser} (h1 : a.name = b.name)
    (h2 : a.real_name = b.real_name) (h3 : a.home_directory = b.home_directory)
    (h4 : a.image = b.image) (h5 : a.logged_in = b.logged_in) : a = b := by
  cases a; cases b; simp_all

theorem names_eq (s : LightDMUserList) :
    names s = s.users.map (fun p => (deref s.heap p).name) := by
  simp [names, records, List.map_map, Function.comp_def]

/-- In a pass over a list of pairwise distinct names, an object the pass
resolves a record to is an old one exactly when the name of the record is in
the old list. -/
theorem ScanNodup.old_iff {old : List Nat} {h0 : Heap} {st : Scan} {cs : List LightDMUser}
    {rs : List Nat} (inv : ScanNodup old h0 st cs rs) {r : Nat} (hr : r ∈ rs) :
    r < h0.length ↔ (deref st.heap r).name ∈ old.map (fun p => (deref h0 p).name) := by
  have hlink := inv.link r hr
  constructor
  · intro hlt
    rw [if_pos hlt] at hlink
    obtain ⟨hmem, hname⟩ := get_user_by_name_some hlink
    rw [← hname]
    exact List.mem_map_of_mem (fun p => (deref h0 p).name) hmem
  · intro hmem
    obtain ⟨p, hp, hpn⟩ := List.mem_map.mp hmem
    by_contra hlt
    rw [if_neg hlt] at hlink
    exact get_user_by_name_none hlink p hp hpn

/-- In a pass over a list of pairwise distinct names, an old object is kept
exactly when its name is among the accepted records. -/
theorem ScanNodup.kept_iff {old : List Nat} {h0 : Heap} {st : Scan} {cs : List LightDMUser}
    {rs : List Nat} (inv : ScanNodup old h0 st cs rs) (gen : ScanGen old h0 st cs)
    (hold : ∀ p ∈ old, p < h0.length)
    (hnd : (old.map (fun p => (deref h0 p).name)).Nodup) {p : Nat} (hp : p ∈ old) :
    p ∈ rs ↔ (deref h0 p).name ∈ cs.map (fun c => c.name) := by
  constructor
  · intro hpr
    rw [← gen.names p (hold p hp), ← inv.records, List.map_map]
    exact List.mem_map_of_mem ((fun c => c.name) ∘ deref st.heap) hpr
  · intro hmem
    obtain ⟨c, hc, hcn⟩ := List.mem_map.mp hmem
    rw [← inv.records] at hc
    obtain ⟨r, hr, hrc⟩ := List.mem_map.mp hc
    have hlink := inv.link r hr
    rw [hrc, hcn] at hlink
    have hself : get_user_by_name h0 old (deref h0 p).name = some p :=
      get_user_by_name_unique hp rfl (fun q hq hqn => List.inj_on_of_nodup_map hnd hq hp hqn)
    rw [hself] at hlink
    split_ifs at hlink with hlt
    rw [Option.some.injEq] at hlink
    rw [hlink]
    exact hr

theorem reload_events {s : LightDMUserList} {env1 env2 : PasswdEnv} (hs : WellFormed s)
    (hu : s.have_users = true) (hnd1 : ((candidates env1).map (fun c => c.name)).Nodup)
    (hnd2 : ((candidates env2).map (fun c => c.name)).Nodup) :
    ((added (load_passwd_file (load_passwd_file s env1).1 env2).2).map
        (fun p => (deref (load_passwd_file (load_passwd_file s env1).1 env2).1.heap p).name)).Perm
      (((candidates env2).map (fun c => c.name)).filter
        (fun n => decide (n ∉ (candidates env1).map (fun c => c.name)))) ∧
    ((removed (load_passwd_file (load_passwd_file s env1).1 env2).2).map
        (fun p => (deref (load_passwd_file (load_passwd_file s env1).1 env2).1.heap p).name)).Perm
      (((candidates env1).map (fun c => c.name)).filter
        (fun n => decide (n ∉ (candidates env2).map (fun c => c.name)))) ∧
    (names (load_passwd_file (load_passwd_file s env1).1 env2).1).Perm
      ((candidates env2).map (fun c => c.name)) := by
  have gen1 := scan_gen s env1 hu hs.users_valid
  have hs1 := load_wellFormed env1 hs hu
  have hu1 : (load_passwd_file s env1).1.have_users = true := hu
  have gen2 := scan_gen _ env2 hu1 hs1.users_valid
  obtain ⟨rs2, inv2⟩ := scan_nodup _ env2 hu1 hs1.users_valid hnd2
  have hn1 : ((load_passwd_file s env1).1.users.map
      (fun p => (deref (load_passwd_file s env1).1.heap p).name)).Perm
      ((candidates env1).map (fun c => c.name)) := gen1.users_names
  have hnd1' := load_names_nodup hs hu hnd1
  have hrs2names : rs2.map (fun r => (deref (scan env2 (load_passwd_file s env1).1).heap r).name) =
      (candidates env2).map (fun c => c.name) := by
    rw [← inv2.records, List.map_map]; rfl
  refine ⟨?_, ?_, ?_⟩
  · rw [load_added, load_heap, inv2.new_users]
    refine ((insert_all_perm _ _).map _).trans ?_
    rw [← hrs2names, List.filter_map]
    apply List.Perm.of_eq
    congr 1
    apply List.filter_congr
    intro r hr
    have := inv2.old_iff hr
    rw [hn1.mem_iff] at this
    simp only [Function.comp, decide_not]
    by_cases hlt : r < (load_passwd_file s env1).1.heap.length
    · have h1 := this.mp hlt
      simp [h1]
      omega
    · have h1 : ¬ _ := fun h => hlt (this.mpr h)
      simp [h1]
      omega
  · rw [load_removed, load_heap]
    have hfilt : (load_passwd_file s env1).1.users.filter
          (fun info => !(scan env2 (load_passwd_file s env1).1).users.contains info) =
        (load_passwd_file s env1).1.users.filter
          (((fun n => decide (n ∉ (candidates env2).map (fun c => c.name)))) ∘
            (fun p => (deref (load_passwd_file s env1).1.heap p).name)) := by
      apply List.filter_congr
      intro p hp
      have hk := inv2.kept_iff gen2 hs1.users_valid hnd1' hp
      rw [inv2.users]
      simp only [Function.comp, List.contains_eq_any_beq, decide_not]
      congr 1
      rw [Bool.eq_iff_iff]
      simp only [List.any_eq_true, beq_iff_eq, decide_eq_true_eq]
      constructor
      · rintro ⟨q, hq, rfl⟩
        exact hk.mp (mem_insert_all.mp hq)
      · intro h
        exact ⟨p, mem_insert_all.mpr (hk.mpr h), rfl⟩
    rw [hfilt]
    have hmap : ((load_passwd_file s env1).1.users.filter
          (((fun n => decide (n ∉ (candidates env2).map (fun c => c.name)))) ∘
            (fun p => (deref (load_passwd_file s env1).1.heap p).name))).map
          (fun p => (deref (scan env2 (load_passwd_file s env1).1).heap p).name) =
        ((load_passwd_file s env1).1.users.filter
          (((fun n => decide (n ∉ (candidates env2).map (fun c => c.name)))) ∘
            (fun p => (deref (load_passwd_file s env1).1.heap p).name))).map
          (fun p => (deref (load_passwd_file s env1).1.heap p).name) := by
      apply List.map_congr_left
      intro p hp
      exact gen2.names p (hs1.users_valid p (List.mem_filter.mp hp).1)
    rw [hmap, ← List.filter_map]
    exact hn1.filter _
  · rw [names_eq, load_users, load_heap]
    exact gen2.users_names

theorem reload_no_change {s : LightDMUserList} {env1 env2 : PasswdEnv} (hs : WellFormed s)
    (hu : s.have_users = true) (hnd1 : ((candidates env1).map (fun c => c.name)).Nodup)
    (hnd2 : ((candidates env2).map (fun c => c.name)).Nodup)
    (hcommon : ∀ c1 ∈ candidates env1, ∀ c2 ∈ candidates env2, c1.name = c2.name →
      c1.real_name = c2.real_name ∧ c1.home_directory = c2.home_directory ∧
        c1.image = c2.image) :
    changed (load_passwd_file (load_passwd_file s env1).1 env2).2 = [] := by
  obtain ⟨rs1, inv1⟩ := scan_nodup s env1 hu hs.users_valid hnd1
  have hs1 := load_wellFormed env1 hs hu
  have hu1 : (load_passwd_file s env1).1.have_users = true := hu
  obtain ⟨rs2, inv2⟩ := scan_nodup _ env2 hu1 hs1.users_valid hnd2
  have hrec1 := load_records_perm inv1
  have hnil : rs2.filter (fun r => decide (r < (load_passwd_file s env1).1.heap.length) &&
      decide (deref (scan env2 (load_passwd_file s env1).1).heap r ≠
        deref (load_passwd_file s env1).1.heap r)) = [] := by
    rw [List.filter_eq_nil_iff]
    intro r hr
    simp only [Bool.and_eq_true, decide_eq_true_eq, not_and, not_not]
    intro hlt
    have hlink := inv2.link r hr
    rw [if_pos hlt] at hlink
    obtain ⟨hmem, hname⟩ := get_user_by_name_some hlink
    have h1 : deref (load_passwd_file s env1).1.heap r ∈ candidates env1 := by
      rw [← hrec1.mem_iff]
      exact List.mem_map_of_mem _ hmem
    have h2 : deref (scan env2 (load_passwd_file s env1).1).heap r ∈ candidates env2 := by
      rw [← inv2.records]
      exact List.mem_map_of_mem _ hr
    obtain ⟨f1, f2, f3⟩ := hcommon _ h1 _ h2 hname
    exact (LightDMUser.eq_of_fields hname f1 f2 f3
      ((candidates_logged_in env1 _ h1).trans (candidates_logged_in env2 _ h2).symm)).symm
  rw [load_changed, inv2.changed_users, hnil]
  rfl

/-- C1: a list is loaded from accepted entries of pairwise distinct names, then
reloaded from accepted entries of pairwise distinct names in which every
account of both streams keeps its real name, home directory and image. The
reload emits user-removed exactly once for each name of the first stream that
is not in the second, user-added exactly once for each name of the second
stream that is not in the first, no user-changed, and installs a list whose
names are exactly those of the second stream. -/
theorem reload_add_remove (s : LightDMUserList) (env1 env2 : PasswdEnv) (hs : WellFormed s)
    (hu : s.have_users = true) (hnd1 : ((candidates env1).map (fun c => c.name)).Nodup)
    (hnd2 : ((candidates env2).map (fun c => c.name)).Nodup)
    (hcommon : ∀ c1 ∈ candidates env1, ∀ c2 ∈ candidates env2, c1.name = c2.name →
      c1.real_name = c2.real_name ∧ c1.home_directory = c2.home_directory ∧
        c1.image = c2.image) :
    ((removed (load_passwd_file (load_passwd_file s env1).1 env2).2).map
        (fun p => (deref (load_passwd_file (load_passwd_file s env1).1 env2).1.heap p).name)).Perm
      (((candidates env1).map (fun c => c.name)).filter
        (fun n => decide (n ∉ (candidates env2).map (fun c => c.name)))) ∧
    ((added (load_passwd_file (load_passwd_file s env1).1 env2).2).map
        (fun p => (deref (load_passwd_file (load_passwd_file s env1).1 env2).1.heap p).name)).Perm
      (((candidates env2).map (fun c => c.name)).filter
        (fun n => decide (n ∉ (candidates env1).map (fun c => c.name)))) ∧
    changed (load_passwd_file (load_passwd_file s env1).1 env2).2 = [] ∧
    (names (load_passwd_file (load_passwd_file s env1).1 env2).1).Perm
      ((candidates env2).map (fun c => c.name)) := by
  obtain ⟨hadd, hrem, hnames⟩ := reload_events hs hu hnd1 hnd2
  exact ⟨hrem, hadd, reload_no_change hs hu hnd1 hnd2 hcommon, hnames⟩

/-- Witness of C1: the list is loaded with A and B and reloaded with B and C.
The reload emits user-added for C (object 3) and user-removed for A (object 0)
and nothing else, and leaves the list B, C. -/
theorem reload_add_remove_witness :
    signals (load_passwd_file (load_passwd_file first_load_state accounts_A_B).1
      accounts_B_C).2 = [Signal.user_added 3, Signal.user_removed 0] ∧
    names (load_passwd_file (load_passwd_file first_load_state accounts_A_B).1
      accounts_B_C).1 = [cstr "B", cstr "C"] ∧
    (((removed (load_passwd_file (load_passwd_file first_load_state accounts_A_B).1
          accounts_B_C).2).map
        (fun p => (deref (load_passwd_file (load_passwd_file first_load_state accounts_A_B).1
          accounts_B_C).1.heap p).name)).Perm [cstr "A"] ∧
    ((added (load_passwd_file (load_passwd_file first_load_state accounts_A_B).1
          accounts_B_C).2).map
        (fun p => (deref (load_passwd_file (load_passwd_file first_load_state accounts_A_B).1
          accounts_B_C).1.heap p).name)).Perm [cstr "C"] ∧
    changed (load_passwd_file (load_passwd_file first_load_state accounts_A_B).1
      accounts_B_C).2 = [] ∧
    (names (load_passwd_file (load_passwd_file first_load_state accounts_A_B).1
      accounts_B_C).1).Perm [cstr "B", cstr "C"]) :=
  ⟨by decide, by decide,
    reload_add_remove first_load_state accounts_A_B accounts_B_C wellFormed_first rfl
      (by decide) (by decide) (by decide)⟩

/-! ## The fate of one account in a pass -/

theorem merge_user_users_mono (old : List Nat) (hv : Bool) (st : Scan) (c : LightDMUser)
    {p : Nat} (hp : p ∈ st.users) : p ∈ (merge_user old hv st c).users := by
  simp only [merge_user, g_object_new]
  split <;> exact mem_insert_sorted.mpr (Or.inr hp)

theorem foldl_merge_users_mono (old : List Nat) (hv : Bool) (cs : List LightDMUser) :
    ∀ (st : Scan) {p : Nat}, p ∈ st.users → p ∈ (cs.foldl (merge_user old hv) st).users := by
  induction cs with
  | nil => intro st p hp; exact hp
  | cons c cs ih =>
    intro st p hp
    rw [List.foldl_cons]
    exact ih _ (merge_user_users_mono old hv st c hp)

theorem merge_other_name {old : List Nat} {h0 : Heap} {st st1 : Scan} {c : LightDMUser}
    {cs : List LightDMUser} {n : CString} {info : Nat} (hold : ∀ p ∈ old, p < h0.length)
    (gen : ScanGen old h0 st cs) (hinfo : get_user_by_name h0 old n = some info)
    (hcn : c.name ≠ n) (hs : MergeStep old h0 true st c st1) :
    st1.changed_users.count info = st.changed_users.count info ∧
      deref st1.heap info = deref st.heap info := by
  obtain ⟨hmem, hname⟩ := get_user_by_name_some hinfo
  have hi0 := hold info hmem
  have hlen := gen.len
  cases hs with
  | matched info1 hfind hlen1 hrec hother husers hnew hchanged =>
    obtain ⟨_, hname1⟩ := get_user_by_name_some hfind
    have hne : info ≠ info1 := by
      rintro rfl
      exact hcn (hname1.symm.trans hname)
    refine ⟨?_, hother info hne (by omega)⟩
    rw [hchanged]
    split_ifs
    · rfl
    · rw [(insert_sorted_perm _ _ _).count_eq, List.count_cons_of_ne hne]
  | fresh hfind hheap husers hnew hchanged =>
    exact ⟨by rw [hchanged], by rw [hheap, deref_append_left _ (by omega)]⟩

theorem merge_same_name {old : List Nat} {h0 : Heap} {st st1 : Scan} {c : LightDMUser}
    {info : Nat} (hinfo : get_user_by_name h0 old c.name = some info)
    (hs : MergeStep old h0 true st c st1) :
    st1.changed_users.count info =
        st.changed_users.count info + (if deref st.heap info = c then 0 else 1) ∧
      deref st1.heap info = c ∧ info ∈ st1.users := by
  cases hs with
  | matched info1 hfind hlen1 hrec hother husers hnew hchanged =>
    rw [hinfo, Option.some.injEq] at hfind
    subst hfind
    refine ⟨?_, hrec, ?_⟩
    · rw [hchanged]
      split_ifs
      · rfl
      · rw [(insert_sorted_perm _ _ _).count_eq, List.count_cons_self]
    · rw [husers]; exact mem_insert_sorted.mpr (Or.inl rfl)
  | fresh hfind hheap husers hnew hchanged =>
    rw [hinfo] at hfind
    exact absurd hfind (by simp)

theorem foldl_other_names {old : List Nat} {h0 : Heap} {n : CString} {info : Nat}
    (hold : ∀ p ∈ old, p < h0.length) (hinfo : get_user_by_name h0 old n = some info)
    (cs2 : List LightDMUser) :
    ∀ (st : Scan) (cs : List LightDMUser), ScanGen old h0 st cs →
      (∀ c ∈ cs2, c.logged_in = false) → (∀ c ∈ cs2, c.name ≠ n) →
      (cs2.foldl (merge_user old true) st).changed_users.count info =
          st.changed_users.count info ∧
        deref (cs2.foldl (merge_user old true) st).heap info = deref st.heap info := by
  induction cs2 with
  | nil => intro st cs _ _ _; exact ⟨rfl, rfl⟩
  | cons c cs2 ih =>
    intro st cs gen hl hn
    have hstep := merge_user_step true c hold gen.len gen.names
    have gen1 := scanGen_step hold gen (hl c (List.mem_cons_self _ _)) hstep
    obtain ⟨h1, h2⟩ := merge_other_name hold gen hinfo (hn c (List.mem_cons_self _ _)) hstep
    obtain ⟨h3, h4⟩ := ih _ _ gen1 (fun d hd => hl d (List.mem_cons_of_mem _ hd))
      (fun d hd => hn d (List.mem_cons_of_mem _ hd))
    rw [List.foldl_cons]
    exact ⟨h3.trans h1, h4.trans h2⟩

theorem split_once {cs : List LightDMUser} {c : LightDMUser} (hc : c ∈ cs)
    (honce : (cs.map (fun c => c.name)).count c.name = 1) :
    ∃ pre post, cs = pre ++ c :: post ∧ (∀ d ∈ pre, d.name ≠ c.name) ∧
      (∀ d ∈ post, d.name ≠ c.name) := by
  obtain ⟨pre, post, rfl⟩ := List.append_of_mem hc
  refine ⟨pre, post, rfl, ?_, ?_⟩
  all_goals
    intro d hd hdn
    rw [List.map_append, List.map_cons, List.count_append, List.count_cons_self] at honce
    have h1 : 0 < (pre.map (fun c => c.name)).count c.name ∨
        0 < (post.map (fun c => c.name)).count c.name := by
      first
      | exact Or.inl (List.count_pos_iff.mpr (hdn ▸ List.mem_map_of_mem (fun c => c.name) hd))
      | exact Or.inr (List.count_pos_iff.mpr (hdn ▸ List.mem_map_of_mem (fun c => c.name) hd))
    omega

/-- The scan of a stream that reports the name of a listed record once: the
record is marked changed once or not at all, according to whether it differs
from the candidate, it holds the candidate afterwards, and it is in the new
list. -/
theorem scan_reported_once {s : LightDMUserList} {env : PasswdEnv} {info : Nat}
    {c : LightDMUser} (hs : WellFormed s) (hu : s.have_users = true)
    (hinfo : get_user_by_name s.heap s.users c.name = some info) (hc : c ∈ candidates env)
    (honce : ((candidates env).map (fun c => c.name)).count c.name = 1) :
    (scan env s).changed_users.count info = (if deref s.heap info = c then 0 else 1) ∧
      deref (scan env s).heap info = c ∧ info ∈ (scan env s).users := by
  obtain ⟨pre, post, hsplit, hpre, hpost⟩ := split_once hc honce
  have hlog := candidates_logged_in env
  rw [hsplit] at hlog
  have hold := hs.users_valid
  rw [scan_eq, hu, hsplit, List.foldl_append, List.foldl_cons]
  have gen0 := scanGen_init s.users s.heap
  have genp := scanGen_foldl hold pre _ [] gen0
    (fun d hd => hlog d (List.mem_append_left _ hd))
  obtain ⟨p1, p2⟩ := foldl_other_names hold hinfo pre _ [] gen0
    (fun d hd => hlog d (List.mem_append_left _ hd)) hpre
  have hstep : MergeStep s.users s.heap true
      (pre.foldl (merge_user s.users true)
        { heap := s.heap, users := [], new_users := [], changed_users := [] }) c _ :=
    merge_user_step true c hold genp.len genp.names
  have hcl : c.logged_in = false :=
    hlog c (List.mem_append_right _ (List.mem_cons_self _ _))
  have genc := scanGen_step hold genp hcl hstep
  obtain ⟨c1, c2, c3⟩ := merge_same_name hinfo hstep
  obtain ⟨q1, q2⟩ := foldl_other_names hold hinfo post _ _ genc
    (fun d hd => hlog d (List.mem_append_right _ (List.mem_cons_of_mem _ hd))) hpost
  refine ⟨?_, ?_, ?_⟩
  · rw [q1, c1, p1, p2]
    simp
  · rw [q2, c2]
  · exact foldl_merge_users_mono _ _ post _ c3

theorem count_flatten_replicate (f : Nat → Nat) (a : Nat) (l : List Nat) :
    ((l.map (fun p => List.replicate (f p) p)).flatten).count a = l.count a * f a := by
  induction l with
  | nil => simp
  | cons x xs ih =>
    rw [List.map_cons, List.flatten_cons, List.count_append, ih, List.count_replicate,
      List.count_cons]
    by_cases h : x = a
    · subst h; simp; ring
    · simp [h]

theorem mem_flatten_replicate {f : Nat → Nat} {a : Nat} {l : List Nat}
    (h : a ∈ (l.map (fun p => List.replicate (f p) p)).flatten) : a ∈ l := by
  obtain ⟨r, hr, har⟩ := List.mem_flatten.mp h
  obtain ⟨p, hp, rfl⟩ := List.mem_map.mp hr
  rw [List.eq_of_mem_replicate har]
  exact hp

/-- C5: in every reload, for every account already in the list (info is its
record) that the accepted entries report once (as c): the number of
user-changed signals emitted for that name is one when the real name, the home
directory or the image of the stored record differs from the candidate, and
zero when all three are equal; the record under that name in the new list is
still info, the same instance, and it holds the attributes of the candidate. -/
theorem reload_field_change (s : LightDMUserList) (env : PasswdEnv) (info : Nat)
    (c : LightDMUser) (hs : WellFormed s) (hu : s.have_users = true)
    (hinfo : get_user_by_name s.heap s.users c.name = some info) (hc : c ∈ candidates env)
    (honce : ((candidates env).map (fun c => c.name)).count c.name = 1) :
    ((changed (load_passwd_file s env).2).filter
        (fun p => decide ((deref (load_passwd_file s env).1.heap p).name = c.name))).length =
      (if (deref s.heap info).real_name = c.real_name ∧
          (deref s.heap info).home_directory = c.home_directory ∧
          (deref s.heap info).image = c.image then 0 else 1) ∧
    get_user_by_name (load_passwd_file s env).1.heap (load_passwd_file s env).1.users c.name =
      some info ∧
    deref (load_passwd_file s env).1.heap info = c := by
  obtain ⟨hmem, hname⟩ := get_user_by_name_some hinfo
  have hi0 := hs.users_valid info hmem
  have gen := scan_gen s env hu hs.users_valid
  obtain ⟨hcount, hderef, hin⟩ := scan_reported_once hs hu hinfo hc honce
  have hnamef : ∀ p, p < s.heap.length →
      (deref (load_passwd_file s env).1.heap p).name = (deref s.heap p).name := by
    intro p hp; rw [load_heap]; exact gen.names p hp
  have heq : deref s.heap info = c ↔ ((deref s.heap info).real_name = c.real_name ∧
      (deref s.heap info).home_directory = c.home_directory ∧
      (deref s.heap info).image = c.image) := by
    constructor
    · intro h; rw [h]; exact ⟨rfl, rfl, rfl⟩
    · rintro ⟨f1, f2, f3⟩
      exact LightDMUser.eq_of_fields hname f1 f2 f3
        ((hs.not_logged_in info hmem).trans (candidates_logged_in env c hc).symm)
  refine ⟨?_, ?_, ?_⟩
  · have hfilt : (changed (load_passwd_file s env).2).filter
          (fun p => decide ((deref (load_passwd_file s env).1.heap p).name = c.name)) =
        (changed (load_passwd_file s env).2).filter (fun p => p == info) := by
      apply List.filter_congr
      intro p hp
      rw [load_changed] at hp
      have hpc := gen.changed_first p (mem_flatten_replicate hp)
      obtain ⟨hpold, _⟩ := get_user_by_name_some hpc
      rw [hnamef p (hs.users_valid p hpold)]
      by_cases hpi : p = info
      · subst hpi; simp [hname]
      · have : (deref s.heap p).name ≠ c.name := by
          intro hn
          rw [hn, hinfo, Option.some.injEq] at hpc
          exact hpi hpc.symm
        simp [hpi, this]
    rw [hfilt, ← List.countP_eq_length_filter, ← List.count_eq_countP, load_changed,
      count_flatten_replicate, hcount, List.count_append,
      List.count_eq_one_of_mem hs.handlers_nodup (hs.users_connected info hmem),
      List.count_eq_zero_of_not_mem (fun h => by have := (gen.new_valid info h).1; omega)]
    by_cases hd : deref s.heap info = c
    · rw [if_pos hd, if_pos (heq.mp hd)]
    · rw [if_neg hd, if_neg (fun h => hd (heq.mpr h))]
  · rw [load_users, load_heap]
    refine get_user_by_name_unique hin (by rw [hderef]) ?_
    intro p hp hpn
    by_cases hp0 : p < s.heap.length
    · have h1 := gen.users_first p hp hp0
      rw [← gen.names p hp0, hpn, hinfo, Option.some.injEq] at h1
      exact h1.symm
    · have h1 := gen.users_fresh p hp (by omega)
      rw [hpn, hinfo] at h1
      exact absurd h1 (by simp)
  · rw [load_heap]; exact hderef

/-- Witness of C5: alice is listed with home directory /home/alice and reloaded
with /home/alice2, everything else equal: one user-changed signal, carrying the
record 0 that was listed before. -/
theorem reload_field_change_witness :
    signals (load_passwd_file (load_passwd_file first_load_state alice_home).1 alice_moved).2 =
      [Signal.user_changed 0] ∧
    (load_passwd_file first_load_state alice_home).1.users = [0] ∧
    ((changed (load_passwd_file (load_passwd_file first_load_state alice_home).1
        alice_moved).2).filter
      (fun p => decide ((deref (load_passwd_file (load_passwd_file first_load_state
        alice_home).1 alice_moved).1.heap p).name = cstr "alice"))).length = 1 ∧
    get_user_by_name
      (load_passwd_file (load_passwd_file first_load_state alice_home).1 alice_moved).1.heap
      (load_passwd_file (load_passwd_file first_load_state alice_home).1 alice_moved).1.users
      (cstr "alice") = some 0 ∧
    deref (load_passwd_file (load_passwd_file first_load_state alice_home).1
      alice_moved).1.heap 0 =
      { name := cstr "alice", real_name := some (cstr "Alice"),
        home_directory := some (cstr "/home/alice2"), image := none, logged_in := false } :=
  ⟨by decide, by decide,
    reload_field_change (load_passwd_file first_load_state alice_home).1 alice_moved 0
      { name := cstr "alice", real_name := some (cstr "Alice"),
        home_directory := some (cstr "/home/alice2"), image := none, logged_in := false }
      (load_wellFormed _ wellFormed_first rfl) rfl (by decide) (by decide) (by decide)⟩

/-! ## The accounts service: heap effects -/

theorem set_account_property_logged_in (u : LightDMUser) (n : CString) (v : GVariant) :
    (set_account_property u n v).logged_in = u.logged_in := by
  unfold set_account_property
  split
  · split_ifs <;> rfl
  · rfl

theorem foldl_property_logged_in (ps : List (CString × GVariant)) :
    ∀ u : LightDMUser,
      (ps.foldl (fun u nv => set_account_property u nv.1 nv.2) u).logged_in = u.logged_in := by
  induction ps with
  | nil => intro u; rfl
  | cons p ps ih => intro u; rw [List.foldl_cons, ih, set_account_property_logged_in]

theorem fetched_record_logged_in {reply : AccountReply} {u : LightDMUser}
    (h : fetched_record reply = some u) : u.logged_in = false := by
  unfold fetched_record at h
  split_ifs at h
  cases hp : reply.properties with
  | none => rw [hp] at h; simp at h
  | some ps =>
    rw [hp, Option.map_some', Option.some.injEq] at h
    rw [← h, foldl_property_logged_in]
    rfl

theorem set_append_length (heap : Heap) (u v : LightDMUser) :
    (heap ++ [u]).set heap.length v = heap ++ [v] := by
  induction heap with
  | nil => rfl
  | cons x xs ih => simp [List.set, ih]

theorem foldl_set_fresh (heap : Heap) (ps : List (CString × GVariant)) :
    ∀ u : LightDMUser,
      ps.foldl (fun h nv => h.set heap.length
          (set_account_property (deref h heap.length) nv.1 nv.2)) (heap ++ [u]) =
        heap ++ [ps.foldl (fun u nv => set_account_property u nv.1 nv.2) u] := by
  induction ps with
  | nil => intro u; rfl
  | cons p ps ih =>
    intro u
    rw [List.foldl_cons, List.foldl_cons, deref_append_length, set_append_length, ih]

theorem foldl_set_length (n : Nat) (ps : List (CString × GVariant)) :
    ∀ heap : Heap,
      (ps.foldl (fun h nv => h.set n (set_account_property (deref h n) nv.1 nv.2)) heap).length =
        heap.length := by
  induction ps with
  | nil => intro heap; rfl
  | cons p ps ih => intro heap; rw [List.foldl_cons, ih, List.length_set]

theorem foldl_set_other (n : Nat) (ps : List (CString × GVariant)) {q : Nat} (hq : n ≠ q) :
    ∀ heap : Heap,
      deref (ps.foldl (fun h nv => h.set n (set_account_property (deref h n) nv.1 nv.2)) heap) q =
        deref heap q := by
  induction ps with
  | nil => intro heap; rfl
  | cons p ps ih => intro heap; rw [List.foldl_cons, ih, deref_set_ne _ hq]

theorem deref_set_logged_in (heap : Heap) (n q : Nat) (v : LightDMUser)
    (hv : v.logged_in = (deref heap n).logged_in) :
    (deref (heap.set n v) q).logged_in = (deref heap q).logged_in := by
  by_cases hnq : n = q
  · subst hnq
    by_cases hl : n < heap.length
    · rw [deref_set_eq _ hl, hv]
    · rw [List.set_eq_of_length_le (by omega)]
  · rw [deref_set_ne _ hnq]

theorem foldl_set_logged_in (n : Nat) (ps : List (CString × GVariant)) (q : Nat) :
    ∀ heap : Heap,
      (deref (ps.foldl (fun h nv => h.set n (set_account_property (deref h n) nv.1 nv.2))
        heap) q).logged_in = (deref heap q).logged_in := by
  induction ps with
  | nil => intro heap; rfl
  | cons p ps ih =>
    intro heap
    rw [List.foldl_cons, ih, deref_set_logged_in _ _ _ _ (set_account_property_logged_in _ _ _)]

theorem update_user_length (heap : Heap) (object : UserAccountObject)
    (reply : Option (List (CString × GVariant))) :
    (update_user heap object reply).1.length = heap.length := by
  cases reply with
  | none => rfl
  | some ps => exact foldl_set_length _ ps heap

theorem update_user_other (heap : Heap) (object : UserAccountObject)
    (reply : Option (List (CString × GVariant))) {q : Nat} (hq : object.user ≠ q) :
    deref (update_user heap object reply).1 q = deref heap q := by
  cases reply with
  | none => rfl
  | some ps => exact foldl_set_other _ ps hq heap

theorem update_user_logged_in (heap : Heap) (object : UserAccountObject)
    (reply : Option (List (CString × GVariant))) (q : Nat) :
    (deref (update_user heap object reply).1 q).logged_in = (deref heap q).logged_in := by
  cases reply with
  | none => rfl
  | some ps => exact foldl_set_logged_in _ ps q heap

/-! ## The accounts service: adding an account -/

theorem add_account_some {s : LightDMUserList} (path : CString) {reply : AccountReply}
    {u : LightDMUser} (h : fetched_record reply = some u) :
    add_account s path reply =
      ({ s with heap := s.heap ++ [u],
                user_account_objects := s.user_account_objects ++ [⟨path, s.heap.length⟩],
                users := g_list_insert_sorted s.users s.heap.length
                  (compare_user (s.heap ++ [u])),
                changed_handlers := s.changed_handlers ++ [s.heap.length] },
       some s.heap.length) := by
  unfold fetched_record at h
  split_ifs at h with hp
  cases hps : reply.properties with
  | none => rw [hps] at h; simp at h
  | some ps =>
    rw [hps, Option.map_some', Option.some.injEq] at h
    simp only [add_account, user_account_object_new, hp, if_true, g_object_new, update_user, hps,
      foldl_set_fresh, h]

theorem add_account_none {s : LightDMUserList} (path : CString) {reply : AccountReply}
    (h : fetched_record reply = none) :
    ∃ l : Heap, add_account s path reply = ({ s with heap := s.heap ++ l }, none) := by
  unfold fetched_record at h
  by_cases hp : reply.proxy = true
  · rw [if_pos hp] at h
    cases hps : reply.properties with
    | some ps => rw [hps] at h; simp at h
    | none =>
      refine ⟨[default], ?_⟩
      simp only [add_account, user_account_object_new, hp, if_true, g_object_new, update_user, hps]
      simp
  · refine ⟨[], ?_⟩
    simp only [add_account, user_account_object_new, hp]
    simp

/-! ## Well-formedness of the reachable states -/

theorem wellFormed_new : WellFormed lightdm_user_list_new where
  users_valid := by simp [lightdm_user_list_new]
  handlers_valid := by simp [lightdm_user_list_new]
  handlers_nodup := by simp [lightdm_user_list_new]
  users_connected := by simp [lightdm_user_list_new]
  not_logged_in := by simp [lightdm_user_list_new]

theorem wellFormed_grow {s : LightDMUserList} (hs : WellFormed s) (l : Heap) :
    WellFormed { s with heap := s.heap ++ l } where
  users_valid := fun p hp => by
    have := hs.users_valid p hp
    simp only [List.length_append]; omega
  handlers_valid := fun p hp => by
    have := hs.handlers_valid p hp
    simp only [List.length_append]; omega
  handlers_nodup := hs.handlers_nodup
  users_connected := hs.users_connected
  not_logged_in := fun p hp => by
    show (deref (s.heap ++ l) p).logged_in = false
    rw [deref_append_left _ (hs.users_valid p hp)]
    exact hs.not_logged_in p hp

theorem add_account_wellFormed {s : LightDMUserList} (path : CString) (reply : AccountReply)
    (hs : WellFormed s) : WellFormed (add_account s path reply).1 := by
  cases h : fetched_record reply with
  | none =>
    obtain ⟨l, hl⟩ := add_account_none (s := s) path h
    rw [hl]
    exact wellFormed_grow hs l
  | some u =>
    rw [add_account_some path h]
    refine ⟨?_, ?_, ?_, ?_, ?_⟩
    · intro p hp
      simp only [List.length_append, List.length_singleton]
      rcases mem_insert_sorted.mp hp with rfl | hp
      · omega
      · have := hs.users_valid p hp; omega
    · intro p hp
      simp only [List.length_append, List.length_singleton]
      rcases List.mem_append.mp hp with hp | hp
      · have := hs.handlers_valid p hp; omega
      · rw [List.mem_singleton] at hp; omega
    · refine List.nodup_append.mpr ⟨hs.handlers_nodup, List.nodup_singleton _, ?_⟩
      intro p hp1 hp2
      rw [List.mem_singleton] at hp2
      have := hs.handlers_valid p hp1
      omega
    · intro p hp
      rcases mem_insert_sorted.mp hp with rfl | hp
      · exact List.mem_append_right _ (List.mem_singleton.mpr rfl)
      · exact List.mem_append_left _ (hs.users_connected p hp)
    · intro p hp
      show (deref (s.heap ++ [u]) p).logged_in = false
      rcases mem_insert_sorted.mp hp with rfl | hp
      · rw [deref_append_length]; exact fetched_record_logged_in h
      · rw [deref_append_left _ (hs.users_valid p hp)]
        exact hs.not_logged_in p hp

theorem add_account_have_users (s : LightDMUserList) (path : CString) (reply : AccountReply) :
    (add_account s path reply).1.have_users = s.have_users := by
  cases h : fetched_record reply with
  | none =>
    obtain ⟨l, hl⟩ := add_account_none (s := s) path h
    rw [hl]
  | some u => rw [add_account_some path h]

theorem foldl_add_account_wellFormed (account : CString → AccountReply) (paths : List CString) :
    ∀ s : LightDMUserList, WellFormed s →
      WellFormed (paths.foldl (fun acc path => (add_account acc path (account path)).1) s) := by
  induction paths with
  | nil => intro s hs; exact hs
  | cons p ps ih =>
    intro s hs
    rw [List.foldl_cons]
    exact ih _ (add_account_wellFormed p (account p) hs)

theorem foldl_add_account_have_users (account : CString → AccountReply) (paths : List CString) :
    ∀ s : LightDMUserList,
      (paths.foldl (fun acc path => (add_account acc path (account path)).1) s).have_users =
        s.have_users := by
  induction paths with
  | nil => intro s; rfl
  | cons p ps ih =>
    intro s
    rw [List.foldl_cons, ih, add_account_have_users]

theorem update_users_wellFormed {s : LightDMUserList} (env : Env) (hs : WellFormed s) :
    WellFormed (update_users s env).1 ∧
      ((update_users s env).1.have_users = false → (update_users s env).1 = s) := by
  unfold update_users
  by_cases hu : s.have_users = true
  · rw [if_pos hu]; exact ⟨hs, fun _ => rfl⟩
  · rw [if_neg hu]
    have hs1 : WellFormed { s with have_users := true } :=
      ⟨hs.users_valid, hs.handlers_valid, hs.handlers_nodup, hs.users_connected,
        hs.not_logged_in⟩
    have hs2 : WellFormed { s with have_users := true, accounts_service_proxy := true } :=
      ⟨hs.users_valid, hs.handlers_valid, hs.handlers_nodup, hs.users_connected,
        hs.not_logged_in⟩
    by_cases ha : env.accounts_service = true
    · rw [if_pos ha]
      cases hl : env.list_cached_users with
      | none => exact ⟨hs2, fun h => by simp at h⟩
      | some v =>
        cases v with
        | object_paths paths =>
          refine ⟨foldl_add_account_wellFormed _ paths _ hs2, fun h => ?_⟩
          have := foldl_add_account_have_users env.account paths
            { s with have_users := true, accounts_service_proxy := true }
          simp only [this] at h
          simp at h
        | unit => exact ⟨hs2, fun h => by simp at h⟩
        | string _ => exact ⟨hs2, fun h => by simp at h⟩
        | object_path _ => exact ⟨hs2, fun h => by simp at h⟩
        | other => exact ⟨hs2, fun h => by simp at h⟩
    · rw [if_neg ha]
      have hw := load_wellFormed env.passwd hs1 rfl
      refine ⟨⟨hw.users_valid, hw.handlers_valid, hw.handlers_nodup, hw.users_connected,
        hw.not_logged_in⟩, fun h => ?_⟩
      have : (load_passwd_file { s with have_users := true } env.passwd).1.have_users = true :=
        rfl
      simp [this] at h

theorem user_accounts_signal_cb_state (s : LightDMUserList) (signal_name : CString)
    (parameters : GVariant) (reply : AccountReply) :
    (∃ path, strcmp signal_name (cstr "UserAdded") = 0 ∧
        (user_accounts_signal_cb s signal_name parameters reply).1 =
          (add_account s path reply).1) ∨
    (∃ object, object ∈ s.user_account_objects ∧
        (user_accounts_signal_cb s signal_name parameters reply).1 =
          { s with users := g_list_remove s.users object.user,
                   user_account_objects := s.user_account_objects.erase object }) ∨
    (user_accounts_signal_cb s signal_name parameters reply).1 = s := by
  unfold user_accounts_signal_cb
  split_ifs with h1 h2
  · split
    · rename_i path
      refine Or.inl ⟨path, h1, ?_⟩
      split <;> rename_i heq <;> rw [heq]
    · exact Or.inr (Or.inr rfl)
  · split
    · split
      · rename_i object hfind
        exact Or.inr (Or.inl ⟨object, List.mem_of_find?_eq_some hfind, rfl⟩)
      · exact Or.inr (Or.inr rfl)
    · exact Or.inr (Or.inr rfl)
  · exact Or.inr (Or.inr rfl)

theorem user_accounts_signal_cb_wellFormed {s : LightDMUserList} (signal_name : CString)
    (parameters : GVariant) (reply : AccountReply) (hs : WellFormed s) :
    WellFormed (user_accounts_signal_cb s signal_name parameters reply).1 ∧
      (user_accounts_signal_cb s signal_name parameters reply).1.have_users = s.have_users := by
  rcases user_accounts_signal_cb_state s signal_name parameters reply with
    ⟨path, _, h⟩ | ⟨object, _, h⟩ | h
  · rw [h]
    exact ⟨add_account_wellFormed path reply hs, add_account_have_users s path reply⟩
  · rw [h]
    refine ⟨⟨?_, hs.handlers_valid, hs.handlers_nodup, ?_, ?_⟩, rfl⟩
    · exact fun p hp => hs.users_valid p (List.mem_of_mem_erase hp)
    · exact fun p hp => hs.users_connected p (List.mem_of_mem_erase hp)
    · exact fun p hp => hs.not_logged_in p (List.mem_of_mem_erase hp)
  · rw [h]
    exact ⟨hs, rfl⟩

theorem user_signal_cb_state (s : LightDMUserList) (signal_name : CString)
    (parameters : GVariant) (object : UserAccountObject)
    (reply : Option (List (CString × GVariant))) :
    (user_signal_cb s signal_name parameters object reply).1 =
        { s with heap := (update_user s.heap object reply).1 } ∨
    (user_signal_cb s signal_name parameters object reply).1 = s := by
  unfold user_signal_cb
  split_ifs with h1
  · split
    · exact Or.inl rfl
    · exact Or.inr rfl
  · exact Or.inr rfl

theorem user_signal_cb_wellFormed {s : LightDMUserList} (signal_name : CString)
    (parameters : GVariant) (object : UserAccountObject)
    (reply : Option (List (CString × GVariant))) (hs : WellFormed s) :
    WellFormed (user_signal_cb s signal_name parameters object reply).1 ∧
      (user_signal_cb s signal_name parameters object reply).1.have_users = s.have_users := by
  rcases user_signal_cb_state s signal_name parameters object reply with h | h
  · rw [h]
    refine ⟨⟨?_, ?_, hs.handlers_nodup, hs.users_connected, ?_⟩, rfl⟩
    · intro p hp
      show p < (update_user s.heap object reply).1.length
      rw [update_user_length]; exact hs.users_valid p hp
    · intro p hp
      show p < (update_user s.heap object reply).1.length
      rw [update_user_length]; exact hs.handlers_valid p hp
    · intro p hp
      show (deref (update_user s.heap object reply).1 p).logged_in = false
      rw [update_user_logged_in]; exact hs.not_logged_in p hp
  · rw [h]
    exact ⟨hs, rfl⟩

theorem passwd_changed_cb_wellFormed {s : LightDMUserList} (event_type : GFileMonitorEvent)
    (env : PasswdEnv) (hs : WellFormed s) (hu : s.have_users = true) :
    WellFormed (passwd_changed_cb s event_type env).1 ∧
      (passwd_changed_cb s event_type env).1.have_users = true := by
  unfold passwd_changed_cb
  split_ifs
  · exact ⟨load_wellFormed env hs hu, hu⟩
  · exact ⟨hs, hu⟩

theorem enabled_have_users {s : LightDMUserList} {a : Action}
    (hnew : s.have_users = false → s = lightdm_user_list_new) (he : enabled s a)
    (ha : ∀ env, a ≠ Action.query env) : s.have_users = true := by
  by_contra hu
  rw [Bool.not_eq_true] at hu
  have hs := hnew hu
  subst hs
  cases a with
  | query env => exact ha env rfl
  | passwd_changed _ _ => simp [enabled, lightdm_user_list_new] at he
  | accounts_signal _ _ _ => simp [enabled, lightdm_user_list_new] at he
  | user_signal _ _ _ _ => simp [enabled, lightdm_user_list_new] at he

/-- Every reachable state is well formed, and a state whose have_users flag is
down is the new instance. -/
theorem reachableWhen_wellFormed {ok : LightDMUserList → Action → Prop} {s : LightDMUserList}
    (h : ReachableWhen ok s) :
    WellFormed s ∧ (s.have_users = false → s = lightdm_user_list_new) := by
  induction h with
  | created => exact ⟨wellFormed_new, fun _ => rfl⟩
  | step s a _ he _ ih =>
    obtain ⟨hs, hnew⟩ := ih
    cases a with
    | query env =>
      obtain ⟨hw, hsame⟩ := update_users_wellFormed env hs
      refine ⟨hw, fun hf => ?_⟩
      have h1 : (run s (Action.query env)).1 = s := hsame hf
      rw [h1] at hf ⊢
      exact hnew hf
    | passwd_changed event_type env =>
      have hu := enabled_have_users hnew he (fun _ h => by cases h)
      obtain ⟨hw, hu1⟩ := passwd_changed_cb_wellFormed event_type env hs hu
      exact ⟨hw, fun hf => by rw [show (run s (Action.passwd_changed event_type env)).1.have_users
        = true from hu1] at hf; cases hf⟩
    | accounts_signal signal_name parameters reply =>
      have hu := enabled_have_users hnew he (fun _ h => by cases h)
      obtain ⟨hw, hu1⟩ := user_accounts_signal_cb_wellFormed signal_name parameters reply hs
      exact ⟨hw, fun hf => by
        rw [show (run s (Action.accounts_signal signal_name parameters reply)).1.have_users
          = s.have_users from hu1, hu] at hf; cases hf⟩
    | user_signal signal_name parameters object reply =>
      have hu := enabled_have_users hnew he (fun _ h => by cases h)
      obtain ⟨hw, hu1⟩ := user_signal_cb_wellFormed signal_name parameters object reply hs
      exact ⟨hw, fun hf => by
        rw [show (run s (Action.user_signal signal_name parameters object reply)).1.have_users
          = s.have_users from hu1, hu] at hf; cases hf⟩

/-! ## The order of the list along the reachable states -/

theorem sorted_of_display_eq {h1 h2 : Heap} {users : List Nat}
    (h : ∀ p ∈ users, lightdm_user_get_display_name (deref h2 p) =
      lightdm_user_get_display_name (deref h1 p))
    (hs : SortedUsers h1 users) : SortedUsers h2 users := by
  unfold SortedUsers at hs ⊢
  refine hs.imp_of_mem ?_
  intro a b ha hb hab
  unfold compare_user at hab ⊢
  rw [h a ha, h b hb]
  exact hab

theorem add_account_sorted {s : LightDMUserList} (path : CString) (reply : AccountReply)
    (hs : WellFormed s) (hsorted : SortedUsers s.heap s.users) :
    SortedUsers (add_account s path reply).1.heap (add_account s path reply).1.users := by
  cases h : fetched_record reply with
  | none =>
    obtain ⟨l, hl⟩ := add_account_none (s := s) path h
    rw [hl]
    exact sorted_of_display_eq
      (fun p hp => by rw [deref_append_left _ (hs.users_valid p hp)]) hsorted
  | some u =>
    rw [add_account_some path h]
    have h1 : SortedUsers (s.heap ++ [u]) s.users :=
      sorted_of_display_eq
        (fun p hp => by rw [deref_append_left _ (hs.users_valid p hp)]) hsorted
    exact insert_sorted_pairwise (compare_user_total _) (fun _ _ _ => compare_user_trans) h1

theorem foldl_add_account_sorted (account : CString → AccountReply) (paths : List CString) :
    ∀ s : LightDMUserList, WellFormed s → SortedUsers s.heap s.users →
      SortedUsers (paths.foldl (fun acc path => (add_account acc path (account path)).1) s).heap
        (paths.foldl (fun acc path => (add_account acc path (account path)).1) s).users := by
  induction paths with
  | nil => intro s _ h; exact h
  | cons p ps ih =>
    intro s hs h
    rw [List.foldl_cons]
    exact ih _ (add_account_wellFormed p (account p) hs) (add_account_sorted p (account p) hs h)

theorem update_users_sorted {s : LightDMUserList} (env : Env) (hs : WellFormed s)
    (hok : keeps_order s (Action.query env)) (hsorted : SortedUsers s.heap s.users) :
    SortedUsers (update_users s env).1.heap (update_users s env).1.users := by
  unfold update_users
  by_cases hu : s.have_users = true
  · rw [if_pos hu]; exact hsorted
  · rw [if_neg hu]
    have hs1 : WellFormed { s with have_users := true } :=
      ⟨hs.users_valid, hs.handlers_valid, hs.handlers_nodup, hs.users_connected,
        hs.not_logged_in⟩
    have hs2 : WellFormed { s with have_users := true, accounts_service_proxy := true } :=
      ⟨hs.users_valid, hs.handlers_valid, hs.handlers_nodup, hs.users_connected,
        hs.not_logged_in⟩
    by_cases ha : env.accounts_service = true
    · rw [if_pos ha]
      cases hl : env.list_cached_users with
      | none => exact hsorted
      | some v =>
        cases v with
        | object_paths paths => exact foldl_add_account_sorted _ paths _ hs2 hsorted
        | unit => exact hsorted
        | string _ => exact hsorted
        | object_path _ => exact hsorted
        | other => exact hsorted
    · rw [if_neg ha]
      rw [Bool.not_eq_true] at ha
      obtain ⟨rs, inv⟩ := scan_nodup { s with have_users := true } env.passwd rfl
        hs1.users_valid (hok ha)
      exact load_sorted inv

theorem run_sorted {s : LightDMUserList} {a : Action} (hs : WellFormed s)
    (hnew : s.have_users = false → s = lightdm_user_list_new) (he : enabled s a)
    (hok : keeps_order s a) (hsorted : SortedUsers s.heap s.users) :
    SortedUsers (run s a).1.heap (run s a).1.users := by
  cases a with
  | query env => exact update_users_sorted env hs hok hsorted
  | passwd_changed event_type env =>
    have hu := enabled_have_users hnew he (fun _ h => by cases h)
    show SortedUsers (passwd_changed_cb s event_type env).1.heap
      (passwd_changed_cb s event_type env).1.users
    unfold passwd_changed_cb
    split_ifs
    · obtain ⟨rs, inv⟩ := scan_nodup s env hu hs.users_valid hok
      exact load_sorted inv
    · exact hsorted
  | accounts_signal signal_name parameters reply =>
    show SortedUsers (user_accounts_signal_cb s signal_name parameters reply).1.heap
      (user_accounts_signal_cb s signal_name parameters reply).1.users
    rcases user_accounts_signal_cb_state s signal_name parameters reply with
      ⟨path, _, h⟩ | ⟨object, _, h⟩ | h
    · rw [h]; exact add_account_sorted path reply hs hsorted
    · rw [h]
      exact List.Pairwise.sublist (List.erase_sublist _ _) hsorted
    · rw [h]; exact hsorted
  | user_signal signal_name parameters object reply =>
    show SortedUsers (user_signal_cb s signal_name parameters object reply).1.heap
      (user_signal_cb s signal_name parameters object reply).1.users
    have hok1 : lightdm_user_get_display_name
        (deref (user_signal_cb s signal_name parameters object reply).1.heap object.user) =
      lightdm_user_get_display_name (deref s.heap object.user) := hok
    rcases user_signal_cb_state s signal_name parameters object reply with h | h
    · rw [h] at hok1 ⊢
      refine @sorted_of_display_eq s.heap _ _ ?_ hsorted
      intro p _
      by_cases hp : object.user = p
      · rw [← hp]; exact hok1
      · show lightdm_user_get_display_name (deref (update_user s.heap object reply).1 p) = _
        rw [update_user_other _ _ _ hp]
    · rw [h]; exact hsorted

/-- C7, as stated, fails, in two ways. After the enumeration of amy and bob, a
Changed notification of amy that fetches the real name Zoe leaves the list Zoe,
Bob. After a passwd load of a, a reload that reports a, b and a again under
the real names Z, P and A leaves the list A, P, A. Both states are reachable
and not in compare_user order. -/
theorem sort_invariant_broken :
    (Reachable amy_renamed ∧ ¬ SortedUsers amy_renamed.heap amy_renamed.users) ∧
    (Reachable twice_reported ∧ ¬ SortedUsers twice_reported.heap twice_reported.users) := by
  refine ⟨⟨?_, ?_⟩, ⟨?_, ?_⟩⟩
  · refine ReachableWhen.step _ _ (ReachableWhen.step _ _ ReachableWhen.created ?_ ?_) ?_ ?_
    · exact True.intro
    · exact True.intro
    · show (⟨cstr "/amy", 0⟩ : UserAccountObject) ∈
        (run lightdm_user_list_new (Action.query two_accounts)).1.user_account_objects
      decide
    · exact True.intro
  · unfold SortedUsers
    decide
  · refine ReachableWhen.step _ _ (ReachableWhen.step _ _ ReachableWhen.created ?_ ?_) ?_ ?_
    · exact True.intro
    · exact True.intro
    · show (run lightdm_user_list_new
        (Action.query (passwd_only [account "a" 1000 "M"]))).1.passwd_monitor = true
      decide
    · exact True.intro
  · unfold SortedUsers
    decide

/-- C7, amended: in every state reached through passwd loads whose accepted
entries have pairwise distinct names, the initial enumeration of the accounts
service, UserAdded, UserDeleted, and Changed notifications that leave the
display name of their account as it was, the list is in ascending compare_user
order. -/
theorem sort_invariant (s : LightDMUserList) (h : ReachableWhen keeps_order s) :
    SortedUsers s.heap s.users := by
  induction h with
  | created => exact List.Pairwise.nil
  | step s a hr he hok ih =>
    obtain ⟨hs, hnew⟩ := reachableWhen_wellFormed hr
    exact run_sorted hs hnew he hok ih

/-- Witness of C7, amended: zed and amy are loaded from passwd, then the file
changes and zed comes back with the real name Aaron; the list is amy, zed and
then zed (as Aaron), amy. -/
theorem sort_invariant_witness :
    (run lightdm_user_list_new (Action.query (passwd_only
      [account "zed" 1000 "Zed", account "amy" 1001 "Amy"]))).1.users = [1, 0] ∧
    (run (run lightdm_user_list_new (Action.query (passwd_only
        [account "zed" 1000 "Zed", account "amy" 1001 "Amy"]))).1
      (Action.passwd_changed GFileMonitorEvent.CHANGES_DONE_HINT
        (plain_env [account "zed" 1000 "Aaron", account "amy" 1001 "Amy"]))).1.users = [0, 1] ∧
    SortedUsers
      (run (run lightdm_user_list_new (Action.query (passwd_only
          [account "zed" 1000 "Zed", account "amy" 1001 "Amy"]))).1
        (Action.passwd_changed GFileMonitorEvent.CHANGES_DONE_HINT
          (plain_env [account "zed" 1000 "Aaron", account "amy" 1001 "Amy"]))).1.heap
      (run (run lightdm_user_list_new (Action.query (passwd_only
          [account "zed" 1000 "Zed", account "amy" 1001 "Amy"]))).1
        (Action.passwd_changed GFileMonitorEvent.CHANGES_DONE_HINT
          (plain_env [account "zed" 1000 "Aaron", account "amy" 1001 "Amy"]))).1.users :=
  ⟨by decide, by decide,
    sort_invariant _
      (ReachableWhen.step _ _
        (ReachableWhen.step _ _ ReachableWhen.created True.intro
          (show keeps_order _ (Action.query _) from fun _ => by decide))
        (show (run lightdm_user_list_new (Action.query (passwd_only
          [account "zed" 1000 "Zed", account "amy" 1001 "Amy"]))).1.passwd_monitor = true
          from by decide)
        (show ((candidates (plain_env [account "zed" 1000 "Aaron",
          account "amy" 1001 "Amy"])).map (fun c => c.name)).Nodup from by decide))⟩

/-! ## The names of the list along the reachable states -/

theorem add_account_names_some {s : LightDMUserList} (path : CString) {reply : AccountReply}
    {u : LightDMUser} (hs : WellFormed s) (h : fetched_record reply = some u) :
    (names (add_account s path reply).1).Perm (u.name :: names s) := by
  rw [names_eq, names_eq, add_account_some path h]
  refine ((insert_sorted_perm _ _ _).map _).trans ?_
  rw [List.map_cons]
  show ((deref (s.heap ++ [u]) s.heap.length).name ::
    s.users.map (fun p => (deref (s.heap ++ [u]) p).name)).Perm _
  rw [deref_append_length,
    List.map_congr_left (fun p hp => by rw [deref_append_left _ (hs.users_valid p hp)])]

theorem add_account_names_none {s : LightDMUserList} (path : CString) {reply : AccountReply}
    (hs : WellFormed s) (h : fetched_record reply = none) :
    names (add_account s path reply).1 = names s := by
  obtain ⟨l, hl⟩ := add_account_none (s := s) path h
  rw [names_eq, names_eq, hl]
  exact List.map_congr_left (fun p hp => by
    show (deref (s.heap ++ l) p).name = _
    rw [deref_append_left _ (hs.users_valid p hp)])

theorem foldl_add_account_names (account : CString → AccountReply) (paths : List CString) :
    ∀ s : LightDMUserList, WellFormed s →
      (names (paths.foldl (fun acc path => (add_account acc path (account path)).1) s)).Perm
        ((paths.filterMap (fun path => fetched_record (account path))).map (fun u => u.name) ++
          names s) := by
  induction paths with
  | nil => intro s _; exact List.Perm.refl _
  | cons p ps ih =>
    intro s hs
    rw [List.foldl_cons]
    refine (ih _ (add_account_wellFormed p (account p) hs)).trans ?_
    cases h : fetched_record (account p) with
    | none =>
      rw [add_account_names_none p hs h]
      simp only [List.filterMap_cons, h]
      exact List.Perm.refl _
    | some u =>
      simp only [List.filterMap_cons, h]
      rw [List.map_cons, List.cons_append]
      exact ((add_account_names_some p hs h).append_left _).trans List.perm_middle

theorem update_users_names_nodup {s : LightDMUserList} (env : Env) (hs : WellFormed s)
    (hnew : s.have_users = false → s = lightdm_user_list_new)
    (hok : keeps_names_distinct s (Action.query env)) (hnd : (names s).Nodup) :
    (names (update_users s env).1).Nodup := by
  unfold update_users
  by_cases hu : s.have_users = true
  · rw [if_pos hu]; exact hnd
  · rw [if_neg hu]
    rw [Bool.not_eq_true] at hu
    have hsnew := hnew hu
    have hs1 : WellFormed { s with have_users := true } :=
      ⟨hs.users_valid, hs.handlers_valid, hs.handlers_nodup, hs.users_connected,
        hs.not_logged_in⟩
    have hs2 : WellFormed { s with have_users := true, accounts_service_proxy := true } :=
      ⟨hs.users_valid, hs.handlers_valid, hs.handlers_nodup, hs.users_connected,
        hs.not_logged_in⟩
    by_cases ha : env.accounts_service = true
    · rw [if_pos ha]
      cases hl : env.list_cached_users with
      | none => exact hnd
      | some v =>
        cases v with
        | object_paths paths =>
          have hp := foldl_add_account_names env.account paths _ hs2
          have hempty : names { s with have_users := true, accounts_service_proxy := true } =
              [] := by
            rw [names_eq, hsnew]; rfl
          rw [hempty, List.append_nil] at hp
          exact hp.nodup_iff.mpr (hok.2 paths hl)
        | unit => exact hnd
        | string _ => exact hnd
        | object_path _ => exact hnd
        | other => exact hnd
    · rw [if_neg ha]
      rw [Bool.not_eq_true] at ha
      have gen := scan_gen { s with have_users := true } env.passwd rfl hs1.users_valid
      rw [names_eq]
      exact gen.users_names.nodup_iff.mpr (hok.1 ha)

theorem run_names_nodup {s : LightDMUserList} {a : Action} (hs : WellFormed s)
    (hnew : s.have_users = false → s = lightdm_user_list_new) (he : enabled s a)
    (hok : keeps_names_distinct s a) (hnd : (names s).Nodup) : (names (run s a).1).Nodup := by
  cases a with
  | query env => exact update_users_names_nodup env hs hnew hok hnd
  | passwd_changed event_type env =>
    have hu := enabled_have_users hnew he (fun _ h => by cases h)
    show (names (passwd_changed_cb s event_type env).1).Nodup
    unfold passwd_changed_cb
    split_ifs
    · have gen := scan_gen s env hu hs.users_valid
      rw [names_eq]
      exact gen.users_names.nodup_iff.mpr hok
    · exact hnd
  | accounts_signal signal_name parameters reply =>
    show (names (user_accounts_signal_cb s signal_name parameters reply).1).Nodup
    rcases user_accounts_signal_cb_state s signal_name parameters reply with
      ⟨path, hsig, h⟩ | ⟨object, _, h⟩ | h
    · rw [h]
      cases hf : fetched_record reply with
      | none => rw [add_account_names_none path hs hf]; exact hnd
      | some u =>
        refine (add_account_names_some path hs hf).nodup_iff.mpr (List.nodup_cons.mpr ⟨?_, hnd⟩)
        rw [names_eq]
        exact hok hsig u hf
    · rw [h]
      rw [names_eq] at hnd ⊢
      exact hnd.sublist ((List.erase_sublist _ _).map _)
    · rw [h]; exact hnd
  | user_signal signal_name parameters object reply =>
    show (names (user_signal_cb s signal_name parameters object reply).1).Nodup
    have hok1 : (deref (user_signal_cb s signal_name parameters object reply).1.heap
        object.user).name = (deref s.heap object.user).name := hok
    rcases user_signal_cb_state s signal_name parameters object reply with h | h
    · rw [h] at hok1 ⊢
      rw [names_eq] at hnd ⊢
      have : s.users.map (fun p => (deref (update_user s.heap object reply).1 p).name) =
          s.users.map (fun p => (deref s.heap p).name) := by
        apply List.map_congr_left
        intro p _
        by_cases hp : object.user = p
        · rw [← hp]; exact hok1
        · rw [update_user_other _ _ _ hp]
      show (s.users.map (fun p => (deref (update_user s.heap object reply).1 p).name)).Nodup
      rw [this]
      exact hnd
    · rw [h]; exact hnd

/-- C6, as stated, fails, in two ways. A first load from a passwd database
that holds the name a twice lists two records named a. After the enumeration
of amy and bob, a UserAdded notification for the path of amy lists a second
record named amy. Both states are reachable. -/
theorem names_not_unique :
    (Reachable twice_listed ∧ ¬ (names twice_listed).Nodup) ∧
    (Reachable amy_added_again ∧ ¬ (names amy_added_again).Nodup) := by
  refine ⟨⟨?_, by decide⟩, ⟨?_, by decide⟩⟩
  · exact ReachableWhen.step _ _ ReachableWhen.created True.intro True.intro
  · refine ReachableWhen.step _ _ (ReachableWhen.step _ _ ReachableWhen.created ?_ ?_) ?_ ?_
    · exact True.intro
    · exact True.intro
    · show (run lightdm_user_list_new (Action.query two_accounts)).1.accounts_service_proxy =
        true
      decide
    · exact True.intro

/-- C6, amended: in every state reached through passwd loads whose accepted
entries have pairwise distinct names, an initial enumeration whose accounts
bring pairwise distinct names, UserAdded notifications whose account brings a
name that is not in the list, UserDeleted, and Changed notifications that leave
the name of their account as it was, no two entries of the list have the same
name. -/
theorem names_unique (s : LightDMUserList) (h : ReachableWhen keeps_names_distinct s) :
    (names s).Nodup := by
  induction h with
  | created => exact List.nodup_nil
  | step s a hr he hok ih =>
    obtain ⟨hs, hnew⟩ := reachableWhen_wellFormed hr
    exact run_names_nodup hs hnew he hok ih

theorem carl_added_reachable : ReachableWhen keeps_names_distinct carl_added := by
  refine ReachableWhen.step _ _ (ReachableWhen.step _ _ ReachableWhen.created ?_ ?_) ?_ ?_
  · exact True.intro
  · refine ⟨fun h => absurd h (by decide), fun paths hp => ?_⟩
    have h1 : two_accounts.list_cached_users =
        some (GVariant.object_paths [cstr "/amy", cstr "/bob"]) := rfl
    rw [h1, Option.some.injEq, GVariant.object_paths.injEq] at hp
    rw [← hp]
    decide
  · show (run lightdm_user_list_new (Action.query two_accounts)).1.accounts_service_proxy = true
    decide
  · intro _ u hu
    have h1 : fetched_record (account_reply "carl" "Carl") =
        some ⟨cstr "carl", some (cstr "Carl"), none, none, false⟩ := by decide
    rw [h1, Option.some.injEq] at hu
    rw [← hu]
    decide

/-- Witness of C6, amended: amy and bob are enumerated, then the service
signals UserAdded for a new account carl; the list holds the three names. -/
theorem names_unique_witness :
    names carl_added = [cstr "amy", cstr "bob", cstr "carl"] ∧ (names carl_added).Nodup :=
  ⟨by decide, names_unique carl_added carl_added_reachable⟩

/-! ## Defaults of the configuration -/

theorem is_system_user_500 {e : passwd} (huid : e.pw_uid < 2 ^ 32) :
    is_system_user e 500 = false ↔ 500 ≤ e.pw_uid := by
  unfold is_system_user
  rw [decide_eq_false_iff_not]
  norm_num at huid ⊢
  omega

theorem has_hidden_shell_default (e : passwd) :
    has_hidden_shell e [cstr "/bin/false", cstr "/usr/sbin/nologin"] = false ↔
      ∀ shell, e.pw_shell = some shell →
        shell ≠ cstr "/bin/false" ∧ shell ≠ cstr "/usr/sbin/nologin" := by
  unfold has_hidden_shell
  cases e.pw_shell with
  | none => simp
  | some sh =>
    simp only [List.any_cons, List.any_nil, Bool.or_false, Bool.or_eq_false_iff,
      Option.some.injEq, forall_eq']
    rw [← Bool.not_eq_true, ← Bool.not_eq_true, strcmp_beq_iff, strcmp_beq_iff]

theorem is_hidden_user_default (e : passwd) :
    is_hidden_user e [cstr "nobody", cstr "nobody4", cstr "noaccess"] = false ↔
      e.pw_name ≠ cstr "nobody" ∧ e.pw_name ≠ cstr "nobody4" ∧ e.pw_name ≠ cstr "noaccess" := by
  unfold is_hidden_user
  simp only [List.any_cons, List.any_nil, Bool.or_false, Bool.or_eq_false_iff]
  rw [← Bool.not_eq_true, ← Bool.not_eq_true, ← Bool.not_eq_true, strcmp_beq_iff,
    strcmp_beq_iff, strcmp_beq_iff]

/-- C11: with no configuration key set, load_passwd_file uses the minimum UID
500, the hidden users nobody, nobody4 and noaccess and the hidden shells
/bin/false and /usr/sbin/nologin; its scanning loop merges an entry (of
unsigned 32-bit UID) exactly when the entry is accepted, and an entry is
accepted if and only if its UID is at least 500, its shell is absent or is
neither hidden shell, and its name is none of the three hidden names. -/
theorem default_filters (e : passwd) (huid : e.pw_uid < 2 ^ 32) :
    minimum_uid no_config = 500 ∧
    hidden_users no_config = [cstr "nobody", cstr "nobody4", cstr "noaccess"] ∧
    hidden_shells no_config = [cstr "/bin/false", cstr "/usr/sbin/nologin"] ∧
    (∀ (env : PasswdEnv) (old_users : List Nat) (have_users : Bool) (st : Scan),
      env.config = no_config →
      scan_entry env old_users have_users st e =
        if accepted no_config e then
          merge_user old_users have_users st (candidate env.g_file_test e)
        else st) ∧
    (accepted no_config e = true ↔
      500 ≤ e.pw_uid ∧
      (∀ shell, e.pw_shell = some shell →
        shell ≠ cstr "/bin/false" ∧ shell ≠ cstr "/usr/sbin/nologin") ∧
      e.pw_name ≠ cstr "nobody" ∧ e.pw_name ≠ cstr "nobody4" ∧
        e.pw_name ≠ cstr "noaccess") := by
  have h1 : minimum_uid no_config = 500 := rfl
  have h2 : hidden_users no_config = [cstr "nobody", cstr "nobody4", cstr "noaccess"] := by
    decide
  have h3 : hidden_shells no_config = [cstr "/bin/false", cstr "/usr/sbin/nologin"] := by
    decide
  refine ⟨h1, h2, h3, ?_, ?_⟩
  · intro env old_users have_users st hc
    rw [scan_entry_eq, hc]
  · rw [accepted_iff, h1, h2, h3, is_system_user_500 huid, has_hidden_shell_default,
      is_hidden_user_default]

/-- Witness of C11: alice with UID 1000 and shell /bin/sh is accepted under the
defaults. -/
theorem default_filters_witness :
    (account "alice" 1000 "Alice").pw_uid < 2 ^ 32 ∧
    accepted no_config (account "alice" 1000 "Alice") = true ∧
    accepted no_config (account "daemon" 499 "") = false ∧
    accepted no_config (account "noaccess" 1000 "") = false ∧
    (accepted no_config (account "alice" 1000 "Alice") = true ↔
      500 ≤ (account "alice" 1000 "Alice").pw_uid ∧
      (∀ shell, (account "alice" 1000 "Alice").pw_shell = some shell →
        shell ≠ cstr "/bin/false" ∧ shell ≠ cstr "/usr/sbin/nologin") ∧
      (account "alice" 1000 "Alice").pw_name ≠ cstr "nobody" ∧
        (account "alice" 1000 "Alice").pw_name ≠ cstr "nobody4" ∧
        (account "alice" 1000 "Alice").pw_name ≠ cstr "noaccess") :=
  ⟨by decide, by decide, by decide, by decide,
    (default_filters (account "alice" 1000 "Alice") (by decide)).2.2.2.2⟩

/-! ## Read failures, and the events of one pass -/

/-- C12, as stated, fails: alice and bob are listed, then a reload reads alice
and fails with errno 5. The read failure is logged, yet the list is replaced by
the list of the entries read so far (alice alone) and user-removed is emitted
for bob. -/
theorem read_failure_replaces_list :
    load_passwd_file_warns read_failure = true ∧
    (load_passwd_file first_load_state alice_bob).1.users = [0, 1] ∧
    (load_passwd_file (load_passwd_file first_load_state alice_bob).1 read_failure).1.users =
      [0] ∧
    signals (load_passwd_file (load_passwd_file first_load_state alice_bob).1 read_failure).2 =
      [Signal.user_removed 1] := by
  decide

/-- C12, amended: when reading the account database fails during
load_passwd_file (the entry stream ends with a non-zero errno), the failure is
logged and the pass goes on exactly as after a successful read of the same
entries: the list built from the entries read before the failure is installed
(its names are those of the accepted entries read) and the events of that list
are emitted. -/
theorem read_failure_only_warns (s : LightDMUserList) (env : PasswdEnv) (hs : WellFormed s)
    (hu : s.have_users = true) (herr : env.errno ≠ 0) :
    load_passwd_file_warns env = true ∧
    load_passwd_file s env = load_passwd_file s { env with errno := 0 } ∧
    (names (load_passwd_file s env).1).Perm ((candidates env).map (fun c => c.name)) ∧
    removed (load_passwd_file s env).2 =
      s.users.filter (fun info => !(load_passwd_file s env).1.users.contains info) := by
  have gen := scan_gen s env hu hs.users_valid
  refine ⟨?_, rfl, ?_, load_removed s env⟩
  · simp [load_passwd_file_warns, herr]
  · rw [names_eq, load_users, load_heap]
    exact gen.users_names

/-- Witness of C12, amended: alice and bob are listed and the reload fails
after alice. -/
theorem read_failure_only_warns_witness :
    read_failure.errno ≠ 0 ∧
    (load_passwd_file_warns read_failure = true ∧
    load_passwd_file (load_passwd_file first_load_state alice_bob).1 read_failure =
      load_passwd_file (load_passwd_file first_load_state alice_bob).1
        { read_failure with errno := 0 } ∧
    (names (load_passwd_file (load_passwd_file first_load_state alice_bob).1
      read_failure).1).Perm ((candidates read_failure).map (fun c => c.name)) ∧
    removed (load_passwd_file (load_passwd_file first_load_state alice_bob).1
        read_failure).2 =
      (load_passwd_file first_load_state alice_bob).1.users.filter
        (fun info => !(load_passwd_file (load_passwd_file first_load_state alice_bob).1
          read_failure).1.users.contains info)) :=
  ⟨by decide,
    read_failure_only_warns _ read_failure (load_wellFormed _ wellFormed_first rfl) rfl
      (by decide)⟩

/-- C14: in load_passwd_file every signal of a pass is emitted while the user
list already holds the complete new list: a listener that reads the list during
any signal of the pass reads exactly the list the pass installs. -/
theorem events_after_install (s : LightDMUserList) (env : PasswdEnv) :
    ∀ e ∈ (load_passwd_file s env).2, e.users = (load_passwd_file s env).1.users := by
  intro e he
  rw [load_log_eq] at he
  rw [load_users]
  rcases List.mem_append.mp he with he | he
  · rcases List.mem_append.mp he with he | he
    · obtain ⟨p, _, rfl⟩ := List.mem_map.mp he
      rfl
    · unfold notify_changed at he
      obtain ⟨l, hl, hel⟩ := List.mem_flatten.mp he
      obtain ⟨p, _, rfl⟩ := List.mem_map.mp hl
      unfold emit_changed at hel
      rw [List.eq_of_mem_replicate hel]
      rfl
  · unfold notify_removed at he
    obtain ⟨p, _, rfl⟩ := List.mem_map.mp he
    rfl

/-! ## Bookkeeping of the accounts-service path -/

theorem tracked_new : Tracked lightdm_user_list_new where
  listed := by simp [lightdm_user_list_new]
  connected := by simp [lightdm_user_list_new]
  distinct := by simp [lightdm_user_list_new]
  users_nodup := by simp [lightdm_user_list_new]
  no_monitor := by simp [lightdm_user_list_new]
  no_objects := by simp [lightdm_user_list_new]

theorem add_account_tracked {s : LightDMUserList} (path : CString) (reply : AccountReply)
    (hs : WellFormed s) (ht : Tracked s) (hp : s.accounts_service_proxy = true) :
    Tracked (add_account s path reply).1 ∧
      (add_account s path reply).1.accounts_service_proxy = true := by
  cases h : fetched_record reply with
  | none =>
    obtain ⟨l, hl⟩ := add_account_none (s := s) path h
    rw [hl]
    exact ⟨⟨ht.listed, ht.connected, ht.distinct, ht.users_nodup, ht.no_monitor,
      ht.no_objects⟩, hp⟩
  | some u =>
    rw [add_account_some path h]
    refine ⟨⟨?_, ?_, ?_, ?_, ht.no_monitor, ?_⟩, hp⟩
    · intro o ho
      rcases List.mem_append.mp ho with ho | ho
      · exact mem_insert_sorted.mpr (Or.inr (ht.listed o ho))
      · rw [List.mem_singleton] at ho
        rw [ho]
        exact mem_insert_sorted.mpr (Or.inl rfl)
    · intro o ho
      rcases List.mem_append.mp ho with ho | ho
      · exact List.mem_append_left _ (ht.connected o ho)
      · rw [List.mem_singleton] at ho
        rw [ho]
        exact List.mem_append_right _ (List.mem_singleton.mpr rfl)
    · show ((s.user_account_objects ++ [UserAccountObject.mk path s.heap.length]).map
        (fun o => o.user)).Nodup
      rw [List.map_append, List.map_singleton]
      refine List.nodup_append.mpr ⟨ht.distinct, List.nodup_singleton _, ?_⟩
      intro p hp1 hp2
      rw [List.mem_singleton] at hp2
      obtain ⟨o, ho, rfl⟩ := List.mem_map.mp hp1
      have := hs.users_valid _ (ht.listed o ho)
      have hp3 : o.user = s.heap.length := hp2
      omega
    · intro _
      refine (insert_sorted_perm _ _ _).nodup_iff.mpr
        (List.nodup_cons.mpr ⟨?_, ht.users_nodup hp⟩)
      intro hmem
      have := hs.users_valid _ hmem
      omega
    · intro hf
      exact absurd hp (by rw [show s.accounts_service_proxy = false from hf]; simp)

theorem foldl_add_account_tracked (account : CString → AccountReply) (paths : List CString) :
    ∀ s : LightDMUserList, WellFormed s → Tracked s → s.accounts_service_proxy = true →
      Tracked (paths.foldl (fun acc path => (add_account acc path (account path)).1) s) := by
  induction paths with
  | nil => intro s _ ht _; exact ht
  | cons p ps ih =>
    intro s hs ht hp
    rw [List.foldl_cons]
    obtain ⟨ht1, hp1⟩ := add_account_tracked p (account p) hs ht hp
    exact ih _ (add_account_wellFormed p (account p) hs) ht1 hp1

theorem update_users_tracked {s : LightDMUserList} (env : Env) (hs : WellFormed s)
    (hnew : s.have_users = false → s = lightdm_user_list_new) (ht : Tracked s) :
    Tracked (update_users s env).1 := by
  unfold update_users
  by_cases hu : s.have_users = true
  · rw [if_pos hu]; exact ht
  · rw [if_neg hu]
    rw [Bool.not_eq_true] at hu
    have hsnew := hnew hu
    have ho : s.user_account_objects = [] := by rw [hsnew]; rfl
    have hp : s.accounts_service_proxy = false := by rw [hsnew]; rfl
    have hus : s.users = [] := by rw [hsnew]; rfl
    have hm : s.passwd_monitor = false := by rw [hsnew]; rfl
    have ht2 : Tracked { s with have_users := true, accounts_service_proxy := true } :=
      ⟨ht.listed, ht.connected, ht.distinct, fun _ => by rw [hus]; exact List.nodup_nil,
        fun _ => hm, fun h => by cases h⟩
    have hs2 : WellFormed { s with have_users := true, accounts_service_proxy := true } :=
      ⟨hs.users_valid, hs.handlers_valid, hs.handlers_nodup, hs.users_connected,
        hs.not_logged_in⟩
    by_cases ha : env.accounts_service = true
    · rw [if_pos ha]
      cases hl : env.list_cached_users with
      | none => exact ht2
      | some v =>
        cases v with
        | object_paths paths => exact foldl_add_account_tracked _ paths _ hs2 ht2 rfl
        | unit => exact ht2
        | string _ => exact ht2
        | object_path _ => exact ht2
        | other => exact ht2
    · rw [if_neg ha]
      refine ⟨?_, ?_, ?_, ?_, ?_, ?_⟩
      · intro o hmem
        rw [show (load_passwd_file { s with have_users := true }
          env.passwd).1.user_account_objects = [] from ho] at hmem
        cases hmem
      · intro o hmem
        rw [show (load_passwd_file { s with have_users := true }
          env.passwd).1.user_account_objects = [] from ho] at hmem
        cases hmem
      · rw [show (load_passwd_file { s with have_users := true }
          env.passwd).1.user_account_objects = [] from ho]
        exact List.nodup_nil
      · intro h
        rw [show (load_passwd_file { s with have_users := true }
          env.passwd).1.accounts_service_proxy = false from hp] at h
        cases h
      · intro h
        rw [show (load_passwd_file { s with have_users := true }
          env.passwd).1.accounts_service_proxy = false from hp] at h
        cases h
      · intro _
        exact ho

theorem run_tracked {s : LightDMUserList} {a : Action} (hs : WellFormed s) (ht : Tracked s)
    (hnew : s.have_users = false → s = lightdm_user_list_new) (he : enabled s a) :
    Tracked (run s a).1 := by
  cases a with
  | query env => exact update_users_tracked env hs hnew ht
  | passwd_changed event_type env =>
    have hm : s.passwd_monitor = true := he
    have hp : s.accounts_service_proxy = false := by
      by_contra hp
      rw [Bool.not_eq_false] at hp
      rw [ht.no_monitor hp] at hm
      cases hm
    have ho := ht.no_objects hp
    show Tracked (passwd_changed_cb s event_type env).1
    unfold passwd_changed_cb
    split_ifs
    · refine ⟨?_, ?_, ?_, ?_, ?_, ?_⟩
      · intro o hmem
        rw [show (load_passwd_file s env).1.user_account_objects = [] from ho] at hmem
        cases hmem
      · intro o hmem
        rw [show (load_passwd_file s env).1.user_account_objects = [] from ho] at hmem
        cases hmem
      · rw [show (load_passwd_file s env).1.user_account_objects = [] from ho]
        exact List.nodup_nil
      · intro h
        rw [show (load_passwd_file s env).1.accounts_service_proxy = false from hp] at h
        cases h
      · intro h
        rw [show (load_passwd_file s env).1.accounts_service_proxy = false from hp] at h
        cases h
      · intro _
        exact ho
    · exact ht
  | accounts_signal signal_name parameters reply =>
    have hp : s.accounts_service_proxy = true := he
    show Tracked (user_accounts_signal_cb s signal_name parameters reply).1
    rcases user_accounts_signal_cb_state s signal_name parameters reply with
      ⟨path, _, h⟩ | ⟨object, hobj, h⟩ | h
    · rw [h]; exact (add_account_tracked path reply hs ht hp).1
    · rw [h]
      have hond : s.user_account_objects.Nodup := List.Nodup.of_map _ ht.distinct
      refine ⟨?_, ?_, ?_, ?_, ht.no_monitor, ?_⟩
      · intro o ho
        have ho2 := (hond.mem_erase_iff).mp ho
        have hne : o.user ≠ object.user := by
          intro heq
          exact ho2.1 (List.inj_on_of_nodup_map ht.distinct ho2.2 hobj heq)
        exact (List.mem_erase_of_ne hne).mpr (ht.listed o ho2.2)
      · intro o ho
        exact ht.connected o (List.mem_of_mem_erase ho)
      · exact ht.distinct.sublist ((List.erase_sublist _ _).map _)
      · intro _
        exact (ht.users_nodup hp).sublist (List.erase_sublist _ _)
      · intro hf
        exact absurd hp (by rw [show s.accounts_service_proxy = false from hf]; simp)
    · rw [h]; exact ht
  | user_signal signal_name parameters object reply =>
    show Tracked (user_signal_cb s signal_name parameters object reply).1
    rcases user_signal_cb_state s signal_name parameters object reply with h | h
    · rw [h]
      exact ⟨ht.listed, ht.connected, ht.distinct, ht.users_nodup, ht.no_monitor,
        ht.no_objects⟩
    · rw [h]; exact ht

/-- Every reachable state keeps the books of the accounts-service path. -/
theorem reachableWhen_tracked {ok : LightDMUserList → Action → Prop} {s : LightDMUserList}
    (h : ReachableWhen ok s) : Tracked s := by
  induction h with
  | created => exact tracked_new
  | step s a hr he _ ih =>
    obtain ⟨hs, hnew⟩ := reachableWhen_wellFormed hr
    exact run_tracked hs ih hnew he

/-! ## The callbacks of the accounts service, by signal -/

theorem user_added_eq (s : LightDMUserList) (path : CString) (reply : AccountReply) :
    user_accounts_signal_cb s (cstr "UserAdded") (GVariant.object_path path) reply =
      match add_account s path reply with
      | (s1, some user) => (s1, [⟨Signal.user_added user, s1.users⟩])
      | (s1, none) => (s1, []) := by
  unfold user_accounts_signal_cb
  rw [if_pos (strcmp_self _)]

theorem user_deleted_eq (s : LightDMUserList) (path : CString) (reply : AccountReply) :
    user_accounts_signal_cb s (cstr "UserDeleted") (GVariant.object_path path) reply =
      match s.user_account_objects.find? (fun object => strcmp object.proxy path == 0) with
      | some object =>
        ({ s with users := g_list_remove s.users object.user,
                  user_account_objects := s.user_account_objects.erase object },
         [⟨Signal.user_removed object.user, g_list_remove s.users object.user⟩])
      | none => (s, []) := by
  unfold user_accounts_signal_cb
  rw [if_neg (by decide), if_pos (strcmp_self _)]

theorem user_changed_eq (s : LightDMUserList) (object : UserAccountObject)
    (reply : Option (List (CString × GVariant))) :
    user_signal_cb s (cstr "Changed") GVariant.unit object reply =
      ({ s with heap := (update_user s.heap object reply).1 },
       emit_changed s.changed_handlers s.users object.user) := by
  unfold user_signal_cb
  rw [if_pos (strcmp_self _)]

/-- C15, as stated, fails: amy and bob are enumerated and amy signals Changed.
When the fetch fails, and when it returns the stored user name and real name
again, the heap is left as it was and still one user-changed signal is emitted
for amy. -/
theorem changed_relayed_without_change :
    Reachable amy_bob_listed ∧ amy_object ∈ amy_bob_listed.user_account_objects ∧
    (user_signal_cb amy_bob_listed (cstr "Changed") GVariant.unit amy_object none).1 =
      amy_bob_listed ∧
    signals (user_signal_cb amy_bob_listed (cstr "Changed") GVariant.unit amy_object none).2 =
      [Signal.user_changed 0] ∧
    (user_signal_cb amy_bob_listed (cstr "Changed") GVariant.unit amy_object
      (account_reply "amy" "Amy").properties).1 = amy_bob_listed ∧
    signals (user_signal_cb amy_bob_listed (cstr "Changed") GVariant.unit amy_object
      (account_reply "amy" "Amy").properties).2 = [Signal.user_changed 0] := by
  refine ⟨?_, by decide, by decide, by decide, by decide, by decide⟩
  exact ReachableWhen.step _ _ ReachableWhen.created True.intro True.intro

/-- C15, amended: on the directory-service path, a per-account Changed
notification (user_signal_cb) of a tracked account re-fetches the properties of
the account into its record and emits exactly one user-changed signal for that
record, whatever the fetch returns: also when the fetched values equal the
stored ones and when the fetch fails. The list itself is left as it was. -/
theorem changed_always_relayed (s : LightDMUserList) (object : UserAccountObject)
    (reply : Option (List (CString × GVariant))) (h : Reachable s)
    (ho : object ∈ s.user_account_objects) :
    (user_signal_cb s (cstr "Changed") GVariant.unit object reply).2 =
      [⟨Signal.user_changed object.user, s.users⟩] ∧
    (user_signal_cb s (cstr "Changed") GVariant.unit object reply).1.users = s.users ∧
    (user_signal_cb s (cstr "Changed") GVariant.unit object reply).1.heap =
      (update_user s.heap object reply).1 := by
  obtain ⟨hs, _⟩ := reachableWhen_wellFormed h
  have ht := reachableWhen_tracked h
  rw [user_changed_eq]
  refine ⟨?_, rfl, rfl⟩
  show emit_changed s.changed_handlers s.users object.user = _
  unfold emit_changed
  rw [List.count_eq_one_of_mem hs.handlers_nodup (ht.connected object ho)]
  rfl

/-- Witness of C15, amended: amy and bob are enumerated and amy signals
Changed with the new real name Zoe. -/
theorem changed_always_relayed_witness :
    amy_object ∈ amy_bob_listed.user_account_objects ∧
    ((user_signal_cb amy_bob_listed (cstr "Changed") GVariant.unit amy_object
        (some [(cstr "RealName", GVariant.string (cstr "Zoe"))])).2 =
      [⟨Signal.user_changed amy_object.user, amy_bob_listed.users⟩] ∧
    (user_signal_cb amy_bob_listed (cstr "Changed") GVariant.unit amy_object
        (some [(cstr "RealName", GVariant.string (cstr "Zoe"))])).1.users =
      amy_bob_listed.users ∧
    (user_signal_cb amy_bob_listed (cstr "Changed") GVariant.unit amy_object
        (some [(cstr "RealName", GVariant.string (cstr "Zoe"))])).1.heap =
      (update_user amy_bob_listed.heap amy_object
        (some [(cstr "RealName", GVariant.string (cstr "Zoe"))])).1) :=
  ⟨by decide,
    changed_always_relayed amy_bob_listed amy_object _
      (ReachableWhen.step _ _ ReachableWhen.created True.intro True.intro) (by decide)⟩

/-! ## UserAdded, UserDeleted and the initial enumeration -/

theorem insert_sorted_split (l : List Nat) (x : Nat) (f : Nat → Nat → Int) :
    ∃ l1 l2, l = l1 ++ l2 ∧ g_list_insert_sorted l x f = l1 ++ x :: l2 ∧
      (∀ y ∈ l1, 0 < f x y) ∧ (∀ y, l2.head? = some y → f x y ≤ 0) := by
  induction l with
  | nil => exact ⟨[], [], rfl, rfl, by simp, by simp⟩
  | cons a as ih =>
    simp only [g_list_insert_sorted]
    split_ifs with hc
    · obtain ⟨l1, l2, h1, h2, h3, h4⟩ := ih
      refine ⟨a :: l1, l2, by rw [h1]; rfl, by rw [h2]; rfl, ?_, h4⟩
      intro y hy
      rcases List.mem_cons.mp hy with rfl | hy
      · omega
      · exact h3 y hy
    · refine ⟨[], a :: as, rfl, rfl, by simp, ?_⟩
      intro y hy
      rw [List.head?_cons, Option.some.injEq] at hy
      rw [← hy]
      omega

theorem fetched_record_eq_none (reply : AccountReply) :
    fetched_record reply = none ↔ reply.proxy = false ∨ reply.properties = none := by
  unfold fetched_record
  cases reply.proxy <;> cases reply.properties <;> simp

/-- C16: on a UserAdded notification with an object path. When the proxy is
opened and the fetch succeeds, a new record holding the fetched properties is
put in the list at its sorted position (before it only records that compare
strictly below it, right after it a record that does not; the previous entries
keep their records and their order, and a sorted list stays sorted), and
exactly one user-added signal, carrying the new record, is emitted. When
opening the proxy or fetching fails, the list is as it was and nothing is
emitted. -/
theorem user_added_inserts (s : LightDMUserList) (path : CString) (reply : AccountReply)
    (hs : WellFormed s) :
    (∀ u, fetched_record reply = some u →
      s.heap.length ∉ s.users ∧
      deref (user_accounts_signal_cb s (cstr "UserAdded") (GVariant.object_path path)
        reply).1.heap s.heap.length = u ∧
      (∃ l1 l2, s.users = l1 ++ l2 ∧
        (user_accounts_signal_cb s (cstr "UserAdded") (GVariant.object_path path)
          reply).1.users = l1 ++ s.heap.length :: l2 ∧
        (∀ y ∈ l1, 0 < compare_user (user_accounts_signal_cb s (cstr "UserAdded")
          (GVariant.object_path path) reply).1.heap s.heap.length y) ∧
        (∀ y, l2.head? = some y → compare_user (user_accounts_signal_cb s (cstr "UserAdded")
          (GVariant.object_path path) reply).1.heap s.heap.length y ≤ 0)) ∧
      (∀ p ∈ s.users, deref (user_accounts_signal_cb s (cstr "UserAdded")
        (GVariant.object_path path) reply).1.heap p = deref s.heap p) ∧
      (SortedUsers s.heap s.users →
        SortedUsers
          (user_accounts_signal_cb s (cstr "UserAdded") (GVariant.object_path path)
            reply).1.heap
          (user_accounts_signal_cb s (cstr "UserAdded") (GVariant.object_path path)
            reply).1.users) ∧
      (user_accounts_signal_cb s (cstr "UserAdded") (GVariant.object_path path) reply).2 =
        [⟨Signal.user_added s.heap.length,
          (user_accounts_signal_cb s (cstr "UserAdded") (GVariant.object_path path)
            reply).1.users⟩]) ∧
    (reply.proxy = false ∨ reply.properties = none →
      (user_accounts_signal_cb s (cstr "UserAdded") (GVariant.object_path path)
        reply).1.users = s.users ∧
      (∀ p ∈ s.users, deref (user_accounts_signal_cb s (cstr "UserAdded")
        (GVariant.object_path path) reply).1.heap p = deref s.heap p) ∧
      (user_accounts_signal_cb s (cstr "UserAdded") (GVariant.object_path path) reply).2 =
        []) := by
  constructor
  · intro u hu
    have hsorted := add_account_sorted (s := s) path reply hs
    rw [user_added_eq]
    rw [add_account_some path hu] at hsorted ⊢
    have hnot : s.heap.length ∉ s.users := fun hmem => by
      have := hs.users_valid _ hmem
      omega
    refine ⟨hnot, deref_append_length _ _, insert_sorted_split _ _ _, ?_, hsorted, rfl⟩
    intro p hp
    exact deref_append_left _ (hs.users_valid p hp)
  · intro hfail
    have hnone := (fetched_record_eq_none reply).mpr hfail
    obtain ⟨l, hl⟩ := add_account_none (s := s) path hnone
    rw [user_added_eq, hl]
    refine ⟨rfl, ?_, rfl⟩
    intro p hp
    exact deref_append_left _ (hs.users_valid p hp)

theorem amy_bob_listed_reachable : Reachable amy_bob_listed :=
  ReachableWhen.step _ _ ReachableWhen.created True.intro True.intro

theorem wellFormed_of_reachable {s : LightDMUserList} (h : Reachable s) : WellFormed s :=
  (reachableWhen_wellFormed h).1

/-- Witness of C16: amy and bob are enumerated, then carl is added and lands
after bob; a UserAdded whose proxy cannot be opened changes nothing. -/
theorem user_added_inserts_witness :
    fetched_record (account_reply "carl" "Carl") =
      some ⟨cstr "carl", some (cstr "Carl"), none, none, false⟩ ∧
    amy_bob_listed.users = [0, 1] ∧
    (user_accounts_signal_cb amy_bob_listed (cstr "UserAdded")
      (GVariant.object_path (cstr "/carl")) (account_reply "carl" "Carl")).1.users =
      [0, 1, 2] ∧
    (user_accounts_signal_cb amy_bob_listed (cstr "UserAdded")
      (GVariant.object_path (cstr "/carl")) (account_reply "carl" "Carl")).2 =
      [⟨Signal.user_added amy_bob_listed.heap.length,
        (user_accounts_signal_cb amy_bob_listed (cstr "UserAdded")
          (GVariant.object_path (cstr "/carl")) (account_reply "carl" "Carl")).1.users⟩] ∧
    (user_accounts_signal_cb amy_bob_listed (cstr "UserAdded")
      (GVariant.object_path (cstr "/carl")) ⟨false, none⟩).2 = [] :=
  ⟨by decide, by decide, by decide,
    ((user_added_inserts amy_bob_listed (cstr "/carl") (account_reply "carl" "Carl")
      (wellFormed_of_reachable amy_bob_listed_reachable)).1
      ⟨cstr "carl", some (cstr "Carl"), none, none, false⟩ (by decide)).2.2.2.2.2,
    ((user_added_inserts amy_bob_listed (cstr "/carl") ⟨false, none⟩
      (wellFormed_of_reachable amy_bob_listed_reachable)).2 (Or.inl rfl)).2.2⟩

/-- C17: on a UserDeleted notification with an object path, in any reachable
state. When a tracked account object has that path (the first such object is
taken), its record is in the list and exactly that record is taken out, the
other entries staying in order; the object is dropped from the tracked objects;
and exactly one user-removed signal, carrying that record, is emitted. When no
tracked object has that path, the state is as it was and nothing is emitted. -/
theorem user_deleted_removes (s : LightDMUserList) (path : CString) (reply : AccountReply)
    (h : Reachable s) :
    (∀ object,
      s.user_account_objects.find? (fun object => strcmp object.proxy path == 0) =
        some object →
      object.user ∈ s.users ∧
      (user_accounts_signal_cb s (cstr "UserDeleted") (GVariant.object_path path)
        reply).1.users = s.users.filter (fun p => p != object.user) ∧
      (user_accounts_signal_cb s (cstr "UserDeleted") (GVariant.object_path path)
        reply).1.user_account_objects =
        s.user_account_objects.filter (fun o => o != object) ∧
      (user_accounts_signal_cb s (cstr "UserDeleted") (GVariant.object_path path)
        reply).1.heap = s.heap ∧
      (user_accounts_signal_cb s (cstr "UserDeleted") (GVariant.object_path path) reply).2 =
        [⟨Signal.user_removed object.user,
          (user_accounts_signal_cb s (cstr "UserDeleted") (GVariant.object_path path)
            reply).1.users⟩]) ∧
    (s.user_account_objects.find? (fun object => strcmp object.proxy path == 0) = none →
      user_accounts_signal_cb s (cstr "UserDeleted") (GVariant.object_path path) reply =
        (s, [])) := by
  have ht := reachableWhen_tracked h
  constructor
  · intro object hfind
    have hmem := List.mem_of_find?_eq_some hfind
    have hproxy : s.accounts_service_proxy = true := by
      by_contra hp
      rw [Bool.not_eq_true] at hp
      rw [ht.no_objects hp] at hmem
      cases hmem
    have hond : s.user_account_objects.Nodup := List.Nodup.of_map _ ht.distinct
    rw [user_deleted_eq, hfind]
    refine ⟨ht.listed object hmem, ?_, ?_, rfl, rfl⟩
    · exact (ht.users_nodup hproxy).erase_eq_filter object.user
    · exact hond.erase_eq_filter object
  · intro hfind
    rw [user_deleted_eq, hfind]

/-- Witness of C17: amy and bob are enumerated, then amy is deleted: bob alone
stays, both in the list and among the tracked objects. -/
theorem user_deleted_removes_witness :
    amy_bob_listed.user_account_objects.find?
      (fun object => strcmp object.proxy (cstr "/amy") == 0) = some amy_object ∧
    (user_accounts_signal_cb amy_bob_listed (cstr "UserDeleted")
      (GVariant.object_path (cstr "/amy")) ⟨false, none⟩).1.users = [1] ∧
    signals (user_accounts_signal_cb amy_bob_listed (cstr "UserDeleted")
      (GVariant.object_path (cstr "/amy")) ⟨false, none⟩).2 = [Signal.user_removed 0] ∧
    (amy_object.user ∈ amy_bob_listed.users ∧
      (user_accounts_signal_cb amy_bob_listed (cstr "UserDeleted")
        (GVariant.object_path (cstr "/amy")) ⟨false, none⟩).1.users =
        amy_bob_listed.users.filter (fun p => p != amy_object.user) ∧
      (user_accounts_signal_cb amy_bob_listed (cstr "UserDeleted")
        (GVariant.object_path (cstr "/amy")) ⟨false, none⟩).1.user_account_objects =
        amy_bob_listed.user_account_objects.filter (fun o => o != amy_object) ∧
      (user_accounts_signal_cb amy_bob_listed (cstr "UserDeleted")
        (GVariant.object_path (cstr "/amy")) ⟨false, none⟩).1.heap = amy_bob_listed.heap ∧
      (user_accounts_signal_cb amy_bob_listed (cstr "UserDeleted")
        (GVariant.object_path (cstr "/amy")) ⟨false, none⟩).2 =
        [⟨Signal.user_removed amy_object.user,
          (user_accounts_signal_cb amy_bob_listed (cstr "UserDeleted")
            (GVariant.object_path (cstr "/amy")) ⟨false, none⟩).1.users⟩]) :=
  ⟨by decide, by decide, by decide,
    (user_deleted_removes amy_bob_listed (cstr "/amy") ⟨false, none⟩
      amy_bob_listed_reachable).1 amy_object (by decide)⟩

/-! ## The initial enumeration -/

theorem add_account_records_some {s : LightDMUserList} (path : CString) {reply : AccountReply}
    {u : LightDMUser} (hs : WellFormed s) (h : fetched_record reply = some u) :
    (records (add_account s path reply).1).Perm (u :: records s) := by
  unfold records
  rw [add_account_some path h]
  refine ((insert_sorted_perm _ _ _).map _).trans ?_
  rw [List.map_cons]
  show (deref (s.heap ++ [u]) s.heap.length :: s.users.map (deref (s.heap ++ [u]))).Perm _
  rw [deref_append_length,
    List.map_congr_left (fun p hp => deref_append_left _ (hs.users_valid p hp))]

theorem add_account_records_none {s : LightDMUserList} (path : CString) {reply : AccountReply}
    (hs : WellFormed s) (h : fetched_record reply = none) :
    records (add_account s path reply).1 = records s := by
  obtain ⟨l, hl⟩ := add_account_none (s := s) path h
  unfold records
  rw [hl]
  exact List.map_congr_left (fun p hp => deref_append_left _ (hs.users_valid p hp))

theorem foldl_add_account_records (account : CString → AccountReply) (paths : List CString) :
    ∀ s : LightDMUserList, WellFormed s →
      (records (paths.foldl (fun acc path => (add_account acc path (account path)).1) s)).Perm
        (paths.filterMap (fun path => fetched_record (account path)) ++ records s) := by
  induction paths with
  | nil => intro s _; exact List.Perm.refl _
  | cons p ps ih =>
    intro s hs
    rw [List.foldl_cons]
    refine (ih _ (add_account_wellFormed p (account p) hs)).trans ?_
    cases h : fetched_record (account p) with
    | none =>
      rw [add_account_records_none p hs h]
      simp only [List.filterMap_cons, h]
      exact List.Perm.refl _
    | some u =>
      simp only [List.filterMap_cons, h]
      rw [List.cons_append]
      exact ((add_account_records_some p hs h).append_left _).trans List.perm_middle

theorem foldl_add_account_objects (account : CString → AccountReply) (paths : List CString) :
    ∀ s : LightDMUserList,
      (paths.foldl (fun acc path => (add_account acc path (account path)).1)
          s).user_account_objects.map (fun o => o.proxy) =
        s.user_account_objects.map (fun o => o.proxy) ++
          paths.filter (fun path => (fetched_record (account path)).isSome) := by
  induction paths with
  | nil => intro s; simp
  | cons p ps ih =>
    intro s
    rw [List.foldl_cons, ih]
    cases h : fetched_record (account p) with
    | none =>
      obtain ⟨l, hl⟩ := add_account_none (s := s) p h
      rw [hl]
      simp [List.filter_cons, h]
    | some u =>
      rw [add_account_some p h]
      simp [List.filter_cons, h]

/-- C18: at first use, when the accounts service is reached and ListCachedUsers
returns a list of account references, the records of the resulting list are, up
to order, the records fetched for the references whose proxy is made and whose
fetch succeeds, one for each, and none for a reference where either fails; the
tracked objects are those references, in order, so a failure does not stop the
enumeration of the references after it. No signal is emitted. -/
theorem enumeration_keeps_fetched (env : Env) (paths : List CString)
    (ha : env.accounts_service = true)
    (hl : env.list_cached_users = some (GVariant.object_paths paths)) :
    (records (update_users lightdm_user_list_new env).1).Perm
      (paths.filterMap (fun path => fetched_record (env.account path))) ∧
    (update_users lightdm_user_list_new env).1.user_account_objects.map (fun o => o.proxy) =
      paths.filter (fun path => (fetched_record (env.account path)).isSome) ∧
    (update_users lightdm_user_list_new env).2 = [] := by
  have hs2 : WellFormed enumeration_state :=
    ⟨by simp [enumeration_state, first_load_state, lightdm_user_list_new],
      by simp [enumeration_state, first_load_state, lightdm_user_list_new],
      by simp [enumeration_state, first_load_state, lightdm_user_list_new],
      by simp [enumeration_state, first_load_state, lightdm_user_list_new],
      by simp [enumeration_state, first_load_state, lightdm_user_list_new]⟩
  have hu : update_users lightdm_user_list_new env =
      (paths.foldl (fun acc path => (add_account acc path (env.account path)).1)
        enumeration_state, []) := by
    unfold update_users
    rw [if_neg (by decide), if_pos ha, hl]
    rfl
  rw [hu]
  refine ⟨?_, ?_, rfl⟩
  · have := foldl_add_account_records env.account paths _ hs2
    simpa [records, enumeration_state, first_load_state, lightdm_user_list_new] using this
  · have := foldl_add_account_objects env.account paths enumeration_state
    simpa [enumeration_state, first_load_state, lightdm_user_list_new] using this

/-- Witness of C18: the service lists amy, a reference whose properties cannot
be fetched, and bob; the list holds the records of amy and bob. -/
theorem enumeration_keeps_fetched_witness :
    (update_users lightdm_user_list_new three_references).1.users = [0, 2] ∧
    three_references.accounts_service = true ∧
    ((records (update_users lightdm_user_list_new three_references).1).Perm
      ([cstr "/amy", cstr "/gone", cstr "/bob"].filterMap
        (fun path => fetched_record (three_references.account path))) ∧
    (update_users lightdm_user_list_new three_references).1.user_account_objects.map
        (fun o => o.proxy) =
      [cstr "/amy", cstr "/gone", cstr "/bob"].filter
        (fun path => (fetched_record (three_references.account path)).isSome) ∧
    (update_users lightdm_user_list_new three_references).2 = []) :=
  ⟨by decide, rfl,
    enumeration_keeps_fetched three_references [cstr "/amy", cstr "/gone", cstr "/bob"] rfl rfl⟩

/-! ## Backend selection -/

theorem update_users_of_have_users {s : LightDMUserList} (env : Env)
    (hu : s.have_users = true) : update_users s env = (s, []) := by
  unfold update_users
  rw [if_pos hu]

theorem update_users_have_users (s : LightDMUserList) (env : Env) :
    (update_users s env).1.have_users = true := by
  unfold update_users
  by_cases hu : s.have_users = true
  · rw [if_pos hu]; exact hu
  · rw [if_neg hu]
    by_cases ha : env.accounts_service = true
    · rw [if_pos ha]
      cases hl : env.list_cached_users with
      | none => rfl
      | some v =>
        cases v with
        | object_paths paths =>
          exact foldl_add_account_have_users env.account paths _
        | unit => rfl
        | string _ => rfl
        | object_path _ => rfl
        | other => rfl
    · rw [if_neg ha]
      rfl

theorem run_have_users {s : LightDMUserList} (a : Action) (hu : s.have_users = true) :
    (run s a).1.have_users = true := by
  cases a with
  | query env => exact update_users_have_users s env
  | passwd_changed event_type env =>
    show (passwd_changed_cb s event_type env).1.have_users = true
    unfold passwd_changed_cb
    split_ifs
    · exact hu
    · exact hu
  | accounts_signal signal_name parameters reply =>
    show (user_accounts_signal_cb s signal_name parameters reply).1.have_users = true
    rcases user_accounts_signal_cb_state s signal_name parameters reply with
      ⟨path, _, h⟩ | ⟨object, _, h⟩ | h
    · rw [h, add_account_have_users]; exact hu
    · rw [h]; exact hu
    · rw [h]; exact hu
  | user_signal signal_name parameters object reply =>
    show (user_signal_cb s signal_name parameters object reply).1.have_users = true
    rcases user_signal_cb_state s signal_name parameters object reply with h | h
    · rw [h]; exact hu
    · rw [h]; exact hu

theorem reachableFrom_have_users {s0 s : LightDMUserList} (h : ReachableFrom s0 s)
    (hu : s0.have_users = true) : s.have_users = true := by
  induction h with
  | start => exact hu
  | step s a _ _ ih => exact run_have_users a ih

/-- C20: after the first query on a new user list, whatever the outcome of its
backend selection, every later call of update_users, in any state reached from
there, returns the state as it is and emits nothing, whatever the accounts
service, the passwd database and the file monitor would answer; the three
query entry points then only read the list. -/
theorem selection_runs_once (env0 : Env) (s : LightDMUserList)
    (h : ReachableFrom (update_users lightdm_user_list_new env0).1 s) (env : Env) :
    (update_users lightdm_user_list_new env0).1.have_users = true ∧
    update_users s env = (s, []) ∧
    lightdm_user_list_get_users s env = ((s, []), s.users) ∧
    lightdm_user_list_get_length s env = ((s, []), s.users.length) ∧
    ∀ username, lightdm_user_list_get_user_by_name s env username =
      ((s, []), get_user_by_name s.heap s.users username) := by
  have h0 := update_users_have_users lightdm_user_list_new env0
  have hu := reachableFrom_have_users h h0
  have he := update_users_of_have_users env hu
  refine ⟨h0, he, ?_, ?_, ?_⟩
  · unfold lightdm_user_list_get_users
    rw [he]
  · unfold lightdm_user_list_get_length
    rw [he]
  · intro username
    unfold lightdm_user_list_get_user_by_name
    rw [he]

/-- Witness of C20: the first query finds the accounts service but
ListCachedUsers fails; a later query, for which the service would not even be
reachable and passwd would hold alice and bob, changes nothing. -/
theorem selection_runs_once_witness :
    (update_users lightdm_user_list_new list_fails).1.have_users = true ∧
    update_users (update_users lightdm_user_list_new list_fails).1
        (passwd_only [account "alice" 1000 "Alice"]) =
      ((update_users lightdm_user_list_new list_fails).1, []) ∧
    lightdm_user_list_get_users (update_users lightdm_user_list_new list_fails).1
        (passwd_only [account "alice" 1000 "Alice"]) =
      (((update_users lightdm_user_list_new list_fails).1, []),
        (update_users lightdm_user_list_new list_fails).1.users) ∧
    lightdm_user_list_get_length (update_users lightdm_user_list_new list_fails).1
        (passwd_only [account "alice" 1000 "Alice"]) =
      (((update_users lightdm_user_list_new list_fails).1, []),
        (update_users lightdm_user_list_new list_fails).1.users.length) ∧
    ∀ username, lightdm_user_list_get_user_by_name
        (update_users lightdm_user_list_new list_fails).1
        (passwd_only [account "alice" 1000 "Alice"]) username =
      (((update_users lightdm_user_list_new list_fails).1, []),
        get_user_by_name (update_users lightdm_user_list_new list_fails).1.heap
          (update_users lightdm_user_list_new list_fails).1.users username) :=
  selection_runs_once list_fails _ ReachableFrom.start
    (passwd_only [account "alice" 1000 "Alice"])

/-- A user list that fell back to passwd: the flag is raised, there is no
proxy of the accounts service and no tracked account. -/
theorem passwd_backed_step {s : LightDMUserList} {a : Action}
    (hs : s.have_users = true ∧ s.accounts_service_proxy = false ∧
      s.user_account_objects = [])
    (he : enabled s a) :
    ((run s a).1.have_users = true ∧ (run s a).1.accounts_service_proxy = false ∧
      (run s a).1.user_account_objects = []) ∧
    ((∃ env, a = Action.query env) ∨ ∃ event_type env, a = Action.passwd_changed event_type env)
    := by
  obtain ⟨hu, hp, ho⟩ := hs
  cases a with
  | query env =>
    refine ⟨?_, Or.inl ⟨env, rfl⟩⟩
    have hr : (run s (Action.query env)).1 = s := by
      show (update_users s env).1 = s
      rw [update_users_of_have_users env hu]
    rw [hr]
    exact ⟨hu, hp, ho⟩
  | passwd_changed event_type env =>
    refine ⟨?_, Or.inr ⟨event_type, env, rfl⟩⟩
    have h3 : (passwd_changed_cb s event_type env).1.have_users = s.have_users ∧
        (passwd_changed_cb s event_type env).1.accounts_service_proxy =
          s.accounts_service_proxy ∧
        (passwd_changed_cb s event_type env).1.user_account_objects =
          s.user_account_objects := by
      unfold passwd_changed_cb
      split_ifs
      · exact ⟨rfl, rfl, rfl⟩
      · exact ⟨rfl, rfl, rfl⟩
    exact ⟨h3.1.trans hu, h3.2.1.trans hp, h3.2.2.trans ho⟩
  | accounts_signal signal_name parameters reply =>
    have he1 : s.accounts_service_proxy = true := he
    rw [hp] at he1
    cases he1
  | user_signal signal_name parameters object reply =>
    have he1 : object ∈ s.user_account_objects := he
    rw [ho] at he1
    cases he1

theorem reachableFrom_passwd_backed {s0 s : LightDMUserList} (h : ReachableFrom s0 s)
    (h0 : s0.have_users = true ∧ s0.accounts_service_proxy = false ∧
      s0.user_account_objects = []) :
    s.have_users = true ∧ s.accounts_service_proxy = false ∧ s.user_account_objects = [] := by
  induction h with
  | start => exact h0
  | step s a _ he ih => exact (passwd_backed_step ih he).1

/-- C19: when, at first use, the proxy of the accounts service is not
obtained, update_users populates the list by load_passwd_file (and arms the
file monitor if it can); in every state reached from there the user list has no
proxy of the accounts service and tracks no account, so that no enumeration is
run and the only actions that can still run are queries and the handler of the
file monitor, never a handler of the accounts service. -/
theorem passwd_fallback_is_final (env0 : Env) (s : LightDMUserList)
    (ha : env0.accounts_service = false)
    (h : ReachableFrom (update_users lightdm_user_list_new env0).1 s) :
    update_users lightdm_user_list_new env0 =
      ({ (load_passwd_file first_load_state env0.passwd).1 with
          passwd_monitor := env0.g_file_monitor },
        (load_passwd_file first_load_state env0.passwd).2) ∧
    s.accounts_service_proxy = false ∧ s.user_account_objects = [] ∧
    (∀ env, update_users s env = (s, [])) ∧
    ∀ a, enabled s a →
      (∃ env, a = Action.query env) ∨
        ∃ event_type env, a = Action.passwd_changed event_type env := by
  have hu : update_users lightdm_user_list_new env0 =
      ({ (load_passwd_file first_load_state env0.passwd).1 with
          passwd_monitor := env0.g_file_monitor },
        (load_passwd_file first_load_state env0.passwd).2) := by
    unfold update_users
    rw [if_neg (by decide), if_neg (by rw [ha]; decide)]
    rfl
  have h0 : (update_users lightdm_user_list_new env0).1.have_users = true ∧
      (update_users lightdm_user_list_new env0).1.accounts_service_proxy = false ∧
      (update_users lightdm_user_list_new env0).1.user_account_objects = [] := by
    rw [hu]
    exact ⟨rfl, rfl, rfl⟩
  have hs := reachableFrom_passwd_backed h h0
  refine ⟨hu, hs.2.1, hs.2.2, fun env => update_users_of_have_users env hs.1, ?_⟩
  intro a he
  exact (passwd_backed_step hs he).2

theorem fallback_later_reachable :
    ReachableFrom (update_users lightdm_user_list_new (passwd_only alice_bob.entries)).1
      fallback_later := by
  refine ReachableFrom.step _ (Action.query two_accounts)
    (ReachableFrom.step _
      (Action.passwd_changed GFileMonitorEvent.CHANGES_DONE_HINT alice_disabled)
      ReachableFrom.start ?_) True.intro
  show (update_users lightdm_user_list_new (passwd_only alice_bob.entries)).1.passwd_monitor =
    true
  decide

/-- Witness of C19: the accounts service is unreachable at the first query and
alice and bob are loaded from passwd; after the file changed and was reloaded,
a query for which the service would answer still finds no proxy. -/
theorem passwd_fallback_is_final_witness :
    (passwd_only alice_bob.entries).accounts_service = false ∧
    fallback_later.users = [1] ∧
    fallback_later.accounts_service_proxy = false ∧
    fallback_later.user_account_objects = [] :=
  ⟨rfl, by decide,
    (passwd_fallback_is_final (passwd_only alice_bob.entries) fallback_later rfl
      fallback_later_reachable).2.1,
    (passwd_fallback_is_final (passwd_only alice_bob.entries) fallback_later rfl
      fallback_later_reachable).2.2.1⟩

/-- Witness of C14: in the reload of A, B by B, C the user-removed signal for A
is emitted while the list is already B, C. -/
theorem events_after_install_witness :
    (load_passwd_file (load_passwd_file first_load_state accounts_A_B).1 accounts_B_C).2 =
      [⟨Signal.user_added 3, [1, 3]⟩, ⟨Signal.user_removed 0, [1, 3]⟩] ∧
    (⟨Signal.user_removed 0, [1, 3]⟩ : Emission) ∈
      (load_passwd_file (load_passwd_file first_load_state accounts_A_B).1 accounts_B_C).2 ∧
    (⟨Signal.user_removed 0, [1, 3]⟩ : Emission).users =
      (load_passwd_file (load_passwd_file first_load_state accounts_A_B).1
        accounts_B_C).1.users :=
  ⟨by decide, by decide,
    events_after_install (load_passwd_file first_load_state accounts_A_B).1 accounts_B_C
      ⟨Signal.user_removed 0, [1, 3]⟩ (by decide)⟩

/-! ## The UID test -/

/-- C25: the UID test of load_passwd_file compares the unsigned 32-bit UID of
the entry with the signed 32-bit minimum converted modulo 2^32. An entry that
the test catches is skipped by the scanning loop. For a minimum m that is not
negative the test catches the entry if and only if uid < m; for a negative m it
catches it if and only if uid < 2^32 + m, so that every UID below 2^31 is
caught. -/
theorem uid_test_is_unsigned (e : passwd) (m : Int) (huid : e.pw_uid < 2 ^ 32)
    (hlo : -(2 ^ 31) ≤ m) (hhi : m < 2 ^ 31) :
    (∀ (env : PasswdEnv) (old_users : List Nat) (have_users : Bool) (st : Scan),
      minimum_uid env.config = m → is_system_user e m = true →
      scan_entry env old_users have_users st e = st) ∧
    (0 ≤ m → (is_system_user e m = true ↔ (e.pw_uid : Int) < m)) ∧
    (m < 0 → (is_system_user e m = true ↔ (e.pw_uid : Int) < 2 ^ 32 + m)) ∧
    (m < 0 → e.pw_uid < 2 ^ 31 → is_system_user e m = true) := by
  refine ⟨?_, ?_, ?_, ?_⟩
  · intro env old_users have_users st hm hsys
    unfold scan_entry
    rw [hm, if_pos hsys]
  · intro h0
    unfold is_system_user
    rw [decide_eq_true_iff]
    norm_num at huid hlo hhi ⊢
    omega
  · intro h0
    unfold is_system_user
    rw [decide_eq_true_iff]
    norm_num at huid hlo hhi ⊢
    omega
  · intro h0 h1
    unfold is_system_user
    rw [decide_eq_true_iff]
    norm_num at huid hlo hhi h1 ⊢
    omega

/-- Witness of C25: with the minimum -1 the account alice of UID 1000 is caught
by the test, since 1000 < 2^32 - 1. -/
theorem uid_test_is_unsigned_witness :
    (account "alice" 1000 "Alice").pw_uid < 2 ^ 32 ∧ -(2 ^ 31) ≤ (-1 : Int) ∧
    (-1 : Int) < 2 ^ 31 ∧ is_system_user (account "alice" 1000 "Alice") (-1) = true ∧
    (load_passwd_file first_load_state
      { alice_bob with config := { no_config with minimum_uid := some (-1) } }).1.users = [] ∧
    ((-1 : Int) < 0 →
      (is_system_user (account "alice" 1000 "Alice") (-1) = true ↔
        ((account "alice" 1000 "Alice").pw_uid : Int) < 2 ^ 32 + (-1))) :=
  ⟨by decide, by decide, by decide, by decide, by decide,
    (uid_test_is_unsigned (account "alice" 1000 "Alice") (-1) (by decide) (by decide)
      (by decide)).2.2.1⟩

/-! ## The real name of an entry -/

theorem split_pieces_head (d : Nat) (s : CString) :
    ∃ ts, split_pieces d s = s.takeWhile (fun c => c != d) :: ts := by
  induction s with
  | nil => exact ⟨[], rfl⟩
  | cons c cs ih =>
    obtain ⟨ts, hts⟩ := ih
    by_cases hc : c = d
    · refine ⟨split_pieces d cs, ?_⟩
      simp [split_pieces, hc]
    · refine ⟨ts, ?_⟩
      simp [split_pieces, hc, hts]

theorem real_name_of_eq (g : CString) :
    real_name_of g =
      if g.takeWhile (fun c => c != 44) = [] then none
      else some (g.takeWhile (fun c => c != 44)) := by
  unfold real_name_of g_strsplit
  by_cases hg : g = []
  · subst hg
    rfl
  · obtain ⟨ts, hts⟩ := split_pieces_head 44 g
    rw [if_neg hg, hts]
    cases h : g.takeWhile (fun c => c != 44) with
    | nil => rfl
    | cons c cs => simp

theorem takeWhile_of_not_mem (d : Nat) (g : CString) (h : d ∉ g) :
    g.takeWhile (fun c => c != d) = g := by
  rw [List.takeWhile_eq_self_iff]
  intro c hc
  simp only [bne_iff_ne, ne_eq]
  intro hcd
  exact h (hcd ▸ hc)

/-- C21: an entry accepted by load_passwd_file is merged as the record built by
candidate. The real name of that record is the part of the gecos field before
its first comma, which is the whole field when it holds no comma; when that part
is empty the real name is absent, and then the display name of the record is the
account name and compare_user orders the record by the account name. When the
part is not empty it is the display name. With accepted names pairwise distinct
every record of the installed list is such a record. -/
theorem real_name_is_first_gecos_part (env : PasswdEnv) (e : passwd)
    (hacc : accepted env.config e = true) :
    (∀ (old_users : List Nat) (have_users : Bool) (st : Scan),
      scan_entry env old_users have_users st e =
        merge_user old_users have_users st (candidate env.g_file_test e)) ∧
    (candidate env.g_file_test e).name = e.pw_name ∧
    (candidate env.g_file_test e).real_name =
      (if e.pw_gecos.takeWhile (fun c => c != 44) = [] then none
       else some (e.pw_gecos.takeWhile (fun c => c != 44))) ∧
    (44 ∉ e.pw_gecos → e.pw_gecos.takeWhile (fun c => c != 44) = e.pw_gecos) ∧
    (e.pw_gecos.takeWhile (fun c => c != 44) = [] →
      (candidate env.g_file_test e).real_name = none ∧
      lightdm_user_get_display_name (candidate env.g_file_test e) = e.pw_name ∧
      ∀ (heap : Heap) (a b : Nat), deref heap a = candidate env.g_file_test e →
        compare_user heap a b = strcmp e.pw_name (lightdm_user_get_display_name (deref heap b))) ∧
    (e.pw_gecos.takeWhile (fun c => c != 44) ≠ [] →
      lightdm_user_get_display_name (candidate env.g_file_test e) =
        e.pw_gecos.takeWhile (fun c => c != 44)) ∧
    (∀ s : LightDMUserList, WellFormed s → s.have_users = true → e ∈ env.entries →
      ((candidates env).map (fun c => c.name)).Nodup →
      candidate env.g_file_test e ∈ records (load_passwd_file s env).1) := by
  have hreal : (candidate env.g_file_test e).real_name =
      (if e.pw_gecos.takeWhile (fun c => c != 44) = [] then none
       else some (e.pw_gecos.takeWhile (fun c => c != 44))) := real_name_of_eq e.pw_gecos
  refine ⟨?_, rfl, hreal, takeWhile_of_not_mem 44 e.pw_gecos, ?_, ?_, ?_⟩
  · intro old_users have_users st
    rw [scan_entry_eq, if_pos hacc]
  · intro hempty
    have hnone : (candidate env.g_file_test e).real_name = none := by
      rw [hreal, if_pos hempty]
    have hdisp : lightdm_user_get_display_name (candidate env.g_file_test e) = e.pw_name := by
      unfold lightdm_user_get_display_name
      rw [hnone]
      rfl
    refine ⟨hnone, hdisp, ?_⟩
    intro heap a b ha
    unfold compare_user
    rw [ha, hdisp]
  · intro hne
    unfold lightdm_user_get_display_name
    rw [hreal, if_neg hne]
    cases h : e.pw_gecos.takeWhile (fun c => c != 44) with
    | nil => exact absurd h hne
    | cons c cs => rfl
  · intro s hs hu hmem hnd
    obtain ⟨rs, inv⟩ := scan_nodup s env hu hs.users_valid hnd
    refine (load_records_perm inv).symm.subset ?_
    unfold candidates
    exact List.mem_map_of_mem _ (List.mem_filter.mpr ⟨hmem, hacc⟩)

/-- Witness of C21: the gecos field of carol starts with a comma, so her record
has no real name and is shown and sorted as carol. -/
theorem real_name_is_first_gecos_part_witness :
    accepted no_config (account "carol" 1002 ",Room 3") = true ∧
    (candidate (fun _ => false) (account "carol" 1002 ",Room 3")).real_name = none ∧
    (candidate (fun _ => false) (account "dave" 1003 "Dave D,Room 4")).real_name =
      some (cstr "Dave D") ∧
    (candidate (fun _ => false) (account "erin" 1004 "Erin")).real_name = some (cstr "Erin") ∧
    lightdm_user_get_display_name
      (candidate (plain_env [account "carol" 1002 ",Room 3"]).g_file_test
        (account "carol" 1002 ",Room 3")) = (account "carol" 1002 ",Room 3").pw_name :=
  ⟨by decide, by decide, by decide, by decide,
    ((real_name_is_first_gecos_part (plain_env [account "carol" 1002 ",Room 3"])
      (account "carol" 1002 ",Room 3") (by decide)).2.2.2.2.1 (by decide)).2.1⟩

/-! ## Lookup by name -/

theorem get_user_by_name_eq_some_iff (heap : Heap) (users : List Nat) (username : CString)
    (p : Nat) :
    get_user_by_name heap users username = some p ↔
      (deref heap p).name = username ∧
      ∃ before after, users = before ++ p :: after ∧
        ∀ q ∈ before, (deref heap q).name ≠ username := by
  unfold get_user_by_name
  rw [List.find?_eq_some]
  constructor
  · rintro ⟨hp, before, after, hus, hb⟩
    refine ⟨(strcmp_beq_iff _ _).mp hp, before, after, hus, ?_⟩
    intro q hq hname
    have := hb q hq
    rw [(strcmp_beq_iff _ _).mpr hname] at this
    exact absurd this (by decide)
  · rintro ⟨hp, before, after, hus, hb⟩
    refine ⟨(strcmp_beq_iff _ _).mpr hp, before, after, hus, ?_⟩
    intro q hq
    cases h : strcmp (deref heap q).name username == 0 with
    | false => rfl
    | true => exact absurd ((strcmp_beq_iff _ _).mp h) (hb q hq)

theorem get_user_by_name_eq_none_iff (heap : Heap) (users : List Nat) (username : CString) :
    get_user_by_name heap users username = none ↔
      ∀ q ∈ users, (deref heap q).name ≠ username := by
  unfold get_user_by_name
  rw [List.find?_eq_none]
  constructor
  · intro h q hq hname
    exact h q hq ((strcmp_beq_iff _ _).mpr hname)
  · intro h q hq hb
    exact h q hq ((strcmp_beq_iff _ _).mp hb)

/-- C22: lightdm_user_list_get_user_by_name searches the list left by
update_users. It returns a record p if and only if p carries the name asked for
and is the first record of the list that does; so it returns some record with
that name if and only if the list holds one, and NULL if and only if the list
holds none. Once the list is populated the call leaves the list, the records and
the whole state as they were and emits nothing. -/
theorem lookup_returns_first_match (s : LightDMUserList) (env : Env) (username : CString) :
    (∀ p, (lightdm_user_list_get_user_by_name s env username).2 = some p ↔
      (deref (update_users s env).1.heap p).name = username ∧
      ∃ before after, (update_users s env).1.users = before ++ p :: after ∧
        ∀ q ∈ before, (deref (update_users s env).1.heap q).name ≠ username) ∧
    ((∃ p, (lightdm_user_list_get_user_by_name s env username).2 = some p ∧
        (deref (update_users s env).1.heap p).name = username) ↔
      ∃ q ∈ (update_users s env).1.users,
        (deref (update_users s env).1.heap q).name = username) ∧
    ((lightdm_user_list_get_user_by_name s env username).2 = none ↔
      ∀ q ∈ (update_users s env).1.users,
        (deref (update_users s env).1.heap q).name ≠ username) ∧
    (s.have_users = true →
      (lightdm_user_list_get_user_by_name s env username).1 = (s, []) ∧
      (lightdm_user_list_get_user_by_name s env username).2 =
        get_user_by_name s.heap s.users username) := by
  have hres : (lightdm_user_list_get_user_by_name s env username).2 =
      get_user_by_name (update_users s env).1.heap (update_users s env).1.users username := rfl
  refine ⟨?_, ?_, ?_, ?_⟩
  · intro p
    rw [hres]
    exact get_user_by_name_eq_some_iff _ _ _ _
  · rw [hres]
    constructor
    · rintro ⟨p, hp, hname⟩
      obtain ⟨-, before, after, hus, -⟩ := (get_user_by_name_eq_some_iff _ _ _ _).mp hp
      exact ⟨p, by rw [hus]; simp, hname⟩
    · rintro ⟨q, hq, hname⟩
      cases h : get_user_by_name (update_users s env).1.heap (update_users s env).1.users
          username with
      | none => exact absurd hname ((get_user_by_name_eq_none_iff _ _ _).mp h q hq)
      | some p => exact ⟨p, rfl, ((get_user_by_name_eq_some_iff _ _ _ _).mp h).1⟩
  · rw [hres]
    exact get_user_by_name_eq_none_iff _ _ _
  · intro hu
    have h : update_users s env = (s, []) := update_users_of_have_users env hu
    constructor
    · exact h
    · rw [hres, h]

/-- Witness of C22: in the list amy, bob the lookup of bob returns his record,
the second one, and leaves the state alone. -/
theorem lookup_returns_first_match_witness :
    amy_bob_listed.have_users = true ∧
    (lightdm_user_list_get_user_by_name amy_bob_listed list_fails (cstr "bob")).2 = some 1 ∧
    (lightdm_user_list_get_user_by_name amy_bob_listed list_fails (cstr "zed")).2 = none ∧
    (lightdm_user_list_get_user_by_name amy_bob_listed list_fails (cstr "bob")).1 =
      (amy_bob_listed, []) :=
  ⟨by decide, by decide, by decide,
    ((lookup_returns_first_match amy_bob_listed list_fails (cstr "bob")).2.2.2 (by decide)).1⟩

/-! ## A failed enumeration -/

theorem list_failure_state (env : Env) (ha : env.accounts_service = true)
    (hl : env.list_cached_users = none) :
    update_users lightdm_user_list_new env =
      ({ lightdm_user_list_new with have_users := true, accounts_service_proxy := true }, []) := by
  unfold update_users
  rw [if_neg (by decide), if_pos ha, hl]

theorem emptyService_step {s : LightDMUserList} (h : EmptyService s) (a : Action)
    (hen : enabled s a) (hok : no_user_added a) : EmptyService (run s a).1 := by
  cases a with
  | query env =>
    have hr : (run s (Action.query env)).1 = s := by
      show (update_users s env).1 = s
      rw [update_users_of_have_users env h.have_users]
    rw [hr]
    exact h
  | passwd_changed event_type env =>
    have hm : s.passwd_monitor = true := hen
    rw [h.monitor] at hm
    exact absurd hm (by decide)
  | accounts_signal signal_name parameters reply =>
    have hne : strcmp signal_name (cstr "UserAdded") ≠ 0 := hok
    have hr : (run s (Action.accounts_signal signal_name parameters reply)).1 = s := by
      show (user_accounts_signal_cb s signal_name parameters reply).1 = s
      rcases user_accounts_signal_cb_state s signal_name parameters reply with
        ⟨path, hadd, -⟩ | ⟨object, hmem, -⟩ | hsame
      · exact absurd hadd hne
      · rw [h.objects] at hmem
        exact absurd hmem (List.not_mem_nil _)
      · exact hsame
    rw [hr]
    exact h
  | user_signal signal_name parameters object reply =>
    have hmem : object ∈ s.user_account_objects := hen
    rw [h.objects] at hmem
    exact absurd hmem (List.not_mem_nil _)

theorem emptyService_of_reachable {s0 s : LightDMUserList} (h0 : EmptyService s0)
    (h : ReachableFromWhen no_user_added s0 s) : EmptyService s := by
  induction h with
  | start => exact h0
  | step s a _ hen hok ih => exact emptyService_step ih a hen hok

theorem list_failed_later_reachable :
    ReachableFromWhen no_user_added (update_users lightdm_user_list_new list_fails).1
      list_failed_later := by
  have h0 : ReachableFromWhen no_user_added (update_users lightdm_user_list_new list_fails).1
      list_failed := ReachableFromWhen.start
  have h1 := ReachableFromWhen.step list_failed
    (Action.query (passwd_only [account "alice" 1000 "Alice"])) h0 True.intro True.intro
  exact ReachableFromWhen.step _
    (Action.accounts_signal (cstr "UserDeleted") (GVariant.object_path (cstr "/amy"))
      (account_reply "amy" "Amy")) h1
    (by show (run list_failed
          (Action.query (passwd_only [account "alice" 1000 "Alice"]))).1.accounts_service_proxy
          = true
        decide)
    (by show strcmp (cstr "UserDeleted") (cstr "UserAdded") ≠ 0
        decide)

/-- C24: when at first use the proxy of the accounts service is obtained and
ListCachedUsers fails, update_users returns with the empty list, emits nothing
and does not arm the passwd monitor. In every state reached from there by
queries and callbacks other than a UserAdded notification the list is empty,
the passwd monitor is not armed, and each query leaves the state as it is and
answers the empty list, the length 0 and not found for every name, whatever the
passwd source would hold. -/
theorem failed_enumeration_stays_empty (env0 : Env) (ha : env0.accounts_service = true)
    (hl : env0.list_cached_users = none) (s : LightDMUserList)
    (hs : ReachableFromWhen no_user_added (update_users lightdm_user_list_new env0).1 s) :
    (update_users lightdm_user_list_new env0).1.users = [] ∧
    (update_users lightdm_user_list_new env0).2 = [] ∧
    (update_users lightdm_user_list_new env0).1.passwd_monitor = false ∧
    s.users = [] ∧ s.passwd_monitor = false ∧
    ∀ (env : Env) (username : CString),
      lightdm_user_list_get_users s env = ((s, []), []) ∧
      lightdm_user_list_get_length s env = ((s, []), 0) ∧
      lightdm_user_list_get_user_by_name s env username = ((s, []), none) := by
  have hst := list_failure_state env0 ha hl
  have h0 : EmptyService (update_users lightdm_user_list_new env0).1 := by
    rw [hst]
    exact ⟨rfl, rfl, rfl, rfl⟩
  have h := emptyService_of_reachable h0 hs
  refine ⟨h0.users, by rw [hst], h0.monitor, h.users, h.monitor, ?_⟩
  intro env username
  have hq : update_users s env = (s, []) := update_users_of_have_users env h.have_users
  refine ⟨?_, ?_, ?_⟩
  · unfold lightdm_user_list_get_users
    simp only [hq, h.users]
  · unfold lightdm_user_list_get_length
    simp only [hq, h.users, List.length_nil]
  · unfold lightdm_user_list_get_user_by_name
    simp only [hq, h.users]
    rfl

/-- Witness of C24: after the failed enumeration a query that offers alice from
passwd and a UserDeleted notification leave the list empty, and alice is not
found; a UserAdded notification for amy then puts her in the list. -/
theorem failed_enumeration_stays_empty_witness :
    list_fails.accounts_service = true ∧ list_fails.list_cached_users = none ∧
    (run list_failed_later
      (Action.accounts_signal (cstr "UserAdded") (GVariant.object_path (cstr "/amy"))
        (account_reply "amy" "Amy"))).1.users = [0] ∧
    list_failed_later.users = [] ∧
    lightdm_user_list_get_user_by_name list_failed_later
      (passwd_only [account "alice" 1000 "Alice"]) (cstr "alice") =
      ((list_failed_later, []), none) :=
  ⟨by decide, by decide, by decide,
    (failed_enumeration_stays_empty list_fails (by decide) (by decide) list_failed_later
      list_failed_later_reachable).2.2.2.1,
    ((failed_enumeration_stays_empty list_fails (by decide) (by decide) list_failed_later
      list_failed_later_reachable).2.2.2.2.2 (passwd_only [account "alice" 1000 "Alice"])
        (cstr "alice")).2.2⟩

/-! ## The order of the events of one pass -/

theorem signals_append (a b : List Emission) : signals (a ++ b) = signals a ++ signals b := by
  simp [signals]

theorem signals_notify_changed (handlers users l : List Nat) :
    signals (notify_changed handlers users l) =
      ((l.map (fun p => List.replicate (handlers.count p) p)).flatten).map
        Signal.user_changed := by
  unfold notify_changed
  induction l with
  | nil => rfl
  | cons x xs ih =>
    rw [List.map_cons, List.flatten_cons, signals_append, ih, List.map_cons, List.flatten_cons,
      List.map_append]
    congr 1
    simp [signals, emit_changed, user_changed_cb]

theorem flatten_replicate_one {f : Nat → Nat} {l : List Nat} (h : ∀ p ∈ l, f p = 1) :
    (l.map (fun p => List.replicate (f p) p)).flatten = l := by
  induction l with
  | nil => rfl
  | cons x xs ih =>
    rw [List.map_cons, List.flatten_cons, h x (List.mem_cons_self _ _),
      ih (fun p hp => h p (List.mem_cons_of_mem _ hp))]
    rfl

theorem load_signals (s : LightDMUserList) (env : PasswdEnv) :
    signals (load_passwd_file s env).2 =
      (added (load_passwd_file s env).2).map Signal.user_added ++
        (changed (load_passwd_file s env).2).map Signal.user_changed ++
        (removed (load_passwd_file s env).2).map Signal.user_removed := by
  rw [load_added, load_changed, load_removed, load_log_eq, signals_append, signals_append,
    signals_notify_changed]
  simp [signals, notify_removed, Function.comp_def]

theorem mergeStep_new_sorted {old : List Nat} {h0 : Heap} {st st1 : Scan} {c : LightDMUser}
    {cs : List LightDMUser} (hold : ∀ p ∈ old, p < h0.length) (inv : ScanGen old h0 st cs)
    (hs : MergeStep old h0 true st c st1) (hsorted : SortedUsers st.heap st.new_users) :
    SortedUsers st1.heap st1.new_users := by
  cases hs with
  | matched info hfind hlen1 hrec hother husers hnew hchanged =>
    rw [hnew]
    have hi0 := hold info (get_user_by_name_some hfind).1
    refine sorted_of_display_eq ?_ hsorted
    intro p hp
    have hv := inv.new_valid p hp
    rw [hother p (by omega) hv.2]
  | fresh hfind hheap husers hnew hchanged =>
    rw [hnew, if_pos rfl]
    refine insert_sorted_pairwise (compare_user_total st1.heap)
      (fun _ _ _ => compare_user_trans) ?_
    refine sorted_of_display_eq ?_ hsorted
    intro p hp
    have hv := inv.new_valid p hp
    rw [hheap, deref_append_left _ hv.2]

theorem foldl_new_sorted {old : List Nat} {h0 : Heap} (hold : ∀ p ∈ old, p < h0.length)
    (cs2 : List LightDMUser) :
    ∀ (st : Scan) (cs : List LightDMUser), ScanGen old h0 st cs →
      (∀ c ∈ cs2, c.logged_in = false) → SortedUsers st.heap st.new_users →
      SortedUsers (cs2.foldl (merge_user old true) st).heap
        (cs2.foldl (merge_user old true) st).new_users := by
  induction cs2 with
  | nil => intro st cs _ _ h; exact h
  | cons c cs2 ih =>
    intro st cs inv hc hsorted
    have hstep := merge_user_step true c hold inv.len inv.names
    have hgen := scanGen_step hold inv (hc c (List.mem_cons_self _ _)) hstep
    exact ih _ _ hgen (fun d hd => hc d (List.mem_cons_of_mem _ hd))
      (mergeStep_new_sorted hold inv hstep hsorted)

theorem scan_new_sorted (s : LightDMUserList) (env : PasswdEnv) (hu : s.have_users = true)
    (hv : ∀ p ∈ s.users, p < s.heap.length) :
    SortedUsers (scan env s).heap (scan env s).new_users := by
  rw [scan_eq, hu]
  exact foldl_new_sorted hv (candidates env) _ [] (scanGen_init s.users s.heap)
    (candidates_logged_in env) List.Pairwise.nil

theorem load_changed_eq {s : LightDMUserList} (env : PasswdEnv) (hs : WellFormed s)
    (hu : s.have_users = true) :
    changed (load_passwd_file s env).2 = (scan env s).changed_users := by
  have gen := scan_gen s env hu hs.users_valid
  rw [load_changed]
  apply flatten_replicate_one
  intro p hp
  have hold := (get_user_by_name_some (gen.changed_first p hp)).1
  have hnot : p ∉ (scan env s).new_users := fun hn => by
    have := (gen.new_valid p hn).1
    have := hs.users_valid p hold
    omega
  rw [List.count_append, List.count_eq_zero_of_not_mem hnot, Nat.add_zero]
  exact List.count_eq_one_of_mem hs.handlers_nodup (hs.users_connected p hold)

/-- C23, as stated, fails for the user-changed events. The accounts amy and bob
are loaded with the real names M and N; a reload reports amy as Z, bob as P and
amy once more as A. The pass emits user-changed for amy, bob and amy, whose
display names are then A, P and A: not in ascending order. -/
theorem changed_events_out_of_order :
    amy_bob_loaded.have_users = true ∧
    signals (load_passwd_file amy_bob_loaded amy_reported_twice).2 =
      [Signal.user_changed 0, Signal.user_changed 1, Signal.user_changed 0] ∧
    (changed (load_passwd_file amy_bob_loaded amy_reported_twice).2).map
      (fun p => lightdm_user_get_display_name
        (deref (load_passwd_file amy_bob_loaded amy_reported_twice).1.heap p)) =
      [cstr "A", cstr "P", cstr "A"] ∧
    ¬ SortedUsers (load_passwd_file amy_bob_loaded amy_reported_twice).1.heap
      (changed (load_passwd_file amy_bob_loaded amy_reported_twice).2) := by
  refine ⟨by decide, by decide, by decide, ?_⟩
  unfold SortedUsers
  decide

/-- C23, amended: within one pass of load_passwd_file the log is the user-added
events, then the user-changed events, then the user-removed events. The added
records are in ascending display-name order. When no two accepted entries of
the pass share a name, the changed records are in ascending order of their
updated display names. The removed records are the cells of the previous list
that are not in the new one, in the order of the previous list. -/
theorem events_in_fixed_order (s : LightDMUserList) (env : PasswdEnv) (hs : WellFormed s)
    (hu : s.have_users = true) :
    signals (load_passwd_file s env).2 =
      (added (load_passwd_file s env).2).map Signal.user_added ++
        (changed (load_passwd_file s env).2).map Signal.user_changed ++
        (removed (load_passwd_file s env).2).map Signal.user_removed ∧
    SortedUsers (load_passwd_file s env).1.heap (added (load_passwd_file s env).2) ∧
    (((candidates env).map (fun c => c.name)).Nodup →
      SortedUsers (load_passwd_file s env).1.heap (changed (load_passwd_file s env).2)) ∧
    removed (load_passwd_file s env).2 =
      s.users.filter (fun info => !(load_passwd_file s env).1.users.contains info) ∧
    (removed (load_passwd_file s env).2).Sublist s.users := by
  refine ⟨load_signals s env, ?_, ?_, load_removed s env, ?_⟩
  · rw [load_added, load_heap]
    exact scan_new_sorted s env hu hs.users_valid
  · intro hnd
    obtain ⟨rs, inv⟩ := scan_nodup s env hu hs.users_valid hnd
    rw [load_changed_eq env hs hu, load_heap, inv.changed_users]
    exact insert_all_sorted _ _
  · rw [load_removed]
    exact List.filter_sublist _

/-- Witness of C23: amy and bob are loaded; a reload renames them Zoe and Paul
and brings carl and abe. The pass reports abe and carl added, then bob (Paul)
and amy (Zoe) changed. -/
theorem events_in_fixed_order_witness :
    amy_bob_loaded.have_users = true ∧
    ((candidates renamed_and_new).map (fun c => c.name)).Nodup ∧
    signals (load_passwd_file amy_bob_loaded renamed_and_new).2 =
      [Signal.user_added 5, Signal.user_added 4, Signal.user_changed 1, Signal.user_changed 0] ∧
    SortedUsers (load_passwd_file amy_bob_loaded renamed_and_new).1.heap
      (changed (load_passwd_file amy_bob_loaded renamed_and_new).2) :=
  ⟨by decide, by decide, by decide,
    (events_in_fixed_order amy_bob_loaded renamed_and_new
      (load_wellFormed _ wellFormed_first rfl) (by decide)).2.2.1 (by decide)⟩

end LightDM
